import Mathlib

/-!
Verification of the search-algorithm engine of the repository
(src/algorithms/uninformed.py and src/algorithms/informed.py).

Embedding conventions:
* Locations are `String`s, as in the Python program (city names).
* A Python `dict` is embedded as an insertion-ordered association list
  whose keys are unique; `graph[k]` is first-match lookup and raising
  `KeyError` is embedded as returning `none` from the surrounding
  function (all search functions return `Option SearchResult`, where
  `none` means the Python run raises an exception).
* Edge weights are `Nat`: the repository's road map stores integer
  kilometre distances, and Python integers are unbounded.
* The `heapq` priority queue is embedded at the level of its contract:
  the heap is kept as a list, `heappush` appends, `heappop` removes a
  least element under the tuple ordering actually used by the code
  (leftmost least element; no verified claim depends on the order in
  which equal-priority entries are popped), and `heapify` — a
  permutation of the underlying list — is the identity on the list
  model.
* CPython's `id()` tie-breaker in `a_star_search` is embedded as a
  monotonically increasing insertion counter threaded through the loop,
  the deterministic replacement the specification itself prescribes for
  reimplementations (spec section 9).
* `while` loops become fuel-indexed tail recursions via `loopRun`; the
  fuel supplied by each top-level function strictly exceeds the number
  of iterations any run can perform (each iteration pops a state that
  is new to that run), so fuel exhaustion never occurs where the
  Python loop would return.
* The wall-clock `execution_time` field is omitted from the embedded
  result record: no claim mentions it and it is not statable.
* `set`/`dict` insertion into `explored` structures is embedded as an
  ordered list append; only membership in `explored` is ever consulted
  by the algorithms.
-/

namespace AlgSearch

/-- Adjacency mapping of one location: insertion-ordered (neighbor, weight)
pairs, embedding the inner Python dict. -/
abbrev Adj := List (String × Nat)

/-- A graph: insertion-ordered association list from location to its
adjacency mapping, embedding the outer Python dict. -/
abbrev Graph := List (String × Adj)

/-- First-match association-list lookup, the embedding of Python dict
indexing (keys of a dict are unique, so first match is the match). -/
def alookup {α : Type} (l : List (String × α)) (k : String) : Option α :=
  match l with
  | [] => none
  | (k', v) :: rest => if k' == k then some v else alookup rest k

/-- Dict assignment d[k] = v: replace the value at an existing key,
otherwise append the new binding. -/
def aset {α : Type} (l : List (String × α)) (k : String) (v : α) : List (String × α) :=
  match l with
  | [] => [(k, v)]
  | (k', v') :: rest => if k' == k then (k, v) :: rest else (k', v') :: aset rest k v

/-- Dict/set key removal (del d[k] or s.remove(k)): drop the first
binding of the key. -/
def adel {α : Type} (l : List (String × α)) (k : String) : List (String × α) :=
  match l with
  | [] => []
  | (k', v') :: rest => if k' == k then rest else (k', v') :: adel rest k

/-- Edge weight of u → v if present: graph[u][v]. -/
def edgeOf (g : Graph) (u v : String) : Option Nat :=
  (alookup g u).bind (fun adj => alookup adj v)

/-- Search-tree node, embedding class Node of uninformed.py: state,
parent link (none for the root), action label, cumulative path cost and
depth.  The root carries the constructor defaults path_cost=0, depth=0. -/
inductive Node where
  | root (state : String)
  | child (state : String) (parent : Node) (action : String)
      (path_cost : Nat) (depth : Nat)
deriving DecidableEq, Repr

/-- Field access node.state. -/
def Node.state : Node → String
  | .root s => s
  | .child s _ _ _ _ => s

/-- Field access node.path_cost (0 for a root node). -/
def Node.path_cost : Node → Nat
  | .root _ => 0
  | .child _ _ _ c _ => c

/-- Field access node.depth (0 for a root node). -/
def Node.depth : Node → Nat
  | .root _ => 0
  | .child _ _ _ _ d => d

/-- Node.path(): the walk from the initial node to this node, start
first.  The Python method accumulates states parent-ward and reverses;
the recursion below produces the same list. -/
def Node.path : Node → List String
  | .root s => [s]
  | .child s p _ _ _ => p.path ++ [s]

/-- Node.expand(graph): one child per neighbor of graph[self.state], in
the adjacency's insertion order; none embeds the KeyError raised when
the state is not a key of the graph. -/
def Node.expand (g : Graph) (n : Node) : Option (List Node) :=
  (alookup g n.state).map (fun adj =>
    adj.map (fun vw =>
      Node.child vw.1 n (n.state ++ " to " ++ vw.1)
        (n.path_cost + vw.2) (n.depth + 1)))

/-- One step-trace snapshot, embedding the per-iteration dict appended
to steps by the unidirectional algorithms.  depth_limit is the extra
tag iterative_deepening_search adds to the snapshots it accumulates. -/
structure Step where
  frontier : List String
  explored : List String
  current : Option String
  depth_limit : Option Nat
deriving DecidableEq, Repr

/-- The result record returned by every unidirectional algorithm
(execution_time omitted, see the header comment). -/
structure SearchResult where
  algorithm : String
  path : List String
  distance : Nat
  nodes_expanded : Nat
  nodes_generated : Nat
  max_frontier_size : Nat
  steps : List Step
deriving DecidableEq, Repr

/-- One bidirectional-search snapshot. -/
structure BiStep where
  forward_frontier : List String
  backward_frontier : List String
  forward_explored : List String
  backward_explored : List String
  current_forward : Option String
  current_backward : Option String
deriving DecidableEq, Repr

/-- The result record returned by bidirectional_search. -/
structure BiResult where
  algorithm : String
  path : List String
  distance : Nat
  nodes_expanded : Nat
  nodes_generated : Nat
  max_frontier_size : Nat
  steps : List BiStep
deriving DecidableEq, Repr

/-- Outcome of one loop iteration: continue with a new state, return a
result, or raise (embedded KeyError). -/
inductive StepOut (σ ρ : Type) where
  | next (s : σ)
  | done (r : ρ)
  | fail
deriving Repr

/-- Fuel-indexed driver of a while loop given its body step. -/
def loopRun {σ ρ : Type} (step : σ → StepOut σ ρ) : Nat → σ → Option ρ
  | 0, _ => none
  | fuel + 1, s =>
    match step s with
    | .done r => some r
    | .fail => none
    | .next s' => loopRun step fuel s'

/-- Every state the search can ever place on a frontier: the start plus
every key and every neighbor mentioned in the graph.  Used only to size
the fuel of the embedded loops and to bound expansion counts. -/
def allStates (g : Graph) (s : String) : List String :=
  s :: (g.map (fun kv => kv.1 :: kv.2.map Prod.fst)).flatten

/-- Fuel that strictly exceeds the number of iterations any run can
perform (each iteration pops a state new to the run). -/
def fuelFor (g : Graph) (s : String) : Nat :=
  (allStates g s).length + 1

/-! ### Heuristic provider (informed.py, get_heuristic) -/

/-- get_heuristic(state, goal, heuristic_data) of informed.py: the table
value when the goal is the fixed designated target "Bucharest" and the
state is tabulated, and 0 otherwise. -/
def get_heuristic (state goal : String) (heuristic_data : List (String × Nat)) : Nat :=
  if goal == "Bucharest" then
    match alookup heuristic_data state with
    | some v => v
    | none => 0
  else 0

/-! ### Breadth-first search (uninformed.py, breadth_first_search) -/

/-- Loop state of breadth_first_search: FIFO frontier, explored list,
trace, and the three counters. -/
structure BfsSt where
  frontier : List Node
  explored : List String
  steps : List Step
  ne : Nat
  ng : Nat
  mf : Nat

/-- Child-processing loop of breadth_first_search: count every child as
generated, append it to the frontier unless its state is explored or
already on the frontier. -/
def bfsInsert (explored : List String) : List Node × Nat → Node → List Node × Nat
  | (frontier, ng), child =>
    if !(explored.contains child.state) &&
       !((frontier.map Node.state).contains child.state) then
      (frontier ++ [child], ng + 1)
    else (frontier, ng + 1)

/-- One iteration of the breadth_first_search while loop: snapshot,
popleft, count the expansion, goal-test, otherwise mark explored and
expand. -/
def bfsStep (g : Graph) (goal : String) (st : BfsSt) : StepOut BfsSt SearchResult :=
  match st.frontier with
  | [] => .done ⟨"bfs", [], 0, st.ne, st.ng, st.mf, st.steps⟩
  | node :: rest =>
    let mf := max st.mf st.frontier.length
    let snap : Step := ⟨st.frontier.map Node.state, st.explored, some node.state, none⟩
    let steps := st.steps ++ [snap]
    let ne := st.ne + 1
    if node.state == goal then
      .done ⟨"bfs", node.path, node.path_cost, ne, st.ng, mf, steps⟩
    else
      let explored := st.explored ++ [node.state]
      match node.expand g with
      | none => .fail
      | some children =>
        let fr := children.foldl (bfsInsert explored) (rest, st.ng)
        .next ⟨fr.1, explored, steps, ne, fr.2, mf⟩

/-- breadth_first_search(graph, start, goal). -/
def breadth_first_search (g : Graph) (start goal : String) : Option SearchResult :=
  if start == goal then
    some ⟨"bfs", [start], 0, 0, 1, 1, []⟩
  else
    loopRun (bfsStep g goal) (fuelFor g start)
      ⟨[Node.root start], [], [], 0, 1, 1⟩

/-! ### Depth-first search (uninformed.py, depth_first_search) -/

/-- Loop state shared by depth_first_search and depth_limited_search:
LIFO frontier, its mirror set of frontier states, explored list, trace
and counters. -/
structure DfsSt where
  frontier : List Node
  fstates : List String
  explored : List String
  steps : List Step
  ne : Nat
  ng : Nat
  mf : Nat

/-- Child-processing loop of depth_first_search (run over the reversed
children): count every child, push it with its state unless the state
is explored or already a frontier state. -/
def dfsInsert (explored : List String) :
    List Node × List String × Nat → Node → List Node × List String × Nat
  | (frontier, fstates, ng), child =>
    if !(explored.contains child.state) && !(fstates.contains child.state) then
      (frontier ++ [child], fstates ++ [child.state], ng + 1)
    else (frontier, fstates, ng + 1)

/-- One iteration of the depth_first_search while loop: snapshot, pop
the top of the stack, count the expansion, goal-test, otherwise mark
explored and push the reversed children. -/
def dfsStep (g : Graph) (goal : String) (st : DfsSt) : StepOut DfsSt SearchResult :=
  match st.frontier.getLast? with
  | none => .done ⟨"dfs", [], 0, st.ne, st.ng, st.mf, st.steps⟩
  | some node =>
    let rest := st.frontier.dropLast
    let mf := max st.mf st.frontier.length
    let snap : Step := ⟨st.frontier.map Node.state, st.explored, some node.state, none⟩
    let steps := st.steps ++ [snap]
    let fstates := st.fstates.erase node.state
    let ne := st.ne + 1
    if node.state == goal then
      .done ⟨"dfs", node.path, node.path_cost, ne, st.ng, mf, steps⟩
    else
      let explored := st.explored ++ [node.state]
      match node.expand g with
      | none => .fail
      | some children =>
        let fr := children.reverse.foldl (dfsInsert explored) (rest, fstates, st.ng)
        .next ⟨fr.1, fr.2.1, explored, steps, ne, fr.2.2, mf⟩

/-- depth_first_search(graph, start, goal). -/
def depth_first_search (g : Graph) (start goal : String) : Option SearchResult :=
  if start == goal then
    some ⟨"dfs", [start], 0, 0, 1, 1, []⟩
  else
    loopRun (dfsStep g goal) (fuelFor g start)
      ⟨[Node.root start], [start], [], [], 0, 1, 1⟩

/-! ### Depth-limited search (uninformed.py, depth_limited_search) -/

/-- One iteration of the depth_limited_search while loop: as the DFS
iteration, except that a node at depth_limit is marked explored but not
expanded. -/
def dlsStep (g : Graph) (goal : String) (depth_limit : Nat) (st : DfsSt) :
    StepOut DfsSt SearchResult :=
  match st.frontier.getLast? with
  | none => .done ⟨"dls", [], 0, st.ne, st.ng, st.mf, st.steps⟩
  | some node =>
    let rest := st.frontier.dropLast
    let mf := max st.mf st.frontier.length
    let snap : Step := ⟨st.frontier.map Node.state, st.explored, some node.state, none⟩
    let steps := st.steps ++ [snap]
    let fstates := st.fstates.erase node.state
    let ne := st.ne + 1
    if node.state == goal then
      .done ⟨"dls", node.path, node.path_cost, ne, st.ng, mf, steps⟩
    else
      let explored := st.explored ++ [node.state]
      if node.depth < depth_limit then
        match node.expand g with
        | none => .fail
        | some children =>
          let fr := children.reverse.foldl (dfsInsert explored) (rest, fstates, st.ng)
          .next ⟨fr.1, fr.2.1, explored, steps, ne, fr.2.2, mf⟩
      else
        .next ⟨rest, fstates, explored, steps, ne, st.ng, mf⟩

/-- depth_limited_search(graph, start, goal, depth_limit); the Python
default for depth_limit is 10. -/
def depth_limited_search (g : Graph) (start goal : String) (depth_limit : Nat) :
    Option SearchResult :=
  if start == goal then
    some ⟨"dls", [start], 0, 0, 1, 1, []⟩
  else
    loopRun (dlsStep g goal depth_limit) (fuelFor g start)
      ⟨[Node.root start], [start], [], [], 0, 1, 1⟩

/-! ### Iterative deepening (uninformed.py, iterative_deepening_search) -/

/-- Loop state of iterative_deepening_search: the depth limits still to
try and the accumulated metrics and trace. -/
structure IdsSt where
  depths : List Nat
  tne : Nat
  tng : Nat
  tmf : Nat
  all_steps : List Step

/-- One iteration of the for-depth loop of iterative_deepening_search:
run depth_limited_search at the next limit, fold its metrics in, tag
and append its snapshots, and stop at the first non-empty path. -/
def idsStep (g : Graph) (start goal : String) (st : IdsSt) :
    StepOut IdsSt SearchResult :=
  match st.depths with
  | [] => .done ⟨"ids", [], 0, st.tne, st.tng, st.tmf, st.all_steps⟩
  | depth :: rest =>
    match depth_limited_search g start goal depth with
    | none => .fail
    | some r =>
      let tne := st.tne + r.nodes_expanded
      let tng := st.tng + r.nodes_generated
      let tmf := max st.tmf r.max_frontier_size
      let tagged := r.steps.map (fun sp => { sp with depth_limit := some depth })
      let all := st.all_steps ++ tagged
      if r.path.isEmpty then
        .next ⟨rest, tne, tng, tmf, all⟩
      else
        .done ⟨"ids", r.path, r.distance, tne, tng, tmf, all⟩

/-- iterative_deepening_search(graph, start, goal, max_depth); the
Python default for max_depth is 100. -/
def iterative_deepening_search (g : Graph) (start goal : String) (max_depth : Nat) :
    Option SearchResult :=
  if start == goal then
    some ⟨"ids", [start], 0, 1, 1, 1, []⟩
  else
    loopRun (idsStep g start goal) (max_depth + 1)
      ⟨List.range max_depth, 0, 0, 0, []⟩

/-! ### Priority-queue model shared by UCS, Greedy and A* -/

/-- Python tuple comparison (cost, node) < (cost', node') as used by the
heap entries of uniform_cost_search and greedy_search: compare the
costs, then Node.__lt__, which compares path_cost. -/
def pairLt (a b : Nat × Node) : Bool :=
  a.1 < b.1 || (a.1 == b.1 && a.2.path_cost < b.2.path_cost)

/-- Python tuple comparison on (f, id, node) entries of a_star_search;
the id components are pairwise distinct so Node.__lt__ is never
consulted. -/
def tripLt (a b : Nat × Nat × Node) : Bool :=
  a.1 < b.1 || (a.1 == b.1 && a.2.1 < b.2.1)

/-- heapq.heappop on a nonempty list, modeled at contract level: remove
the leftmost least element under lt, keeping the rest in order. -/
def popMin1 {α : Type} (lt : α → α → Bool) (x : α) (xs : List α) : α × List α :=
  match xs with
  | [] => (x, [])
  | y :: ys =>
    let (m, rest) := popMin1 lt y ys
    if lt m x then (m, x :: rest) else (x, xs)

/-! ### Uniform-cost search (uninformed.py, uniform_cost_search) -/

/-- Loop state of uniform_cost_search: (cost, node) heap entries, the
frontier_states set, explored list, trace and counters. -/
structure UcsSt where
  frontier : List (Nat × Node)
  fstates : List String
  explored : List String
  steps : List Step
  ne : Nat
  ng : Nat
  mf : Nat

/-- Frontier update of uniform_cost_search for a child whose state is
already a frontier state: find the entry for that state and replace it
when the new path is strictly cheaper (the heapify call that follows in
Python permutes the heap and is the identity on the list model). -/
def ucsRelax (child : Node) : List (Nat × Node) → List (Nat × Node)
  | [] => []
  | (c, n) :: rest =>
    if n.state == child.state && child.path_cost < c then
      (child.path_cost, child) :: rest
    else (c, n) :: ucsRelax child rest

/-- Child-processing loop of uniform_cost_search: count every child,
push new states, relax states already on the frontier, skip explored
states. -/
def ucsInsert (explored : List String) :
    List (Nat × Node) × List String × Nat → Node → List (Nat × Node) × List String × Nat
  | (frontier, fstates, ng), child =>
    if !(explored.contains child.state) && !(fstates.contains child.state) then
      (frontier ++ [(child.path_cost, child)], fstates ++ [child.state], ng + 1)
    else if fstates.contains child.state then
      (ucsRelax child frontier, fstates, ng + 1)
    else (frontier, fstates, ng + 1)

/-- One iteration of the uniform_cost_search while loop. -/
def ucsStep (g : Graph) (goal : String) (st : UcsSt) : StepOut UcsSt SearchResult :=
  match st.frontier with
  | [] => .done ⟨"ucs", [], 0, st.ne, st.ng, st.mf, st.steps⟩
  | x :: xs =>
    let mf := max st.mf st.frontier.length
    let p := popMin1 pairLt x xs
    let node := p.1.2
    let rest := p.2
    let snap : Step := ⟨st.frontier.map (fun e => e.2.state), st.explored,
      some node.state, none⟩
    let steps := st.steps ++ [snap]
    let fstates := st.fstates.erase node.state
    let ne := st.ne + 1
    if node.state == goal then
      .done ⟨"ucs", node.path, node.path_cost, ne, st.ng, mf, steps⟩
    else
      let explored := st.explored ++ [node.state]
      match node.expand g with
      | none => .fail
      | some children =>
        let fr := children.foldl (ucsInsert explored) (rest, fstates, st.ng)
        .next ⟨fr.1, fr.2.1, explored, steps, ne, fr.2.2, mf⟩

/-- uniform_cost_search(graph, start, goal). -/
def uniform_cost_search (g : Graph) (start goal : String) : Option SearchResult :=
  if start == goal then
    some ⟨"ucs", [start], 0, 0, 1, 1, []⟩
  else
    loopRun (ucsStep g goal) (fuelFor g start)
      ⟨[(0, Node.root start)], [start], [], [], 0, 1, 1⟩

/-! ### Greedy best-first search (informed.py, greedy_search) -/

/-- Child-processing loop of greedy_search: count every child, push new
states keyed by heuristic value only, skip states that are explored or
already on the frontier. -/
def greedyInsert (goal : String) (hdata : List (String × Nat)) (explored : List String) :
    List (Nat × Node) × List String × Nat → Node → List (Nat × Node) × List String × Nat
  | (frontier, fstates, ng), child =>
    if !(explored.contains child.state) && !(fstates.contains child.state) then
      (frontier ++ [(get_heuristic child.state goal hdata, child)],
       fstates ++ [child.state], ng + 1)
    else (frontier, fstates, ng + 1)

/-- One iteration of the greedy_search while loop. -/
def greedyStep (g : Graph) (goal : String) (hdata : List (String × Nat)) (st : UcsSt) :
    StepOut UcsSt SearchResult :=
  match st.frontier with
  | [] => .done ⟨"greedy", [], 0, st.ne, st.ng, st.mf, st.steps⟩
  | x :: xs =>
    let mf := max st.mf st.frontier.length
    let p := popMin1 pairLt x xs
    let node := p.1.2
    let rest := p.2
    let snap : Step := ⟨st.frontier.map (fun e => e.2.state), st.explored,
      some node.state, none⟩
    let steps := st.steps ++ [snap]
    let fstates := st.fstates.erase node.state
    let ne := st.ne + 1
    if node.state == goal then
      .done ⟨"greedy", node.path, node.path_cost, ne, st.ng, mf, steps⟩
    else
      let explored := st.explored ++ [node.state]
      match node.expand g with
      | none => .fail
      | some children =>
        let fr := children.foldl (greedyInsert goal hdata explored) (rest, fstates, st.ng)
        .next ⟨fr.1, fr.2.1, explored, steps, ne, fr.2.2, mf⟩

/-- greedy_search(graph, start, goal, heuristic_data). -/
def greedy_search (g : Graph) (start goal : String) (hdata : List (String × Nat)) :
    Option SearchResult :=
  if start == goal then
    some ⟨"greedy", [start], 0, 0, 1, 1, []⟩
  else
    loopRun (greedyStep g goal hdata) (fuelFor g start)
      ⟨[(get_heuristic start goal hdata, Node.root start)], [start], [], [], 0, 1, 1⟩

/-! ### A* search (informed.py, a_star_search) -/

/-- Loop state of a_star_search: (f, id, node) heap entries, the
frontier_states dict from state to its recorded path cost, explored
list, trace, counters, and the insertion counter modelling id(). -/
structure AstarSt where
  frontier : List (Nat × Nat × Node)
  fstates : List (String × Nat)
  explored : List String
  steps : List Step
  ne : Nat
  ng : Nat
  mf : Nat
  ctr : Nat

/-- Frontier update of a_star_search once a strictly cheaper route to a
frontier state is found: replace the first entry carrying that state
(heapify again being the identity on the list model). -/
def astarReplace (f ctr : Nat) (child : Node) :
    List (Nat × Nat × Node) → List (Nat × Nat × Node)
  | [] => []
  | e :: rest =>
    if e.2.2.state == child.state then (f, ctr, child) :: rest
    else e :: astarReplace f ctr child rest

/-- Child-processing loop of a_star_search: count every child; among
non-explored states, push unseen states and replace the frontier entry
of a state reached strictly more cheaply, updating the recorded cost. -/
def astarInsert (goal : String) (hdata : List (String × Nat)) (explored : List String) :
    List (Nat × Nat × Node) × List (String × Nat) × Nat × Nat → Node →
      List (Nat × Nat × Node) × List (String × Nat) × Nat × Nat
  | (frontier, fstates, ng, ctr), child =>
    if !(explored.contains child.state) then
      let f := child.path_cost + get_heuristic child.state goal hdata
      match alookup fstates child.state with
      | none =>
        (frontier ++ [(f, ctr, child)], aset fstates child.state child.path_cost,
         ng + 1, ctr + 1)
      | some gOld =>
        if child.path_cost < gOld then
          (astarReplace f ctr child frontier, aset fstates child.state child.path_cost,
           ng + 1, ctr + 1)
        else (frontier, fstates, ng + 1, ctr)
    else (frontier, fstates, ng + 1, ctr)

/-- One iteration of the a_star_search while loop. -/
def astarStep (g : Graph) (goal : String) (hdata : List (String × Nat)) (st : AstarSt) :
    StepOut AstarSt SearchResult :=
  match st.frontier with
  | [] => .done ⟨"astar", [], 0, st.ne, st.ng, st.mf, st.steps⟩
  | x :: xs =>
    let mf := max st.mf st.frontier.length
    let p := popMin1 tripLt x xs
    let node := p.1.2.2
    let rest := p.2
    let snap : Step := ⟨st.frontier.map (fun e => e.2.2.state), st.explored,
      some node.state, none⟩
    let steps := st.steps ++ [snap]
    let fstates := adel st.fstates node.state
    let ne := st.ne + 1
    if node.state == goal then
      .done ⟨"astar", node.path, node.path_cost, ne, st.ng, mf, steps⟩
    else
      let explored := st.explored ++ [node.state]
      match node.expand g with
      | none => .fail
      | some children =>
        let fr := children.foldl (astarInsert goal hdata explored)
          (rest, fstates, st.ng, st.ctr)
        .next ⟨fr.1, fr.2.1, explored, steps, ne, fr.2.2.1, mf, fr.2.2.2⟩

/-- a_star_search(graph, start, goal, heuristic_data). -/
def a_star_search (g : Graph) (start goal : String) (hdata : List (String × Nat)) :
    Option SearchResult :=
  if start == goal then
    some ⟨"astar", [start], 0, 0, 1, 1, []⟩
  else
    loopRun (astarStep g goal hdata) (fuelFor g start)
      ⟨[(0 + get_heuristic start goal hdata, 0, Node.root start)],
       [(start, 0)], [], [], 0, 1, 1, 1⟩

/-! ### Bidirectional search (uninformed.py, bidirectional_search) -/

/-- The reverse-adjacency graph built at the top of bidirectional_search:
every key of the graph starts with an empty mapping, then every edge
city → neighbor is written as reverse_graph[neighbor][city]; none embeds
the KeyError raised when a neighbor is not itself a key. -/
def reverseGraph (g : Graph) : Option Graph :=
  g.foldl
    (fun acc kv =>
      kv.2.foldl
        (fun acc2 vw =>
          acc2.bind (fun rg =>
            match alookup rg vw.1 with
            | none => none
            | some adj => some (aset rg vw.1 (aset adj kv.1 vw.2))))
        acc)
    (some (g.map (fun kv => (kv.1, ([] : Adj)))))

/-- Loop state of bidirectional_search: the two FIFO frontiers and the
two explored dicts from state to node, plus trace and counters. -/
structure BiSt where
  ff : List Node
  bf : List Node
  fe : List (String × Node)
  be : List (String × Node)
  steps : List BiStep
  ne : Nat
  ng : Nat
  mf : Nat

/-- Child-processing loop shared by the two directions of
bidirectional_search: count every child, append it unless its state is
an explored key or already on that direction's frontier. -/
def biInsert (expl : List (String × Node)) : List Node × Nat → Node → List Node × Nat
  | (frontier, ng), child =>
    if !((expl.map Prod.fst).contains child.state) &&
       !((frontier.map Node.state).contains child.state) then
      (frontier ++ [child], ng + 1)
    else (frontier, ng + 1)

/-- The path and distance bidirectional_search reconstructs at a meeting
state: forward path, then the reversed backward path with its leading
duplicate of the meeting state popped; distance is the sum of the two
partial costs. -/
def biJoin (steps : List BiStep) (ne ng mf : Nat) (fnode bnode : Node) :
    BiResult × Option (String × Node × Node) :=
  (⟨"bidirectional", fnode.path ++ (bnode.path.reverse.drop 1),
    fnode.path_cost + bnode.path_cost, ne, ng, mf, steps⟩,
   some (fnode.state, fnode, bnode))

/-- One iteration of the bidirectional_search while loop: pop forward,
test for a meeting state against the backward explored dict, expand
forward over the graph, then pop backward, test against the forward
explored dict (which already holds this iteration's forward node), and
expand backward over the reverse graph.  The second component of the
returned result is proof instrumentation only: the meeting state and
the two nodes joined there, or none for the exhausted return. -/
def biStep (g rg : Graph) (st : BiSt) :
    StepOut BiSt (BiResult × Option (String × Node × Node)) :=
  match st.ff, st.bf with
  | [], _ => .done (⟨"bidirectional", [], 0, st.ne, st.ng, st.mf, st.steps⟩, none)
  | _, [] => .done (⟨"bidirectional", [], 0, st.ne, st.ng, st.mf, st.steps⟩, none)
  | fnode :: frest, bnode :: brest =>
    let mf := max st.mf (st.ff.length + st.bf.length)
    let snap1 : BiStep := ⟨st.ff.map Node.state, st.bf.map Node.state,
      st.fe.map Prod.fst, st.be.map Prod.fst, some fnode.state, none⟩
    let ne1 := st.ne + 1
    let fe := aset st.fe fnode.state fnode
    match alookup st.be fnode.state with
    | some bmet =>
      .done (biJoin (st.steps ++ [snap1]) ne1 st.ng mf fnode bmet)
    | none =>
      match fnode.expand g with
      | none => .fail
      | some fchildren =>
        let ffr := fchildren.foldl (biInsert fe) (frest, st.ng)
        let snap2 : BiStep := { snap1 with current_backward := some bnode.state }
        let ne2 := ne1 + 1
        let be := aset st.be bnode.state bnode
        match alookup fe bnode.state with
        | some fmet =>
          .done (biJoin (st.steps ++ [snap2]) ne2 ffr.2 mf fmet bnode)
        | none =>
          match bnode.expand rg with
          | none => .fail
          | some bchildren =>
            let bfr := bchildren.foldl (biInsert be) (brest, ffr.2)
            .next ⟨ffr.1, bfr.1, fe, be, st.steps ++ [snap2], ne2, bfr.2, mf⟩

/-- bidirectional_search together with its proof instrumentation (the
meeting data); the public function below projects it away. -/
def bidirectional_core (g : Graph) (start goal : String) :
    Option (BiResult × Option (String × Node × Node)) :=
  if start == goal then
    some (⟨"bidirectional", [start], 0, 0, 2, 2, []⟩, none)
  else
    match reverseGraph g with
    | none => none
    | some rg =>
      loopRun (biStep g rg) (fuelFor g start)
        ⟨[Node.root start], [Node.root goal], [], [], [], 0, 2, 2⟩

/-- bidirectional_search(graph, start, goal). -/
def bidirectional_search (g : Graph) (start goal : String) : Option BiResult :=
  (bidirectional_core g start goal).map Prod.fst

/-! ### Specification-level path and distance notions -/

/-- Weight of a walk written as its list of visited locations: defined
exactly when consecutive elements are adjacent in the graph, and then
equal to the sum of the traversed edge weights.  The empty list carries
no walk. -/
def pathWeight (g : Graph) : List String → Option Nat
  | [] => none
  | [_] => some 0
  | x :: y :: rest =>
    match edgeOf g x y, pathWeight g (y :: rest) with
    | some w, some c => some (w + c)
    | _, _ => none

/-- There is a walk from s to t in g of total weight c. -/
def WalkTo (g : Graph) (s t : String) (c : Nat) : Prop :=
  ∃ l, pathWeight g l = some c ∧ l.head? = some s ∧ l.getLast? = some t

/-- d is the true shortest-path distance from s to t in g. -/
def ShortestDist (g : Graph) (s t : String) (d : Nat) : Prop :=
  WalkTo g s t d ∧ ∀ c, WalkTo g s t c → d ≤ c

/-- Every state reachable from start is a key of the graph: the
hypothesis under which no embedded search can raise a KeyError while
expanding. -/
def ReachClosed (g : Graph) (start : String) : Prop :=
  ∀ x, (∃ c, WalkTo g start x c) → ∃ adj, alookup g x = some adj

/-- Every neighbor occurring anywhere in the graph is a key; the
stronger closure bidirectional_search needs to build its reverse graph.
Phrased through isSome so that it is decidable on concrete graphs. -/
def FullClosed (g : Graph) : Prop :=
  ∀ kv ∈ g, ∀ vw ∈ kv.2, (alookup g vw.1).isSome = true

/-- The graph is the image of a Python dict of dicts: outer keys are
unique and each adjacency's keys are unique. -/
def WFGraph (g : Graph) : Prop :=
  (g.map Prod.fst).Nodup ∧ ∀ kv ∈ g, (kv.2.map Prod.fst).Nodup

/-- The search node n records a genuine walk of the graph: its state
chain starts at start, consecutive states are adjacent, and path_cost
and depth accumulate edge weights and hops. -/
def Node.valid (g : Graph) (start : String) : Node → Prop
  | .root s => s = start
  | .child s p _ c d => Node.valid g start p ∧
      ∃ w, edgeOf g p.state s = some w ∧ c = p.path_cost + w ∧ d = p.depth + 1

/-- Number of candidate states not yet explored: the strictly
decreasing measure of every embedded search loop. -/
def measureLeft (g : Graph) (start : String) (explored : List String) : Nat :=
  ((allStates g start).dedup.filter (fun x => !(explored.contains x))).length

/-- Termination invariant of breadth_first_search: frontier nodes are
valid with pairwise distinct states disjoint from the explored list,
the explored list is duplicate-free, lies inside the reachable set R,
and counts the expansions. -/
def BfsTInv (g : Graph) (start : String) (R : List String) (st : BfsSt) : Prop :=
  (∀ n ∈ st.frontier, n.valid g start) ∧
  (st.frontier.map Node.state).Nodup ∧
  (∀ x ∈ st.frontier.map Node.state, x ∉ st.explored) ∧
  st.explored.Nodup ∧
  (∀ x ∈ st.explored, x ∈ R) ∧
  st.ne = st.explored.length

/-- Termination invariant of depth_first_search and
depth_limited_search: as for BFS, with the frontier_states mirror kept
in sync with the frontier. -/
def DfsTInv (g : Graph) (start : String) (R : List String) (st : DfsSt) : Prop :=
  (∀ n ∈ st.frontier, n.valid g start) ∧
  (st.frontier.map Node.state).Nodup ∧
  st.fstates.Nodup ∧
  (∀ x, x ∈ st.fstates ↔ x ∈ st.frontier.map Node.state) ∧
  (∀ x ∈ st.frontier.map Node.state, x ∉ st.explored) ∧
  st.explored.Nodup ∧
  (∀ x ∈ st.explored, x ∈ R) ∧
  st.ne = st.explored.length

/-- Termination invariant of uniform_cost_search and greedy_search. -/
def UcsTInv (g : Graph) (start : String) (R : List String) (st : UcsSt) : Prop :=
  (∀ e ∈ st.frontier, e.2.valid g start) ∧
  (st.frontier.map (fun e => e.2.state)).Nodup ∧
  st.fstates.Nodup ∧
  (∀ x, x ∈ st.fstates ↔ x ∈ st.frontier.map (fun e => e.2.state)) ∧
  (∀ x ∈ st.frontier.map (fun e => e.2.state), x ∉ st.explored) ∧
  st.explored.Nodup ∧
  (∀ x ∈ st.explored, x ∈ R) ∧
  st.ne = st.explored.length

/-- Termination invariant of a_star_search. -/
def AstarTInv (g : Graph) (start : String) (R : List String) (st : AstarSt) : Prop :=
  (∀ e ∈ st.frontier, e.2.2.valid g start) ∧
  (st.frontier.map (fun e => e.2.2.state)).Nodup ∧
  (st.fstates.map Prod.fst).Nodup ∧
  (∀ x, x ∈ st.fstates.map Prod.fst ↔ x ∈ st.frontier.map (fun e => e.2.2.state)) ∧
  (∀ x ∈ st.frontier.map (fun e => e.2.2.state), x ∉ st.explored) ∧
  st.explored.Nodup ∧
  (∀ x ∈ st.explored, x ∈ R) ∧
  st.ne = st.explored.length

/-- Termination invariant of bidirectional_search: the forward side
carries the BFS-style dedup bookkeeping against the forward explored
dict and drives the measure; the backward side carries validity over
the reverse graph, key-closure in the reverse graph, and the fact that
its explored states reach the goal in the input graph. -/
def BiTInv (g rg : Graph) (start goal : String) (st : BiSt) : Prop :=
  (∀ n ∈ st.ff, n.valid g start) ∧
  (st.ff.map Node.state).Nodup ∧
  (∀ x ∈ st.ff.map Node.state, x ∉ st.fe.map Prod.fst) ∧
  (st.fe.map Prod.fst).Nodup ∧
  (∀ x ∈ st.fe.map Prod.fst, ∃ c, WalkTo g start x c) ∧
  (∀ p ∈ st.be, ∃ c, WalkTo g p.1 goal c) ∧
  (∀ n ∈ st.bf, n.valid rg goal ∧ (alookup rg n.state).isSome = true) ∧
  st.ne = 2 * (st.fe.map Prod.fst).length

instance (g : Graph) : Decidable (WFGraph g) :=
  inferInstanceAs (Decidable ((g.map Prod.fst).Nodup ∧
    ∀ kv ∈ g, (kv.2.map Prod.fst).Nodup))

instance (g : Graph) : Decidable (FullClosed g) :=
  inferInstanceAs (Decidable (∀ kv ∈ g, ∀ vw ∈ kv.2, (alookup g vw.1).isSome = true))

/-- The fixed test graph of the specification: undirected edges
A-B(1), B-C(2), A-C(5), both directions populated.  (The spec calls it
a 4-node graph but lists exactly these three locations.) -/
def fixedGraph : Graph :=
  [("A", [("B", 1), ("C", 5)]),
   ("B", [("A", 1), ("C", 2)]),
   ("C", [("A", 5), ("B", 2)])]

/-- A two-component graph: S and G are both keys, neither has any
neighbor, so G is unreachable from S and the component of S is just
S itself. -/
def uGraph : Graph := [("S", []), ("G", [])]

/-- A directed graph with edges S→A(4), S→B(1), B→A(2), A→Bucharest(3)
and no edge out of Bucharest.  The true shortest S→Bucharest distance
is 6 (via S,B,A), while the route through A alone costs 7. -/
def cexG : Graph :=
  [("S", [("A", 4), ("B", 1)]),
   ("A", [("Bucharest", 3)]),
   ("B", [("A", 2)]),
   ("Bucharest", [])]

/-- A heuristic table for cexG that is admissible (h(A)=1 ≤ 3,
h(B)=5 ≤ 5) but not consistent: h(B) = 5 > h(A) + w(B,A) = 3. -/
def cexH : List (String × Nat) := [("A", 1), ("B", 5)]

/-- Dijkstra invariant of uniform_cost_search: every heap entry carries
its node's path cost and a genuine walk; frontier states are distinct,
mirrored by frontier_states, and disjoint from explored; the goal is
not yet explored; start is explored or covered by a cost-0 entry; and
every explored state has a settled shortest distance with all its
outgoing edges relaxed into explored or onto the frontier. -/
def DijUcs (g : Graph) (start goal : String) (st : UcsSt) : Prop :=
  (∀ e ∈ st.frontier, e.1 = e.2.path_cost ∧ e.2.valid g start) ∧
  (st.frontier.map (fun e => e.2.state)).Nodup ∧
  st.fstates.Nodup ∧
  (∀ x, x ∈ st.fstates ↔ x ∈ st.frontier.map (fun e => e.2.state)) ∧
  (∀ x ∈ st.frontier.map (fun e => e.2.state), x ∉ st.explored) ∧
  goal ∉ st.explored ∧
  (start ∈ st.explored ∨ ∃ e ∈ st.frontier, e.2.state = start ∧ e.1 ≤ 0) ∧
  (∀ u ∈ st.explored, ∃ du, ShortestDist g start u du ∧
    ∀ v w, edgeOf g u v = some w → v ∈ st.explored ∨
      ∃ e ∈ st.frontier, e.2.state = v ∧ e.1 ≤ du + w)

/-- Dijkstra invariant of a_star_search under a consistent heuristic H:
as DijUcs, with heap keys equal to path cost plus H, the
frontier_states dict recording each frontier node's path cost, and the
relaxation bounds stated on the nodes' path costs. -/
def DijAstar (g : Graph) (start : String) (H : String → Nat) (goal : String)
    (st : AstarSt) : Prop :=
  (∀ e ∈ st.frontier, e.1 = e.2.2.path_cost + H e.2.2.state ∧
    e.2.2.valid g start) ∧
  (st.frontier.map (fun e => e.2.2.state)).Nodup ∧
  (st.fstates.map Prod.fst).Nodup ∧
  (∀ x, x ∈ st.fstates.map Prod.fst ↔ x ∈ st.frontier.map (fun e => e.2.2.state)) ∧
  (∀ e ∈ st.frontier, alookup st.fstates e.2.2.state = some e.2.2.path_cost) ∧
  (∀ x ∈ st.frontier.map (fun e => e.2.2.state), x ∉ st.explored) ∧
  goal ∉ st.explored ∧
  (start ∈ st.explored ∨
    ∃ e ∈ st.frontier, e.2.2.state = start ∧ e.2.2.path_cost ≤ 0) ∧
  (∀ u ∈ st.explored, ∃ du, ShortestDist g start u du ∧
    ∀ v w, edgeOf g u v = some w → v ∈ st.explored ∨
      ∃ e ∈ st.frontier, e.2.2.state = v ∧ e.2.2.path_cost ≤ du + w)

/-- The part of the a_star_search Dijkstra invariant that the
child-processing fold must preserve: heap keys are path cost plus H on
valid nodes, frontier states are distinct and mirrored (with their path
costs) by the frontier_states dict, and no frontier state is explored. -/
def AstarPre (g : Graph) (start : String) (H : String → Nat)
    (explored : List String)
    (acc : List (Nat × Nat × Node) × List (String × Nat) × Nat × Nat) : Prop :=
  (∀ e ∈ acc.1, e.1 = e.2.2.path_cost + H e.2.2.state ∧ e.2.2.valid g start) ∧
  (acc.1.map (fun e => e.2.2.state)).Nodup ∧
  (acc.2.1.map Prod.fst).Nodup ∧
  (∀ x, x ∈ acc.2.1.map Prod.fst ↔ x ∈ acc.1.map (fun e => e.2.2.state)) ∧
  (∀ e ∈ acc.1, alookup acc.2.1 e.2.2.state = some e.2.2.path_cost) ∧
  (∀ x ∈ acc.1.map (fun e => e.2.2.state), x ∉ explored)

/-- Snapshot of a FIFO pop: the recorded current state is the head of
the recorded pre-pop frontier. -/
def stepHeadQ (sp : Step) : Prop :=
  sp.current = sp.frontier.head? ∧ sp.current.isSome

/-- Snapshot of a LIFO pop: the recorded current state is the last
element of the recorded pre-pop frontier. -/
def stepLastQ (sp : Step) : Prop :=
  sp.current = sp.frontier.getLast? ∧ sp.current.isSome

/-- Snapshot of a priority-queue pop: the recorded current state is a
member of the recorded pre-pop frontier. -/
def stepMemQ (sp : Step) : Prop :=
  ∃ c, sp.current = some c ∧ c ∈ sp.frontier

/-- The result contract shared by the unidirectional algorithms, as far
as claims C2, C8 and C9 are concerned: correct algorithm tag; a
non-empty path starts at start, ends at goal and carries distance as
its edge-weight sum; expansions never exceed generations; the maximal
frontier size is at least one; and the trace holds one snapshot per
expansion, each satisfying the pop discipline Q. -/
def UniP (alg : String) (g : Graph) (start goal : String) (Q : Step → Prop)
    (r : SearchResult) : Prop :=
  r.algorithm = alg ∧
  (r.path ≠ [] → r.path.head? = some start ∧ r.path.getLast? = some goal ∧
    pathWeight g r.path = some r.distance) ∧
  r.nodes_expanded ≤ r.nodes_generated ∧
  1 ≤ r.max_frontier_size ∧
  r.steps.length = r.nodes_expanded ∧
  (∀ sp ∈ r.steps, Q sp)

/-- Loop invariant of breadth_first_search giving UniP. -/
def BfsInv (g : Graph) (start : String) (st : BfsSt) : Prop :=
  (∀ n ∈ st.frontier, n.valid g start) ∧
  st.ne + st.frontier.length ≤ st.ng ∧
  1 ≤ st.mf ∧
  st.steps.length = st.ne ∧
  (∀ sp ∈ st.steps, stepHeadQ sp)

/-- Loop invariant of depth_first_search and depth_limited_search
giving UniP. -/
def DfsInv (g : Graph) (start : String) (st : DfsSt) : Prop :=
  (∀ n ∈ st.frontier, n.valid g start) ∧
  st.ne + st.frontier.length ≤ st.ng ∧
  1 ≤ st.mf ∧
  st.steps.length = st.ne ∧
  (∀ sp ∈ st.steps, stepLastQ sp)

/-- Loop invariant of uniform_cost_search and greedy_search giving
UniP. -/
def UcsInv (g : Graph) (start : String) (st : UcsSt) : Prop :=
  (∀ e ∈ st.frontier, e.2.valid g start) ∧
  st.ne + st.frontier.length ≤ st.ng ∧
  1 ≤ st.mf ∧
  st.steps.length = st.ne ∧
  (∀ sp ∈ st.steps, stepMemQ sp)

/-- Loop invariant of a_star_search giving UniP. -/
def AstarInv (g : Graph) (start : String) (st : AstarSt) : Prop :=
  (∀ e ∈ st.frontier, e.2.2.valid g start) ∧
  st.ne + st.frontier.length ≤ st.ng ∧
  1 ≤ st.mf ∧
  st.steps.length = st.ne ∧
  (∀ sp ∈ st.steps, stepMemQ sp)

/-- A node held by one direction of bidirectional_search: it records a
genuine walk, its state chain is duplicate-free, and every state on the
chain except the final one has already been stored in that direction's
explored dict. -/
def BiNodeOk (g : Graph) (start : String) (keys : List String) (n : Node) : Prop :=
  n.valid g start ∧ n.path.Nodup ∧ ∀ x ∈ n.path.dropLast, x ∈ keys

/-- Loop invariant of bidirectional_search. -/
def BiInv (g rg : Graph) (start goal : String) (st : BiSt) : Prop :=
  (∀ n ∈ st.ff, BiNodeOk g start (st.fe.map Prod.fst) n) ∧
  (∀ n ∈ st.bf, BiNodeOk rg goal (st.be.map Prod.fst) n) ∧
  (∀ p ∈ st.fe, p.2.state = p.1 ∧ p.2.valid g start ∧ p.2.path.Nodup) ∧
  (∀ p ∈ st.be, p.2.state = p.1 ∧ p.2.valid rg goal ∧ p.2.path.Nodup) ∧
  st.ne + st.ff.length + st.bf.length ≤ st.ng ∧
  1 ≤ st.mf

/-- What a returned bidirectional result record satisfies, phrased in
terms of the meeting instrumentation: a non-empty path is the forward
node's walk joined to the reversed backward walk with the duplicated
meeting state dropped, and the distance is the sum of the two node
costs. -/
def BiP (g rg : Graph) (start goal : String)
    (rx : BiResult × Option (String × Node × Node)) : Prop :=
  rx.1.algorithm = "bidirectional" ∧
  rx.1.nodes_expanded ≤ rx.1.nodes_generated ∧
  1 ≤ rx.1.max_frontier_size ∧
  (rx.1.path = [] → rx.1.distance = 0) ∧
  (rx.1.path ≠ [] → ∃ m fn bn, rx.2 = some (m, fn, bn) ∧
    fn.state = m ∧ bn.state = m ∧
    rx.1.path = fn.path ++ (bn.path.reverse.drop 1) ∧
    rx.1.distance = fn.path_cost + bn.path_cost ∧
    fn.valid g start ∧ bn.valid rg goal ∧ fn.path.Nodup ∧ bn.path.Nodup)

/-! ### Association-list lemmas -/

theorem alookup_mem {α : Type} {l : List (String × α)} {k : String} {v : α}
    (h : alookup l k = some v) : (k, v) ∈ l := by
  induction l with
  | nil => simp [alookup] at h
  | cons hd tl ih =>
    simp only [alookup] at h
    by_cases hk : hd.1 == k
    · obtain ⟨k1, v1⟩ := hd
      simp only at hk
      rw [hk] at h
      simp only [if_true] at h
      cases h
      have : k1 = k := by simpa using hk
      subst this
      exact List.mem_cons_self _ _
    · obtain ⟨k1, v1⟩ := hd
      simp only at hk
      rw [Bool.not_eq_true] at hk
      rw [hk] at h
      simp only [Bool.false_eq_true, if_false] at h
      exact List.mem_cons_of_mem _ (ih h)

theorem alookup_mem_keys {α : Type} {l : List (String × α)} {k : String} {v : α}
    (h : alookup l k = some v) : k ∈ l.map Prod.fst := by
  exact List.mem_map.mpr ⟨(k, v), alookup_mem h, rfl⟩

theorem alookup_isSome_of_mem_keys {α : Type} {l : List (String × α)} {k : String}
    (h : k ∈ l.map Prod.fst) : ∃ v, alookup l k = some v := by
  induction l with
  | nil => simp at h
  | cons hd tl ih =>
    simp only [List.map_cons, List.mem_cons] at h
    by_cases hk : hd.1 = k
    · exact ⟨hd.2, by simp [alookup, hk]⟩
    · have : k ∈ tl.map Prod.fst := by
        rcases h with h | h
        · exact absurd h.symm hk
        · exact h
      obtain ⟨v, hv⟩ := ih this
      exact ⟨v, by simp [alookup, hk, hv]⟩

theorem alookup_eq_none_of_not_mem {α : Type} {l : List (String × α)} {k : String}
    (h : k ∉ l.map Prod.fst) : alookup l k = none := by
  induction l with
  | nil => rfl
  | cons hd tl ih =>
    simp only [List.map_cons, List.mem_cons, not_or] at h
    simp [alookup, Ne.symm h.1, ih h.2]

theorem alookup_of_mem_nodup {α : Type} {l : List (String × α)} {k : String} {v : α}
    (hnd : (l.map Prod.fst).Nodup) (h : (k, v) ∈ l) : alookup l k = some v := by
  induction l with
  | nil => simp at h
  | cons hd tl ih =>
    simp only [List.map_cons, List.nodup_cons] at hnd
    rcases List.mem_cons.mp h with h | h
    · subst h
      simp [alookup]
    · have hk : hd.1 ≠ k := by
        intro he
        exact hnd.1 (he ▸ List.mem_map.mpr ⟨(k, v), h, rfl⟩)
      simp [alookup, hk, ih hnd.2 h]

theorem alookup_aset_self {α : Type} (l : List (String × α)) (k : String) (v : α) :
    alookup (aset l k v) k = some v := by
  induction l with
  | nil => simp [aset, alookup]
  | cons hd tl ih =>
    by_cases hk : hd.1 = k
    · simp [aset, alookup, hk]
    · simp [aset, alookup, hk, ih]

theorem alookup_aset_ne {α : Type} (l : List (String × α)) (k k' : String) (v : α)
    (h : k' ≠ k) : alookup (aset l k v) k' = alookup l k' := by
  induction l with
  | nil => simp [aset, alookup, Ne.symm h]
  | cons hd tl ih =>
    obtain ⟨k1, v1⟩ := hd
    by_cases hk : k1 = k
    · subst hk
      simp [aset, alookup, Ne.symm h]
    · by_cases hk' : k1 = k'
      · simp [aset, alookup, hk, hk', h]
      · simp [aset, alookup, hk, hk', ih]

theorem mem_keys_aset {α : Type} (l : List (String × α)) (k x : String) (v : α) :
    x ∈ (aset l k v).map Prod.fst ↔ x ∈ l.map Prod.fst ∨ x = k := by
  induction l with
  | nil => simp [aset]
  | cons hd tl ih =>
    obtain ⟨k1, v1⟩ := hd
    by_cases hk : k1 = k
    · subst hk
      simp only [aset, beq_self_eq_true, if_true, List.map_cons, List.mem_cons]
      tauto
    · have hset : aset ((k1, v1) :: tl) k v = (k1, v1) :: aset tl k v := by
        simp [aset, hk]
      rw [hset]
      simp only [List.map_cons, List.mem_cons, ih]
      tauto

theorem keys_aset_of_mem {α : Type} (l : List (String × α)) (k : String) (v : α)
    (h : k ∈ l.map Prod.fst) : (aset l k v).map Prod.fst = l.map Prod.fst := by
  induction l with
  | nil => simp at h
  | cons hd tl ih =>
    by_cases hk : hd.1 = k
    · simp [aset, hk]
    · simp only [List.map_cons, List.mem_cons] at h
      rcases h with h | h
      · exact absurd h.symm hk
      · simp [aset, hk, ih h]

theorem keys_aset_of_not_mem {α : Type} (l : List (String × α)) (k : String) (v : α)
    (h : k ∉ l.map Prod.fst) : (aset l k v).map Prod.fst = l.map Prod.fst ++ [k] := by
  induction l with
  | nil => simp [aset]
  | cons hd tl ih =>
    simp only [List.map_cons, List.mem_cons, not_or] at h
    simp [aset, Ne.symm h.1, ih h.2]

theorem mem_aset {α : Type} {l : List (String × α)} {k : String} {v : α} :
    ∀ p ∈ aset l k v, p ∈ l ∨ p = (k, v) := by
  induction l with
  | nil =>
    intro p hp
    simp only [aset, List.mem_singleton] at hp
    exact Or.inr hp
  | cons hd tl ih =>
    obtain ⟨k1, v1⟩ := hd
    intro p hp
    by_cases hk : k1 = k
    · subst hk
      simp only [aset, beq_self_eq_true, if_true] at hp
      rcases List.mem_cons.mp hp with h | h
      · exact Or.inr h
      · exact Or.inl (List.mem_cons_of_mem _ h)
    · have hset : aset ((k1, v1) :: tl) k v = (k1, v1) :: aset tl k v := by
        simp [aset, hk]
      rw [hset] at hp
      rcases List.mem_cons.mp hp with h | h
      · exact Or.inl (h ▸ List.mem_cons_self _ _)
      · rcases ih p h with h' | h'
        · exact Or.inl (List.mem_cons_of_mem _ h')
        · exact Or.inr h'

theorem aset_nodup_keys {α : Type} {l : List (String × α)} {k : String} {v : α}
    (h : (l.map Prod.fst).Nodup) : ((aset l k v).map Prod.fst).Nodup := by
  by_cases hk : k ∈ l.map Prod.fst
  · rw [keys_aset_of_mem l k v hk]
    exact h
  · rw [keys_aset_of_not_mem l k v hk]
    simp [List.nodup_append, h, hk]

theorem keys_adel {α : Type} (l : List (String × α)) (k : String) :
    (adel l k).map Prod.fst = (l.map Prod.fst).erase k := by
  induction l with
  | nil => simp [adel]
  | cons hd tl ih =>
    by_cases hk : hd.1 = k
    · simp [adel, hk, List.erase_cons_head]
    · simp [adel, hk, List.erase_cons_tail, ih]

theorem alookup_adel_ne {α : Type} (l : List (String × α)) (k k' : String)
    (h : k' ≠ k) : alookup (adel l k) k' = alookup l k' := by
  induction l with
  | nil => rfl
  | cons hd tl ih =>
    obtain ⟨k1, v1⟩ := hd
    by_cases hk : k1 = k
    · subst hk
      simp [adel, alookup, Ne.symm h]
    · by_cases hk' : k1 = k'
      · simp [adel, alookup, hk, hk', h]
      · simp [adel, alookup, hk, hk', ih]

theorem alookup_adel_self {α : Type} (l : List (String × α)) (k : String)
    (hnd : (l.map Prod.fst).Nodup) : alookup (adel l k) k = none := by
  induction l with
  | nil => rfl
  | cons hd tl ih =>
    obtain ⟨k1, v1⟩ := hd
    simp only [List.map_cons, List.nodup_cons] at hnd
    by_cases hk : k1 = k
    · subst hk
      simp only [adel, beq_self_eq_true, if_true]
      exact alookup_eq_none_of_not_mem hnd.1
    · simp [adel, alookup, hk, ih hnd.2]

/-! ### Loop-combinator lemmas -/

theorem loopRun_inv {σ ρ : Type} (step : σ → StepOut σ ρ) (Inv : σ → Prop) (P : ρ → Prop)
    (hstep : ∀ s, Inv s →
      (∀ s', step s = .next s' → Inv s') ∧ (∀ r, step s = .done r → P r)) :
    ∀ fuel s r, Inv s → loopRun step fuel s = some r → P r := by
  intro fuel
  induction fuel with
  | zero => intro s r _ h; simp [loopRun] at h
  | succ n ih =>
    intro s r hinv hrun
    simp only [loopRun] at hrun
    cases hs : step s with
    | done r' =>
      rw [hs] at hrun
      simp only [Option.some_inj] at hrun
      exact hrun ▸ (hstep s hinv).2 r' hs
    | fail => rw [hs] at hrun; cases hrun
    | next s' =>
      rw [hs] at hrun
      exact ih s' r ((hstep s hinv).1 s' hs) hrun

theorem loopRun_term {σ ρ : Type} (step : σ → StepOut σ ρ) (Inv : σ → Prop) (P : ρ → Prop)
    (m : σ → Nat)
    (hstep : ∀ s, Inv s →
      (∃ r, step s = .done r ∧ P r) ∨ (∃ s', step s = .next s' ∧ Inv s' ∧ m s' < m s)) :
    ∀ fuel s, Inv s → m s < fuel → ∃ r, loopRun step fuel s = some r ∧ P r := by
  intro fuel
  induction fuel with
  | zero => intro s _ hm; omega
  | succ n ih =>
    intro s hinv hm
    rcases hstep s hinv with ⟨r, hr, hp⟩ | ⟨s', hs, hinv', hlt⟩
    · exact ⟨r, by simp [loopRun, hr], hp⟩
    · obtain ⟨r, hrun, hp⟩ := ih s' hinv' (by omega)
      exact ⟨r, by simp [loopRun, hs, hrun], hp⟩

theorem foldl_inv {α β : Type} (f : β → α → β) (Inv : β → Prop) :
    ∀ (l : List α) (b : β), Inv b →
      (∀ b' a, a ∈ l → Inv b' → Inv (f b' a)) → Inv (l.foldl f b) := by
  intro l
  induction l with
  | nil => intro b hb _; exact hb
  | cons hd tl ih =>
    intro b hb hf
    exact ih (f b hd) (hf b hd (List.mem_cons_self _ _) hb)
      (fun b' a ha => hf b' a (List.mem_cons_of_mem _ ha))

/-! ### popMin1 lemmas -/

theorem popMin1_mem {α : Type} (lt : α → α → Bool) (x : α) (xs : List α) :
    (popMin1 lt x xs).1 ∈ x :: xs := by
  induction xs generalizing x with
  | nil => simp [popMin1]
  | cons y ys ih =>
    simp only [popMin1]
    by_cases h : lt (popMin1 lt y ys).1 x
    · simp only [h, if_true]
      exact List.mem_cons_of_mem _ (ih y)
    · simp [h]

theorem popMin1_perm {α : Type} (lt : α → α → Bool) (x : α) (xs : List α) :
    List.Perm (x :: xs) ((popMin1 lt x xs).1 :: (popMin1 lt x xs).2) := by
  induction xs generalizing x with
  | nil => simp [popMin1]
  | cons y ys ih =>
    simp only [popMin1]
    by_cases h : lt (popMin1 lt y ys).1 x
    · simp only [h, if_true]
      exact List.Perm.trans (List.Perm.cons x (ih y)) (List.Perm.swap _ _ _)
    · simp [h]

theorem popMin1_le {α : Type} (key : α → Nat) (lt : α → α → Bool)
    (h1 : ∀ a b, lt a b = true → key a ≤ key b)
    (h2 : ∀ a b, lt a b = false → key b ≤ key a) :
    ∀ (x : α) (xs : List α), ∀ e ∈ x :: xs, key (popMin1 lt x xs).1 ≤ key e := by
  intro x xs
  induction xs generalizing x with
  | nil => intro e he; simp at he; simp [popMin1, he]
  | cons y ys ih =>
    intro e he
    simp only [popMin1]
    by_cases h : lt (popMin1 lt y ys).1 x
    · simp only [h, if_true]
      rcases List.mem_cons.mp he with he | he
      · exact he ▸ h1 _ _ h
      · exact ih y e he
    · simp only [h, if_false]
      rcases List.mem_cons.mp he with he | he
      · exact he ▸ le_refl _
      · exact le_trans (h2 _ _ (by simpa using h)) (ih y e he)

theorem popMin1_length {α : Type} (lt : α → α → Bool) (x : α) (xs : List α) :
    (popMin1 lt x xs).2.length = xs.length := by
  have := (popMin1_perm lt x xs).length_eq
  simpa using this.symm

theorem popMin1_mem_of_mem_rest {α : Type} (lt : α → α → Bool) (x : α) (xs : List α) :
    ∀ e ∈ (popMin1 lt x xs).2, e ∈ x :: xs := by
  intro e he
  exact (popMin1_perm lt x xs).mem_iff.mpr (List.mem_cons_of_mem _ he)

theorem ucsRelax_mem (child : Node) (l : List (Nat × Node)) :
    ∀ e ∈ ucsRelax child l, e ∈ l ∨ e = (child.path_cost, child) := by
  induction l with
  | nil => intro e he; simp [ucsRelax] at he
  | cons hd tl ih =>
    obtain ⟨c, n⟩ := hd
    intro e he
    simp only [ucsRelax] at he
    by_cases hb : (n.state == child.state && decide (child.path_cost < c)) = true
    · rw [if_pos hb] at he
      rcases List.mem_cons.mp he with h | h
      · exact Or.inr h
      · exact Or.inl (List.mem_cons_of_mem _ h)
    · rw [if_neg hb] at he
      rcases List.mem_cons.mp he with h | h
      · exact Or.inl (h ▸ List.mem_cons_self _ _)
      · rcases ih e h with h' | h'
        · exact Or.inl (List.mem_cons_of_mem _ h')
        · exact Or.inr h'

theorem ucsRelax_length (child : Node) (l : List (Nat × Node)) :
    (ucsRelax child l).length = l.length := by
  induction l with
  | nil => rfl
  | cons hd tl ih =>
    obtain ⟨c, n⟩ := hd
    simp only [ucsRelax]
    by_cases hb : (n.state == child.state && decide (child.path_cost < c)) = true
    · rw [if_pos hb]; simp
    · rw [if_neg hb]; simp [ih]

theorem astarReplace_mem (f ctr : Nat) (child : Node) (l : List (Nat × Nat × Node)) :
    ∀ e ∈ astarReplace f ctr child l, e ∈ l ∨ e = (f, ctr, child) := by
  induction l with
  | nil => intro e he; simp [astarReplace] at he
  | cons hd tl ih =>
    intro e he
    simp only [astarReplace] at he
    by_cases hb : (hd.2.2.state == child.state) = true
    · rw [if_pos hb] at he
      rcases List.mem_cons.mp he with h | h
      · exact Or.inr h
      · exact Or.inl (List.mem_cons_of_mem _ h)
    · rw [if_neg hb] at he
      rcases List.mem_cons.mp he with h | h
      · exact Or.inl (h ▸ List.mem_cons_self _ _)
      · rcases ih e h with h' | h'
        · exact Or.inl (List.mem_cons_of_mem _ h')
        · exact Or.inr h'

theorem astarReplace_length (f ctr : Nat) (child : Node) (l : List (Nat × Nat × Node)) :
    (astarReplace f ctr child l).length = l.length := by
  induction l with
  | nil => rfl
  | cons hd tl ih =>
    simp only [astarReplace]
    by_cases hb : (hd.2.2.state == child.state) = true
    · rw [if_pos hb]; simp
    · rw [if_neg hb]; simp [ih]

theorem pairLt_true_le (a b : Nat × Node) (h : pairLt a b = true) : a.1 ≤ b.1 := by
  simp only [pairLt, Bool.or_eq_true, Bool.and_eq_true, decide_eq_true_eq, beq_iff_eq] at h
  rcases h with h | ⟨h, _⟩ <;> omega

theorem pairLt_false_le (a b : Nat × Node) (h : pairLt a b = false) : b.1 ≤ a.1 := by
  simp only [pairLt, Bool.or_eq_false_iff, Bool.and_eq_false_iff, decide_eq_false_iff_not] at h
  omega

theorem tripLt_true_le (a b : Nat × Nat × Node) (h : tripLt a b = true) : a.1 ≤ b.1 := by
  simp only [tripLt, Bool.or_eq_true, Bool.and_eq_true, decide_eq_true_eq, beq_iff_eq] at h
  rcases h with h | ⟨h, _⟩ <;> omega

theorem tripLt_false_le (a b : Nat × Nat × Node) (h : tripLt a b = false) : b.1 ≤ a.1 := by
  simp only [tripLt, Bool.or_eq_false_iff, Bool.and_eq_false_iff, decide_eq_false_iff_not] at h
  omega

/-! ### pathWeight lemmas -/

theorem pathWeight_cons_cons {g : Graph} {x y : String} {l : List String} {c : Nat} :
    pathWeight g (x :: y :: l) = some c ↔
      ∃ w c', edgeOf g x y = some w ∧ pathWeight g (y :: l) = some c' ∧ c = w + c' := by
  constructor
  · intro h
    simp only [pathWeight] at h
    cases he : edgeOf g x y with
    | none => rw [he] at h; simp at h
    | some w =>
      rw [he] at h
      cases hp : pathWeight g (y :: l) with
      | none => rw [hp] at h; simp at h
      | some c' =>
        rw [hp] at h
        simp only [Option.some_inj] at h
        exact ⟨w, c', rfl, rfl, h.symm⟩
  · rintro ⟨w, c', he, hp, rfl⟩
    simp [pathWeight, he, hp]

theorem pathWeight_ne_nil {g : Graph} {l : List String} {c : Nat}
    (h : pathWeight g l = some c) : l ≠ [] := by
  intro he
  subst he
  simp [pathWeight] at h

theorem pathWeight_append_last {g : Graph} {l : List String} {c : Nat} {u v : String}
    {w : Nat} (h : pathWeight g l = some c) (hl : l.getLast? = some u)
    (he : edgeOf g u v = some w) : pathWeight g (l ++ [v]) = some (c + w) := by
  induction l generalizing c with
  | nil => simp at hl
  | cons x xs ih =>
    cases xs with
    | nil =>
      simp only [pathWeight, Option.some_inj] at h
      simp only [List.getLast?_singleton, Option.some_inj] at hl
      subst hl
      simp [pathWeight, he, ← h]
    | cons y ys =>
      obtain ⟨w1, c1, he1, hp1, rfl⟩ := pathWeight_cons_cons.mp h
      have hl' : (y :: ys).getLast? = some u := by
        simpa [List.getLast?_cons_cons] using hl
      have := ih hp1 hl'
      refine pathWeight_cons_cons.mpr ⟨w1, c1 + w, he1, this, by omega⟩

theorem pathWeight_join {g : Graph} {l1 l2 : List String} {c1 c2 : Nat}
    (h1 : pathWeight g l1 = some c1) (h2 : pathWeight g l2 = some c2)
    (hj : l1.getLast? = l2.head?) :
    pathWeight g (l1 ++ l2.drop 1) = some (c1 + c2) := by
  induction l1 generalizing c1 with
  | nil => exact absurd rfl (pathWeight_ne_nil h1)
  | cons x xs ih =>
    cases xs with
    | nil =>
      simp only [pathWeight, Option.some_inj] at h1
      subst h1
      cases l2 with
      | nil => exact absurd rfl (pathWeight_ne_nil h2)
      | cons y ys =>
        simp only [List.getLast?_singleton, List.head?_cons, Option.some_inj] at hj
        subst hj
        simpa using h2
    | cons y ys =>
      obtain ⟨w, c', he, hp, rfl⟩ := pathWeight_cons_cons.mp h1
      have hj' : (y :: ys).getLast? = l2.head? := by
        simpa [List.getLast?_cons_cons] using hj
      have := ih hp hj'
      have hcons : pathWeight g (x :: ((y :: ys) ++ l2.drop 1)) = some (w + (c' + c2)) :=
        pathWeight_cons_cons.mpr ⟨w, c' + c2, he, this, rfl⟩
      simpa [Nat.add_assoc] using hcons

theorem pathWeight_split {g : Graph} (l1 : List String) {z : String} {l2 : List String}
    {d : Nat} (h : pathWeight g (l1 ++ z :: l2) = some d) :
    ∃ c1 c2, pathWeight g (l1 ++ [z]) = some c1 ∧ pathWeight g (z :: l2) = some c2 ∧
      d = c1 + c2 := by
  induction l1 generalizing d with
  | nil =>
    exact ⟨0, d, by simp [pathWeight], by simpa using h, by omega⟩
  | cons x xs ih =>
    cases xs with
    | nil =>
      simp only [List.nil_append, List.cons_append] at h
      obtain ⟨w, c', he, hp, rfl⟩ := pathWeight_cons_cons.mp h
      refine ⟨w + 0, c', ?_, hp, by omega⟩
      exact pathWeight_cons_cons.mpr ⟨w, 0, he, by simp [pathWeight], rfl⟩
    | cons y ys =>
      simp only [List.cons_append] at h
      have h' : pathWeight g (x :: ((y :: ys) ++ z :: l2)) = some d := by
        simpa using h
      obtain ⟨w, c', he, hp, rfl⟩ := pathWeight_cons_cons.mp h'
      obtain ⟨c1, c2, hp1, hp2, rfl⟩ := ih hp
      refine ⟨w + c1, c2, ?_, hp2, by omega⟩
      have : pathWeight g (x :: ((y :: ys) ++ [z])) = some (w + c1) :=
        pathWeight_cons_cons.mpr ⟨w, c1, he, hp1, rfl⟩
      simpa using this

theorem walkTo_isolated {g : Graph} {s x : String} {c : Nat}
    (ha : alookup g s = some []) (h : WalkTo g s x c) : x = s := by
  obtain ⟨l, hw, hh, hl⟩ := h
  cases l with
  | nil => cases hh
  | cons a as =>
    have ha' : a = s := by simpa using hh
    subst ha'
    cases as with
    | nil =>
      simp only [List.getLast?_singleton, Option.some_inj] at hl
      exact hl.symm
    | cons b bs =>
      obtain ⟨w, c', he, _, _⟩ := pathWeight_cons_cons.mp hw
      rw [edgeOf, ha] at he
      simp [alookup] at he

theorem walkTo_isolated_cost {g : Graph} {s x : String} {c : Nat}
    (ha : alookup g s = some []) (h : WalkTo g s x c) : c = 0 := by
  obtain ⟨l, hw, hh, hl⟩ := h
  cases l with
  | nil => cases hh
  | cons a as =>
    have ha' : a = s := by simpa using hh
    subst ha'
    cases as with
    | nil =>
      simp only [pathWeight, Option.some_inj] at hw
      exact hw.symm
    | cons b bs =>
      obtain ⟨w, c', he, _, _⟩ := pathWeight_cons_cons.mp hw
      rw [edgeOf, ha] at he
      simp [alookup] at he

theorem walkTo_cons_inv {g : Graph} {u t : String} {c : Nat}
    (h : WalkTo g u t c) :
    (u = t ∧ c = 0) ∨
      ∃ v w c', edgeOf g u v = some w ∧ WalkTo g v t c' ∧ c = w + c' := by
  obtain ⟨l, hw, hh, hl⟩ := h
  cases l with
  | nil => cases hh
  | cons a as =>
    have ha' : a = u := by simpa using hh
    subst ha'
    cases as with
    | nil =>
      simp only [pathWeight, Option.some_inj] at hw
      simp only [List.getLast?_singleton, Option.some_inj] at hl
      exact Or.inl ⟨hl, hw.symm⟩
    | cons b bs =>
      obtain ⟨w, c', he, hp, rfl⟩ := pathWeight_cons_cons.mp hw
      refine Or.inr ⟨b, w, c', he, ⟨b :: bs, hp, rfl, ?_⟩, rfl⟩
      simpa [List.getLast?_cons_cons] using hl

theorem alookup_singleton_inv {α : Type} {k v : String} {a : α} {w : α}
    (h : alookup [(k, a)] v = some w) : v = k ∧ w = a := by
  simp only [alookup] at h
  by_cases hk : (k == v) = true
  · rw [if_pos hk] at h
    cases h
    exact ⟨(beq_iff_eq.mp hk).symm, rfl⟩
  · rw [if_neg hk] at h
    cases h

theorem alookup_pair_inv {α : Type} {k1 k2 v : String} {a1 a2 : α} {w : α}
    (h : alookup [(k1, a1), (k2, a2)] v = some w) :
    (v = k1 ∧ w = a1) ∨ (v = k2 ∧ w = a2) := by
  simp only [alookup] at h
  by_cases h1 : (k1 == v) = true
  · rw [if_pos h1] at h
    cases h
    exact Or.inl ⟨(beq_iff_eq.mp h1).symm, rfl⟩
  · rw [if_neg h1] at h
    by_cases h2 : (k2 == v) = true
    · rw [if_pos h2] at h
      cases h
      exact Or.inr ⟨(beq_iff_eq.mp h2).symm, rfl⟩
    · rw [if_neg h2] at h
      cases h

theorem consistent_walk {g : Graph} {H : String → Nat}
    (hcons : ∀ u v w, edgeOf g u v = some w → H u ≤ w + H v) :
    ∀ {l : List String} {c : Nat} {s t : String}, pathWeight g l = some c →
      l.head? = some s → l.getLast? = some t → H s ≤ c + H t := by
  intro l
  induction l with
  | nil =>
    intro c s t hw
    simp [pathWeight] at hw
  | cons a as ih =>
    intro c s t hw hh hl
    have ha : a = s := by simpa using hh
    subst ha
    cases as with
    | nil =>
      simp only [pathWeight, Option.some_inj] at hw
      simp only [List.getLast?_singleton, Option.some_inj] at hl
      subst hl
      subst hw
      simp
    | cons b bs =>
      obtain ⟨w, c', he, hp, rfl⟩ := pathWeight_cons_cons.mp hw
      have hsb := hcons a b w he
      have hbt := ih hp rfl (by simpa [List.getLast?_cons_cons] using hl)
      omega

theorem walk_trans {g : Graph} {s m t : String} {c1 c2 : Nat}
    (h1 : WalkTo g s m c1) (h2 : WalkTo g m t c2) : WalkTo g s t (c1 + c2) := by
  obtain ⟨l1, hw1, hh1, hl1⟩ := h1
  obtain ⟨l2, hw2, hh2, hl2⟩ := h2
  refine ⟨l1 ++ l2.drop 1, pathWeight_join hw1 hw2 (by rw [hl1, hh2]), ?_, ?_⟩
  · cases l1 with
    | nil => exact absurd rfl (pathWeight_ne_nil hw1)
    | cons a as => simpa using hh1
  · cases l2 with
    | nil => exact absurd rfl (pathWeight_ne_nil hw2)
    | cons b bs =>
      cases bs with
      | nil =>
        simp only [List.getLast?_singleton, Option.some_inj] at hl2
        simp only [List.head?_cons, Option.some_inj] at hh2
        subst hl2
        subst hh2
        simpa using hl1
      | cons b' bs' =>
        simp only [List.drop_succ_cons, List.drop_zero]
        rw [List.getLast?_append_of_ne_nil _ (by simp)]
        simpa using hl2

theorem walk_cover {g : Graph} {explored : List String} {start : String}
    (EntryAt : String → Nat → Prop)
    (hexp : ∀ u ∈ explored, ∃ du, (∀ cu, WalkTo g start u cu → du ≤ cu) ∧
      ∀ v w, edgeOf g u v = some w → v ∈ explored ∨
        ∃ k, EntryAt v k ∧ k ≤ du + w) :
    ∀ l s c t p, pathWeight g l = some c → l.head? = some s →
      l.getLast? = some t → t ∉ explored → WalkTo g start s p →
      (s ∈ explored ∨ ∃ k, EntryAt s k ∧ k ≤ p) →
      ∃ z k c2, EntryAt z k ∧ WalkTo g z t c2 ∧ k + c2 ≤ p + c := by
  intro l
  induction l with
  | nil =>
    intro s c t p hw
    simp [pathWeight] at hw
  | cons a as ih =>
    intro s c t p hw hh hl ht hws hs
    have ha : a = s := by simpa using hh
    subst ha
    cases as with
    | nil =>
      simp only [pathWeight, Option.some_inj] at hw
      simp only [List.getLast?_singleton, Option.some_inj] at hl
      subst hl
      rcases hs with h | ⟨k, hk, hkp⟩
      · exact absurd h ht
      · exact ⟨a, k, 0, hk, ⟨[a], rfl, rfl, rfl⟩, by omega⟩
    | cons b bs =>
      obtain ⟨w, c', he, hp, rfl⟩ := pathWeight_cons_cons.mp hw
      rcases hs with hsx | ⟨k, hk, hkp⟩
      · obtain ⟨ds, hmin, hrel⟩ := hexp a hsx
        have hds : ds ≤ p := hmin p hws
        have hwy : WalkTo g start b (p + w) :=
          walk_trans hws ⟨[a, b], by simp [pathWeight, he], rfl, rfl⟩
        have hy : b ∈ explored ∨ ∃ k, EntryAt b k ∧ k ≤ p + w := by
          rcases hrel b w he with h | ⟨k, hk, hkb⟩
          · exact Or.inl h
          · exact Or.inr ⟨k, hk, by omega⟩
        have hl' : (b :: bs).getLast? = some t := by
          simpa [List.getLast?_cons_cons] using hl
        obtain ⟨z, k, c2, hE, hwz, hb⟩ := ih b c' t (p + w) hp rfl hl' ht hwy hy
        exact ⟨z, k, c2, hE, hwz, by omega⟩
      · exact ⟨a, k, w + c', hk, ⟨a :: b :: bs, hw, rfl, hl⟩, by omega⟩

theorem pathWeight_reverse {g rg : Graph}
    (hrev : ∀ a b w, edgeOf rg a b = some w → edgeOf g b a = some w) :
    ∀ {l : List String} {c : Nat}, pathWeight rg l = some c →
      pathWeight g l.reverse = some c := by
  intro l
  induction l with
  | nil => intro c h; simp [pathWeight] at h
  | cons x xs ih =>
    intro c h
    cases xs with
    | nil =>
      simp only [pathWeight, Option.some_inj] at h
      subst h
      rfl
    | cons y ys =>
      obtain ⟨w, c', he, hp, rfl⟩ := pathWeight_cons_cons.mp h
      have hg : edgeOf g y x = some w := hrev x y w he
      have ihh := ih hp
      have hrw : (x :: y :: ys).reverse = (y :: ys).reverse ++ [x] := by simp
      rw [hrw]
      have hlast : (y :: ys).reverse.getLast? = some y := by
        rw [List.getLast?_reverse]
        rfl
      have := pathWeight_append_last ihh hlast hg
      simpa [Nat.add_comm] using this

theorem shortest_exists {g : Graph} {s t : String}
    (h : ∃ c, WalkTo g s t c) : ∃ d, ShortestDist g s t d := by
  have hne : {c | WalkTo g s t c}.Nonempty := h
  exact ⟨sInf {c | WalkTo g s t c}, Nat.sInf_mem hne,
    fun c hc => Nat.sInf_le hc⟩

/-! ### Node lemmas -/

theorem Node.path_ne_nil (n : Node) : n.path ≠ [] := by
  cases n <;> simp [Node.path]

theorem Node.path_last (n : Node) : n.path.getLast? = some n.state := by
  cases n with
  | root s => simp [Node.path, Node.state]
  | child s p a c d => simp [Node.path, Node.state]

theorem Node.path_head {g : Graph} {start : String} :
    ∀ {n : Node}, n.valid g start → n.path.head? = some start := by
  intro n
  induction n with
  | root s => intro h; simp [Node.valid] at h; simp [Node.path, h]
  | child s p a c d ih =>
    intro h
    obtain ⟨hp, _⟩ := h
    have := ih hp
    cases hpp : p.path with
    | nil => exact absurd hpp p.path_ne_nil
    | cons x xs =>
      rw [hpp] at this
      simp only [List.head?_cons, Option.some_inj] at this
      simp [Node.path, hpp, this]

theorem Node.path_weight {g : Graph} {start : String} :
    ∀ {n : Node}, n.valid g start → pathWeight g n.path = some n.path_cost := by
  intro n
  induction n with
  | root s => intro _; simp [Node.path, Node.path_cost, pathWeight]
  | child s p a c d ih =>
    intro h
    obtain ⟨hp, w, he, hc, _⟩ := h
    subst hc
    exact pathWeight_append_last (ih hp) p.path_last he

theorem Node.valid_walk {g : Graph} {start : String} {n : Node}
    (h : n.valid g start) : WalkTo g start n.state n.path_cost :=
  ⟨n.path, n.path_weight h, n.path_head h, n.path_last⟩

theorem Node.expand_mem {g : Graph} {n : Node} {cs : List Node}
    (hx : n.expand g = some cs) :
    ∀ c ∈ cs, ∃ adj vw, alookup g n.state = some adj ∧ vw ∈ adj ∧
      c = Node.child vw.1 n (n.state ++ " to " ++ vw.1) (n.path_cost + vw.2)
        (n.depth + 1) := by
  intro c hc
  simp only [Node.expand] at hx
  cases ha : alookup g n.state with
  | none => rw [ha] at hx; simp at hx
  | some adj =>
    rw [ha] at hx
    simp only [Option.map_some', Option.some_inj] at hx
    subst hx
    obtain ⟨vw, hvw, rfl⟩ := List.mem_map.mp hc
    exact ⟨adj, vw, rfl, hvw, rfl⟩

theorem Node.expand_valid {g : Graph} {start : String} {n : Node} {cs : List Node}
    (hin : ∀ kv ∈ g, (kv.2.map Prod.fst).Nodup)
    (hv : n.valid g start) (hx : n.expand g = some cs) :
    ∀ c ∈ cs, c.valid g start := by
  intro c hc
  obtain ⟨adj, vw, ha, hvw, rfl⟩ := Node.expand_mem hx c hc
  have hadj : (n.state, adj) ∈ g := alookup_mem ha
  have hnd := hin _ hadj
  refine ⟨hv, vw.2, ?_, rfl, rfl⟩
  simp only [edgeOf, ha, Option.bind_some]
  exact alookup_of_mem_nodup hnd hvw

theorem Node.expand_isSome {g : Graph} {start : String} {n : Node}
    (hcl : ReachClosed g start) (hv : n.valid g start) :
    ∃ cs, n.expand g = some cs := by
  obtain ⟨adj, ha⟩ := hcl n.state ⟨n.path_cost, n.valid_walk hv⟩
  exact ⟨adj.map (fun vw => Node.child vw.1 n (n.state ++ " to " ++ vw.1)
    (n.path_cost + vw.2) (n.depth + 1)), by simp [Node.expand, ha]⟩

/-! ### Counting and measure lemmas for termination -/

theorem filter_length_mono {α : Type} (l : List α) (p q : α → Bool)
    (himp : ∀ x, q x = true → p x = true) :
    (l.filter q).length ≤ (l.filter p).length := by
  induction l with
  | nil => simp
  | cons hd tl ih =>
    by_cases hq : q hd = true
    · simp only [List.filter_cons, hq, himp hd hq, if_true, List.length_cons]
      omega
    · simp only [List.filter_cons, hq, Bool.false_eq_true, if_false]
      by_cases hp : p hd = true
      · simp only [hp, if_true, List.length_cons]
        omega
      · simp only [hp, Bool.false_eq_true, if_false]
        exact ih

theorem filter_length_lt {α : Type} (l : List α) (a : α) (p q : α → Bool)
    (himp : ∀ x, q x = true → p x = true) (ha : a ∈ l) (hpa : p a = true)
    (hqa : q a = false) : (l.filter q).length < (l.filter p).length := by
  induction l with
  | nil => simp at ha
  | cons hd tl ih =>
    rcases List.mem_cons.mp ha with h | h
    · subst h
      rw [List.filter_cons, List.filter_cons, hpa, hqa]
      simp only [if_true, Bool.false_eq_true, if_false, List.length_cons]
      have := filter_length_mono tl p q himp
      omega
    · by_cases hq : q hd = true
      · simp only [List.filter_cons, hq, himp hd hq, if_true, List.length_cons]
        exact Nat.succ_lt_succ (ih h)
      · simp only [List.filter_cons, hq, Bool.false_eq_true, if_false]
        by_cases hp : p hd = true
        · simp only [hp, if_true, List.length_cons]
          have := ih h
          omega
        · simp only [hp, Bool.false_eq_true, if_false]
          exact ih h

theorem nodup_length_le {l1 l2 : List String} (h1 : l1.Nodup)
    (hsub : ∀ x ∈ l1, x ∈ l2) (h2 : l2.Nodup) : l1.length ≤ l2.length := by
  have hc1 : l1.toFinset.card = l1.length := List.toFinset_card_of_nodup h1
  have hc2 : l2.toFinset.card = l2.length := List.toFinset_card_of_nodup h2
  rw [← hc1, ← hc2]
  refine Finset.card_le_card ?_
  intro x hx
  rw [List.mem_toFinset] at hx ⊢
  exact hsub x hx

theorem valid_state_mem_allStates {g : Graph} {start : String} {n : Node}
    (h : n.valid g start) : n.state ∈ allStates g start := by
  cases n with
  | root s =>
    simp only [Node.valid] at h
    simp [allStates, Node.state, h]
  | child s p a c d =>
    obtain ⟨_, w, he, _, _⟩ := h
    simp only [edgeOf] at he
    cases ha : alookup g p.state with
    | none => rw [ha] at he; simp at he
    | some adj =>
      rw [ha] at he
      simp only [Option.some_bind] at he
      have hmem : (p.state, adj) ∈ g := alookup_mem ha
      have hsmem : s ∈ adj.map Prod.fst := alookup_mem_keys he
      show Node.state (Node.child s p a c d) ∈ allStates g start
      simp only [Node.state, allStates, List.mem_cons, List.mem_flatten]
      refine Or.inr ⟨p.state :: adj.map Prod.fst, ?_, List.mem_cons_of_mem _ hsmem⟩
      exact List.mem_map.mpr ⟨(p.state, adj), hmem, rfl⟩

theorem measure_dec {g : Graph} {start : String} {explored : List String} {u : String}
    (hu : u ∈ allStates g start) (hnot : u ∉ explored) :
    measureLeft g start (explored ++ [u]) < measureLeft g start explored := by
  refine filter_length_lt _ u _ _ ?_ (List.mem_dedup.mpr hu) ?_ ?_
  · intro x hx
    rw [Bool.not_eq_true'] at hx ⊢
    by_cases hm : explored.contains x = true
    · exfalso
      have hmm : (explored ++ [u]).contains x = true :=
        List.elem_eq_true_of_mem
          (List.mem_append.mpr (Or.inl (List.mem_of_elem_eq_true hm)))
      rw [hmm] at hx
      cases hx
    · simpa using hm
  · rw [Bool.not_eq_true']
    by_cases hm : explored.contains u = true
    · exact absurd (List.mem_of_elem_eq_true hm) hnot
    · simpa using hm
  · have hm : (explored ++ [u]).contains u = true :=
      List.elem_eq_true_of_mem
        (List.mem_append.mpr (Or.inr (List.mem_singleton.mpr rfl)))
    simp [hm]

theorem measure_lt_fuel (g : Graph) (start : String) (explored : List String) :
    measureLeft g start explored < fuelFor g start := by
  unfold measureLeft fuelFor
  have h1 := List.length_filter_le (fun x => !(explored.contains x))
    (allStates g start).dedup
  have h2 := (List.dedup_sublist (allStates g start)).length_le
  omega

theorem getLast?_mem {l : List String} {x : String} (h : l.getLast? = some x) :
    x ∈ l := by
  rw [← List.dropLast_append_getLast? x h]
  exact List.mem_append.mpr (Or.inr (List.mem_singleton.mpr rfl))

theorem walk_states_isSome {g : Graph} (hfc : FullClosed g) :
    ∀ {l : List String} {c : Nat} {s : String}, pathWeight g l = some c →
      l.head? = some s → (alookup g s).isSome = true →
      ∀ x ∈ l, (alookup g x).isSome = true := by
  intro l
  induction l with
  | nil => intro c s h; simp [pathWeight] at h
  | cons a as ih =>
    intro c s hw hh hs x hx
    have ha : a = s := by simpa using hh
    subst ha
    cases as with
    | nil =>
      simp only [List.mem_singleton] at hx
      exact hx ▸ hs
    | cons b bs =>
      obtain ⟨w, c', he, hp, _⟩ := pathWeight_cons_cons.mp hw
      have hb : (alookup g b).isSome = true := by
        simp only [edgeOf] at he
        cases hadj : alookup g a with
        | none => rw [hadj] at he; simp at he
        | some adj =>
          rw [hadj] at he
          simp only [Option.some_bind] at he
          exact hfc (a, adj) (alookup_mem hadj) (b, w) (alookup_mem he)
      rcases List.mem_cons.mp hx with h | h
      · exact h ▸ hs
      · exact ih hp rfl hb x h

theorem reachClosed_of_fullClosed {g : Graph} {start : String}
    (hfc : FullClosed g) (hs : (alookup g start).isSome = true) :
    ReachClosed g start := by
  intro x hx
  obtain ⟨c, l, hw, hh, hl⟩ := hx
  have := walk_states_isSome hfc hw hh hs x (getLast?_mem hl)
  cases ha : alookup g x with
  | none => rw [ha] at this; simp at this
  | some adj => exact ⟨adj, rfl⟩

theorem walkTo_reverse {g rg : Graph}
    (hrev : ∀ a b w, edgeOf rg a b = some w → edgeOf g b a = some w)
    {s t : String} {c : Nat} (h : WalkTo rg s t c) : WalkTo g t s c := by
  obtain ⟨l, hw, hh, hl⟩ := h
  refine ⟨l.reverse, pathWeight_reverse hrev hw, ?_, ?_⟩
  · rw [List.head?_reverse]
    exact hl
  · rw [List.getLast?_reverse]
    exact hh

theorem contains_false_not_mem {l : List String} {x : String}
    (h : l.contains x = false) : x ∉ l := by
  intro hm
  have := List.elem_eq_true_of_mem hm
  rw [List.contains] at h
  rw [this] at h
  cases h

/-! ### Reverse-graph lemmas for bidirectional_search -/

theorem alookup_map_nil {g : Graph} {a : String} {v : Adj}
    (h : alookup (g.map (fun kv => (kv.1, ([] : Adj)))) a = some v) : v = [] := by
  induction g with
  | nil => simp [alookup] at h
  | cons hd tl ih =>
    simp only [List.map_cons, alookup] at h
    by_cases hk : (hd.1 == a) = true
    · rw [if_pos hk] at h
      cases h
      rfl
    · rw [if_neg hk] at h
      exact ih h

theorem reverseGraph_edge {g rg : Graph} (hwf : WFGraph g)
    (hrg : reverseGraph g = some rg) :
    ∀ a b w, edgeOf rg a b = some w → edgeOf g b a = some w := by
  obtain ⟨hnd, hin⟩ := hwf
  simp only [reverseGraph] at hrg
  have hfold := foldl_inv
    (fun (acc : Option Graph) (kv : String × Adj) =>
      kv.2.foldl
        (fun acc2 vw =>
          acc2.bind (fun rg0 =>
            match alookup rg0 vw.1 with
            | none => none
            | some adj => some (aset rg0 vw.1 (aset adj kv.1 vw.2))))
        acc)
    (fun acc : Option Graph => ∀ rg', acc = some rg' →
      ∀ a b w, edgeOf rg' a b = some w → edgeOf g b a = some w)
    g (some (g.map (fun kv => (kv.1, ([] : Adj)))))
    ?_ ?_
  · exact hfold rg hrg
  · intro rg' h a b w hab
    cases h
    simp only [edgeOf] at hab
    cases hl : alookup (g.map (fun kv => (kv.1, ([] : Adj)))) a with
    | none => rw [hl] at hab; simp at hab
    | some adj =>
      rw [hl] at hab
      rw [alookup_map_nil hl] at hab
      simp [alookup] at hab
  · intro acc kv hkv hInv
    refine foldl_inv _
      (fun acc2 : Option Graph => ∀ rg', acc2 = some rg' →
        ∀ a b w, edgeOf rg' a b = some w → edgeOf g b a = some w)
      kv.2 acc hInv ?_
    intro acc2 vw hvw hInv2
    intro rg' hrg'
    cases acc2 with
    | none => simp at hrg'
    | some rg0 =>
      simp only [Option.some_bind] at hrg'
      cases hl : alookup rg0 vw.1 with
      | none => rw [hl] at hrg'; cases hrg'
      | some adj =>
        rw [hl] at hrg'
        cases hrg'
        intro a b w hab
        by_cases hav : a = vw.1
        · subst hav
          simp only [edgeOf, alookup_aset_self, Option.some_bind] at hab
          by_cases hbk : b = kv.1
          · subst hbk
            rw [alookup_aset_self] at hab
            cases hab
            have h1 : alookup g kv.1 = some kv.2 := alookup_of_mem_nodup hnd hkv
            have h2 : alookup kv.2 vw.1 = some vw.2 := alookup_of_mem_nodup (hin kv hkv) hvw
            simp [edgeOf, h1, h2]
          · rw [alookup_aset_ne _ _ _ _ hbk] at hab
            refine hInv2 rg0 rfl vw.1 b w ?_
            simp [edgeOf, hl, hab]
        · refine hInv2 rg0 rfl a b w ?_
          simp only [edgeOf] at hab ⊢
          rwa [alookup_aset_ne _ _ _ _ hav] at hab

theorem reverseGraph_wf {g rg : Graph} (hwf : WFGraph g)
    (hrg : reverseGraph g = some rg) : WFGraph rg := by
  obtain ⟨hnd, _⟩ := hwf
  simp only [reverseGraph] at hrg
  have hfold := foldl_inv
    (fun (acc : Option Graph) (kv : String × Adj) =>
      kv.2.foldl
        (fun acc2 vw =>
          acc2.bind (fun rg0 =>
            match alookup rg0 vw.1 with
            | none => none
            | some adj => some (aset rg0 vw.1 (aset adj kv.1 vw.2))))
        acc)
    (fun acc : Option Graph => ∀ rg', acc = some rg' → WFGraph rg')
    g (some (g.map (fun kv => (kv.1, ([] : Adj)))))
    ?_ ?_
  · exact hfold rg hrg
  · intro rg' h
    cases h
    constructor
    · simpa [List.map_map, Function.comp] using hnd
    · intro kv hkv
      obtain ⟨kv0, _, hkveq⟩ := List.mem_map.mp hkv
      rw [← hkveq]
      simp
  · intro acc kv hkv hInv
    refine foldl_inv _
      (fun acc2 : Option Graph => ∀ rg', acc2 = some rg' → WFGraph rg')
      kv.2 acc hInv ?_
    intro acc2 vw hvw hInv2
    intro rg' hrg'
    cases acc2 with
    | none => simp at hrg'
    | some rg0 =>
      simp only [Option.some_bind] at hrg'
      cases hl : alookup rg0 vw.1 with
      | none => rw [hl] at hrg'; cases hrg'
      | some adj =>
        rw [hl] at hrg'
        cases hrg'
        obtain ⟨hnd0, hin0⟩ := hInv2 rg0 rfl
        constructor
        · rw [keys_aset_of_mem _ _ _ (alookup_mem_keys hl)]
          exact hnd0
        · intro kv' hkv'
          rcases mem_aset kv' hkv' with h | h
          · exact hin0 kv' h
          · subst h
            exact aset_nodup_keys (hin0 (vw.1, adj) (alookup_mem hl))

theorem alookup_map_nil_isSome {g : Graph} (x : String) :
    (alookup (g.map (fun kv => (kv.1, ([] : Adj)))) x).isSome =
      (alookup g x).isSome := by
  induction g with
  | nil => rfl
  | cons hd tl ih =>
    simp only [List.map_cons, alookup]
    by_cases hk : (hd.1 == x) = true
    · rw [if_pos hk, if_pos hk]
      rfl
    · rw [if_neg hk, if_neg hk]
      exact ih

theorem edgeOf_isSome_left {g : Graph} {a b : String} {w : Nat}
    (h : edgeOf g a b = some w) : (alookup g a).isSome = true := by
  simp only [edgeOf] at h
  cases ha : alookup g a with
  | none =>
    rw [ha] at h
    simp at h
  | some adj => rfl

theorem reverseGraph_total {g : Graph} (hfc : FullClosed g) :
    ∃ rg, reverseGraph g = some rg ∧
      ∀ x, (alookup rg x).isSome = (alookup g x).isSome := by
  simp only [reverseGraph]
  have hfold := foldl_inv
    (fun (acc : Option Graph) (kv : String × Adj) =>
      kv.2.foldl
        (fun acc2 vw =>
          acc2.bind (fun rg0 =>
            match alookup rg0 vw.1 with
            | none => none
            | some adj => some (aset rg0 vw.1 (aset adj kv.1 vw.2))))
        acc)
    (fun acc : Option Graph => ∃ rg', acc = some rg' ∧
      ∀ x, (alookup rg' x).isSome = (alookup g x).isSome)
    g (some (g.map (fun kv => (kv.1, ([] : Adj)))))
    ⟨_, rfl, fun x => alookup_map_nil_isSome x⟩ ?_
  · exact hfold
  · intro acc kv hkv hInv
    refine foldl_inv _
      (fun acc2 : Option Graph => ∃ rg', acc2 = some rg' ∧
        ∀ x, (alookup rg' x).isSome = (alookup g x).isSome)
      kv.2 acc hInv ?_
    rintro acc2 vw hvw ⟨rg0, rfl, hkeys⟩
    have hsome : (alookup rg0 vw.1).isSome = true := by
      rw [hkeys]
      exact hfc kv hkv vw hvw
    cases hl : alookup rg0 vw.1 with
    | none =>
      rw [hl] at hsome
      cases hsome
    | some adj =>
      refine ⟨aset rg0 vw.1 (aset adj kv.1 vw.2), by simp [hl], ?_⟩
      intro x
      by_cases hx : x = vw.1
      · subst hx
        rw [alookup_aset_self, ← hkeys vw.1, hl]
        rfl
      · rw [alookup_aset_ne _ _ _ _ hx]
        exact hkeys x

/-! ### Result contract of breadth_first_search -/

theorem bfsStep_pres {g : Graph} {start goal : String}
    (hin : ∀ kv ∈ g, (kv.2.map Prod.fst).Nodup) (st : BfsSt)
    (hInv : BfsInv g start st) :
    (∀ st', bfsStep g goal st = .next st' → BfsInv g start st') ∧
    (∀ r, bfsStep g goal st = .done r → UniP "bfs" g start goal stepHeadQ r) := by
  obtain ⟨hval, hcnt, hmf, hlen, hsteps⟩ := hInv
  cases hf : st.frontier with
  | nil =>
    constructor
    · intro st' h
      simp [bfsStep, hf] at h
    · intro r h
      simp only [bfsStep, hf] at h
      cases h
      exact ⟨rfl, fun h => absurd rfl h, by rw [hf] at hcnt; simpa using hcnt,
        hmf, hlen, hsteps⟩
  | cons node rest =>
    have hnv : node.valid g start := hval node (by rw [hf]; exact List.mem_cons_self _ _)
    have hsnap : stepHeadQ ⟨(node :: rest).map Node.state, st.explored, some node.state, none⟩ := by
      constructor <;> simp [stepHeadQ]
    have hsteps' : ∀ sp ∈ st.steps ++
        [⟨(node :: rest).map Node.state, st.explored, some node.state, none⟩], stepHeadQ sp := by
      intro sp hsp
      rcases List.mem_append.mp hsp with h | h
      · exact hsteps sp h
      · simpa using (List.mem_singleton.mp h) ▸ hsnap
    by_cases hg : node.state = goal
    · subst hg
      constructor
      · intro st' h
        simp [bfsStep, hf] at h
      · intro r h
        simp only [bfsStep, hf, beq_self_eq_true, if_true] at h
        cases h
        refine ⟨rfl, fun _ => ⟨node.path_head hnv, node.path_last, node.path_weight hnv⟩,
          ?_, ?_, ?_, hsteps'⟩
        · show st.ne + 1 ≤ st.ng
          rw [hf] at hcnt
          simp only [List.length_cons] at hcnt
          omega
        · exact le_trans hmf (le_max_left _ _)
        · show (st.steps ++ [_]).length = st.ne + 1
          simp only [List.length_append, List.length_singleton, hlen]
    · cases hx : node.expand g with
      | none =>
        constructor
        · intro st' h
          simp [bfsStep, hf, hg, hx] at h
        · intro r h
          simp [bfsStep, hf, hg, hx] at h
      | some children =>
        have hcv : ∀ c ∈ children, c.valid g start := Node.expand_valid hin hnv hx
        constructor
        · intro st' h
          simp only [bfsStep, hf, beq_iff_eq, if_neg hg, hx] at h
          cases h
          have hfold : (∀ n ∈ (children.foldl (bfsInsert (st.explored ++ [node.state]))
              (rest, st.ng)).1, n.valid g start) ∧
              (st.ne + 1) + (children.foldl (bfsInsert (st.explored ++ [node.state]))
              (rest, st.ng)).1.length ≤ (children.foldl (bfsInsert
              (st.explored ++ [node.state])) (rest, st.ng)).2 := by
            refine foldl_inv _ (fun acc => (∀ n ∈ acc.1, n.valid g start) ∧
              (st.ne + 1) + acc.1.length ≤ acc.2) children (rest, st.ng) ⟨?_, ?_⟩ ?_
            · intro n hn
              exact hval n (by rw [hf]; exact List.mem_cons_of_mem _ hn)
            · show st.ne + 1 + rest.length ≤ st.ng
              rw [hf] at hcnt
              simp only [List.length_cons] at hcnt
              omega
            · rintro ⟨fr, ng⟩ c hc ⟨h1, h2⟩
              simp only at h1 h2
              simp only [bfsInsert]
              by_cases hb : (!(st.explored ++ [node.state]).contains c.state &&
                  !(fr.map Node.state).contains c.state) = true
              · simp only [hb, if_true]
                refine ⟨?_, ?_⟩
                · intro n hn
                  rcases List.mem_append.mp hn with h | h
                  · exact h1 n h
                  · exact (List.mem_singleton.mp h) ▸ hcv c hc
                · simp only [List.length_append, List.length_singleton]
                  omega
              · rw [if_neg hb]
                exact ⟨h1, by show st.ne + 1 + fr.length ≤ ng + 1; omega⟩
          refine ⟨hfold.1, hfold.2, le_trans hmf (le_max_left _ _), ?_, hsteps'⟩
          show (st.steps ++ [_]).length = st.ne + 1
          simp only [List.length_append, List.length_singleton, hlen]
        · intro r h
          simp [bfsStep, hf, hg, hx] at h

theorem bfs_props {g : Graph} {start goal : String} {r : SearchResult}
    (hin : ∀ kv ∈ g, (kv.2.map Prod.fst).Nodup)
    (h : breadth_first_search g start goal = some r) :
    UniP "bfs" g start goal stepHeadQ r := by
  by_cases hsg : start = goal
  · rw [breadth_first_search, if_pos (by simpa using hsg)] at h
    cases h
    refine ⟨rfl, fun _ => ⟨rfl, by simpa using hsg, rfl⟩, Nat.zero_le _, le_refl _, rfl, ?_⟩
    intro sp hsp
    simp at hsp
  · rw [breadth_first_search, if_neg (by simpa using hsg)] at h
    refine loopRun_inv (bfsStep g goal) (BfsInv g start) _
      (fun s hs => bfsStep_pres hin s hs) _ _ r ?_ h
    refine ⟨?_, by simp, le_refl _, rfl, ?_⟩
    · intro n hn
      simp only [List.mem_singleton] at hn
      subst hn
      rfl
    · intro sp hsp
      simp at hsp

/-! ### Result contract of depth_first_search and depth_limited_search -/

theorem dfsStep_pres {g : Graph} {start goal : String}
    (hin : ∀ kv ∈ g, (kv.2.map Prod.fst).Nodup) (st : DfsSt)
    (hInv : DfsInv g start st) :
    (∀ st', dfsStep g goal st = .next st' → DfsInv g start st') ∧
    (∀ r, dfsStep g goal st = .done r → UniP "dfs" g start goal stepLastQ r) := by
  obtain ⟨hval, hcnt, hmf, hlen, hsteps⟩ := hInv
  cases hf : st.frontier.getLast? with
  | none =>
    have hfe : st.frontier = [] := List.getLast?_eq_none_iff.mp hf
    constructor
    · intro st' h
      simp [dfsStep, hf] at h
    · intro r h
      simp only [dfsStep, hf] at h
      cases h
      exact ⟨rfl, fun h => absurd rfl h, by rw [hfe] at hcnt; simpa using hcnt,
        hmf, hlen, hsteps⟩
  | some node =>
    have hsplit : st.frontier.dropLast ++ [node] = st.frontier :=
      List.dropLast_append_getLast? node hf
    have hnode_mem : node ∈ st.frontier := by
      rw [← hsplit]; exact List.mem_append.mpr (Or.inr (List.mem_singleton.mpr rfl))
    have hnv : node.valid g start := hval node hnode_mem
    have hflen : st.frontier.length = st.frontier.dropLast.length + 1 := by
      rw [← hsplit]; simp
    have hsnap : stepLastQ ⟨st.frontier.map Node.state, st.explored, some node.state, none⟩ := by
      refine ⟨?_, by simp⟩
      show some node.state = (st.frontier.map Node.state).getLast?
      rw [← hsplit]
      simp
    have hsteps' : ∀ sp ∈ st.steps ++
        [⟨st.frontier.map Node.state, st.explored, some node.state, none⟩], stepLastQ sp := by
      intro sp hsp
      rcases List.mem_append.mp hsp with h | h
      · exact hsteps sp h
      · simpa using (List.mem_singleton.mp h) ▸ hsnap
    by_cases hg : node.state = goal
    · subst hg
      constructor
      · intro st' h
        simp [dfsStep, hf] at h
      · intro r h
        simp only [dfsStep, hf, beq_self_eq_true, if_true] at h
        cases h
        refine ⟨rfl, fun _ => ⟨node.path_head hnv, node.path_last, node.path_weight hnv⟩,
          ?_, le_trans hmf (le_max_left _ _), ?_, hsteps'⟩
        · show st.ne + 1 ≤ st.ng
          omega
        · show (st.steps ++ [_]).length = st.ne + 1
          simp only [List.length_append, List.length_singleton, hlen]
    · cases hx : node.expand g with
      | none =>
        constructor
        · intro st' h
          simp [dfsStep, hf, hg, hx] at h
        · intro r h
          simp [dfsStep, hf, hg, hx] at h
      | some children =>
        have hcv : ∀ c ∈ children.reverse, c.valid g start := by
          intro c hc
          exact Node.expand_valid hin hnv hx c (List.mem_reverse.mp hc)
        constructor
        · intro st' h
          simp only [dfsStep, hf, beq_iff_eq, if_neg hg, hx] at h
          cases h
          have hfold : (∀ n ∈ (children.reverse.foldl (dfsInsert (st.explored ++ [node.state]))
              (st.frontier.dropLast, st.fstates.erase node.state, st.ng)).1, n.valid g start) ∧
              (st.ne + 1) + (children.reverse.foldl (dfsInsert (st.explored ++ [node.state]))
              (st.frontier.dropLast, st.fstates.erase node.state, st.ng)).1.length ≤
              (children.reverse.foldl (dfsInsert (st.explored ++ [node.state]))
              (st.frontier.dropLast, st.fstates.erase node.state, st.ng)).2.2 := by
            refine foldl_inv _ (fun acc : List Node × List String × Nat =>
              (∀ n ∈ acc.1, n.valid g start) ∧
              (st.ne + 1) + acc.1.length ≤ acc.2.2) children.reverse _ ⟨?_, ?_⟩ ?_
            · intro n hn
              exact hval n (List.mem_of_mem_dropLast hn)
            · show st.ne + 1 + st.frontier.dropLast.length ≤ st.ng
              omega
            · rintro ⟨fr, fs, ng⟩ c hc ⟨h1, h2⟩
              simp only at h1 h2
              simp only [dfsInsert]
              by_cases hb : (!(st.explored ++ [node.state]).contains c.state &&
                  !fs.contains c.state) = true
              · simp only [hb, if_true]
                refine ⟨?_, ?_⟩
                · intro n hn
                  rcases List.mem_append.mp hn with h | h
                  · exact h1 n h
                  · exact (List.mem_singleton.mp h) ▸ hcv c hc
                · simp only [List.length_append, List.length_singleton]
                  omega
              · rw [if_neg hb]
                exact ⟨h1, by show st.ne + 1 + fr.length ≤ ng + 1; omega⟩
          refine ⟨hfold.1, hfold.2, le_trans hmf (le_max_left _ _), ?_, hsteps'⟩
          show (st.steps ++ [_]).length = st.ne + 1
          simp only [List.length_append, List.length_singleton, hlen]
        · intro r h
          simp [dfsStep, hf, hg, hx] at h

theorem dfs_props {g : Graph} {start goal : String} {r : SearchResult}
    (hin : ∀ kv ∈ g, (kv.2.map Prod.fst).Nodup)
    (h : depth_first_search g start goal = some r) :
    UniP "dfs" g start goal stepLastQ r := by
  by_cases hsg : start = goal
  · rw [depth_first_search, if_pos (by simpa using hsg)] at h
    cases h
    refine ⟨rfl, fun _ => ⟨rfl, by simpa using hsg, rfl⟩, Nat.zero_le _, le_refl _, rfl, ?_⟩
    intro sp hsp
    simp at hsp
  · rw [depth_first_search, if_neg (by simpa using hsg)] at h
    refine loopRun_inv (dfsStep g goal) (DfsInv g start) _
      (fun s hs => dfsStep_pres hin s hs) _ _ r ?_ h
    refine ⟨?_, by simp, le_refl _, rfl, ?_⟩
    · intro n hn
      simp only [List.mem_singleton] at hn
      subst hn
      rfl
    · intro sp hsp
      simp at hsp

theorem dlsStep_pres {g : Graph} {start goal : String} {depth_limit : Nat}
    (hin : ∀ kv ∈ g, (kv.2.map Prod.fst).Nodup) (st : DfsSt)
    (hInv : DfsInv g start st) :
    (∀ st', dlsStep g goal depth_limit st = .next st' → DfsInv g start st') ∧
    (∀ r, dlsStep g goal depth_limit st = .done r →
      UniP "dls" g start goal stepLastQ r) := by
  obtain ⟨hval, hcnt, hmf, hlen, hsteps⟩ := hInv
  cases hf : st.frontier.getLast? with
  | none =>
    have hfe : st.frontier = [] := List.getLast?_eq_none_iff.mp hf
    constructor
    · intro st' h
      simp [dlsStep, hf] at h
    · intro r h
      simp only [dlsStep, hf] at h
      cases h
      exact ⟨rfl, fun h => absurd rfl h, by rw [hfe] at hcnt; simpa using hcnt,
        hmf, hlen, hsteps⟩
  | some node =>
    have hsplit : st.frontier.dropLast ++ [node] = st.frontier :=
      List.dropLast_append_getLast? node hf
    have hnode_mem : node ∈ st.frontier := by
      rw [← hsplit]; exact List.mem_append.mpr (Or.inr (List.mem_singleton.mpr rfl))
    have hnv : node.valid g start := hval node hnode_mem
    have hflen : st.frontier.length = st.frontier.dropLast.length + 1 := by
      rw [← hsplit]; simp
    have hsnap : stepLastQ ⟨st.frontier.map Node.state, st.explored, some node.state, none⟩ := by
      refine ⟨?_, by simp⟩
      show some node.state = (st.frontier.map Node.state).getLast?
      rw [← hsplit]
      simp
    have hsteps' : ∀ sp ∈ st.steps ++
        [⟨st.frontier.map Node.state, st.explored, some node.state, none⟩], stepLastQ sp := by
      intro sp hsp
      rcases List.mem_append.mp hsp with h | h
      · exact hsteps sp h
      · simpa using (List.mem_singleton.mp h) ▸ hsnap
    by_cases hg : node.state = goal
    · subst hg
      constructor
      · intro st' h
        simp [dlsStep, hf] at h
      · intro r h
        simp only [dlsStep, hf, beq_self_eq_true, if_true] at h
        cases h
        refine ⟨rfl, fun _ => ⟨node.path_head hnv, node.path_last, node.path_weight hnv⟩,
          ?_, le_trans hmf (le_max_left _ _), ?_, hsteps'⟩
        · show st.ne + 1 ≤ st.ng
          omega
        · show (st.steps ++ [_]).length = st.ne + 1
          simp only [List.length_append, List.length_singleton, hlen]
    · by_cases hd : node.depth < depth_limit
      · cases hx : node.expand g with
        | none =>
          constructor
          · intro st' h
            simp [dlsStep, hf, hg, hd, hx] at h
          · intro r h
            simp [dlsStep, hf, hg, hd, hx] at h
        | some children =>
          have hcv : ∀ c ∈ children.reverse, c.valid g start := by
            intro c hc
            exact Node.expand_valid hin hnv hx c (List.mem_reverse.mp hc)
          constructor
          · intro st' h
            simp only [dlsStep, hf, beq_iff_eq, if_neg hg, if_pos hd, hx] at h
            cases h
            have hfold : (∀ n ∈ (children.reverse.foldl (dfsInsert (st.explored ++ [node.state]))
                (st.frontier.dropLast, st.fstates.erase node.state, st.ng)).1, n.valid g start) ∧
                (st.ne + 1) + (children.reverse.foldl (dfsInsert (st.explored ++ [node.state]))
                (st.frontier.dropLast, st.fstates.erase node.state, st.ng)).1.length ≤
                (children.reverse.foldl (dfsInsert (st.explored ++ [node.state]))
                (st.frontier.dropLast, st.fstates.erase node.state, st.ng)).2.2 := by
              refine foldl_inv _ (fun acc : List Node × List String × Nat =>
                (∀ n ∈ acc.1, n.valid g start) ∧
                (st.ne + 1) + acc.1.length ≤ acc.2.2) children.reverse _ ⟨?_, ?_⟩ ?_
              · intro n hn
                exact hval n (List.mem_of_mem_dropLast hn)
              · show st.ne + 1 + st.frontier.dropLast.length ≤ st.ng
                omega
              · rintro ⟨fr, fs, ng⟩ c hc ⟨h1, h2⟩
                simp only at h1 h2
                simp only [dfsInsert]
                by_cases hb : (!(st.explored ++ [node.state]).contains c.state &&
                    !fs.contains c.state) = true
                · simp only [hb, if_true]
                  refine ⟨?_, ?_⟩
                  · intro n hn
                    rcases List.mem_append.mp hn with h | h
                    · exact h1 n h
                    · exact (List.mem_singleton.mp h) ▸ hcv c hc
                  · simp only [List.length_append, List.length_singleton]
                    omega
                · rw [if_neg hb]
                  exact ⟨h1, by show st.ne + 1 + fr.length ≤ ng + 1; omega⟩
            refine ⟨hfold.1, hfold.2, le_trans hmf (le_max_left _ _), ?_, hsteps'⟩
            show (st.steps ++ [_]).length = st.ne + 1
            simp only [List.length_append, List.length_singleton, hlen]
          · intro r h
            simp [dlsStep, hf, hg, hd, hx] at h
      · constructor
        · intro st' h
          simp only [dlsStep, hf, beq_iff_eq, if_neg hg, if_neg hd] at h
          cases h
          refine ⟨?_, ?_, le_trans hmf (le_max_left _ _), ?_, hsteps'⟩
          · intro n hn
            exact hval n (List.mem_of_mem_dropLast hn)
          · show st.ne + 1 + st.frontier.dropLast.length ≤ st.ng
            omega
          · show (st.steps ++ [_]).length = st.ne + 1
            simp only [List.length_append, List.length_singleton, hlen]
        · intro r h
          simp [dlsStep, hf, hg, hd] at h

theorem dls_props {g : Graph} {start goal : String} {depth_limit : Nat} {r : SearchResult}
    (hin : ∀ kv ∈ g, (kv.2.map Prod.fst).Nodup)
    (h : depth_limited_search g start goal depth_limit = some r) :
    UniP "dls" g start goal stepLastQ r := by
  by_cases hsg : start = goal
  · rw [depth_limited_search, if_pos (by simpa using hsg)] at h
    cases h
    refine ⟨rfl, fun _ => ⟨rfl, by simpa using hsg, rfl⟩, Nat.zero_le _, le_refl _, rfl, ?_⟩
    intro sp hsp
    simp at hsp
  · rw [depth_limited_search, if_neg (by simpa using hsg)] at h
    refine loopRun_inv (dlsStep g goal depth_limit) (DfsInv g start) _
      (fun s hs => dlsStep_pres hin s hs) _ _ r ?_ h
    refine ⟨?_, by simp, le_refl _, rfl, ?_⟩
    · intro n hn
      simp only [List.mem_singleton] at hn
      subst hn
      rfl
    · intro sp hsp
      simp at hsp

/-! ### Result contract of uniform_cost_search, greedy_search, a_star_search -/

theorem ucsStep_pres {g : Graph} {start goal : String}
    (hin : ∀ kv ∈ g, (kv.2.map Prod.fst).Nodup) (st : UcsSt)
    (hInv : UcsInv g start st) :
    (∀ st', ucsStep g goal st = .next st' → UcsInv g start st') ∧
    (∀ r, ucsStep g goal st = .done r → UniP "ucs" g start goal stepMemQ r) := by
  obtain ⟨hval, hcnt, hmf, hlen, hsteps⟩ := hInv
  cases hf : st.frontier with
  | nil =>
    constructor
    · intro st' h
      simp [ucsStep, hf] at h
    · intro r h
      simp only [ucsStep, hf] at h
      cases h
      exact ⟨rfl, fun h => absurd rfl h, by rw [hf] at hcnt; simpa using hcnt,
        hmf, hlen, hsteps⟩
  | cons x xs =>
    have hpmem : (popMin1 pairLt x xs).1 ∈ st.frontier := by
      rw [hf]; exact popMin1_mem pairLt x xs
    have hnv : (popMin1 pairLt x xs).1.2.valid g start := hval _ hpmem
    have hsnap : stepMemQ ⟨(x :: xs).map (fun e => e.2.state), st.explored,
        some (popMin1 pairLt x xs).1.2.state, none⟩ := by
      refine ⟨(popMin1 pairLt x xs).1.2.state, rfl, ?_⟩
      rw [← hf]
      exact List.mem_map.mpr ⟨(popMin1 pairLt x xs).1, hpmem, rfl⟩
    have hsteps' : ∀ sp ∈ st.steps ++
        [⟨(x :: xs).map (fun e => e.2.state), st.explored,
          some (popMin1 pairLt x xs).1.2.state, none⟩], stepMemQ sp := by
      intro sp hsp
      rcases List.mem_append.mp hsp with h | h
      · exact hsteps sp h
      · simpa using (List.mem_singleton.mp h) ▸ hsnap
    have hrest : ∀ e ∈ (popMin1 pairLt x xs).2, e.2.valid g start := by
      intro e he
      exact hval e (by rw [hf]; exact popMin1_mem_of_mem_rest pairLt x xs e he)
    have hrlen : (popMin1 pairLt x xs).2.length = xs.length := popMin1_length pairLt x xs
    by_cases hg : (popMin1 pairLt x xs).1.2.state = goal
    · constructor
      · intro st' h
        simp [ucsStep, hf, hg] at h
      · intro r h
        simp only [ucsStep, hf, hg, beq_self_eq_true, if_true] at h
        cases h
        refine ⟨rfl, fun _ => ⟨Node.path_head hnv, hg ▸ Node.path_last _,
          Node.path_weight hnv⟩, ?_, le_trans hmf (le_max_left _ _), ?_, ?_⟩
        · show st.ne + 1 ≤ st.ng
          rw [hf] at hcnt
          simp only [List.length_cons] at hcnt
          omega
        · show (st.steps ++ [_]).length = st.ne + 1
          simp only [List.length_append, List.length_singleton, hlen]
        · simpa [hg] using hsteps'
    · cases hx : (popMin1 pairLt x xs).1.2.expand g with
      | none =>
        constructor
        · intro st' h
          simp [ucsStep, hf, hg, hx] at h
        · intro r h
          simp [ucsStep, hf, hg, hx] at h
      | some children =>
        have hcv : ∀ c ∈ children, c.valid g start := Node.expand_valid hin hnv hx
        constructor
        · intro st' h
          simp only [ucsStep, hf, beq_iff_eq, if_neg hg, hx] at h
          cases h
          have hfold : (∀ e ∈ (children.foldl
              (ucsInsert (st.explored ++ [(popMin1 pairLt x xs).1.2.state]))
              ((popMin1 pairLt x xs).2, st.fstates.erase (popMin1 pairLt x xs).1.2.state,
                st.ng)).1, e.2.valid g start) ∧
              (st.ne + 1) + (children.foldl
              (ucsInsert (st.explored ++ [(popMin1 pairLt x xs).1.2.state]))
              ((popMin1 pairLt x xs).2, st.fstates.erase (popMin1 pairLt x xs).1.2.state,
                st.ng)).1.length ≤ (children.foldl
              (ucsInsert (st.explored ++ [(popMin1 pairLt x xs).1.2.state]))
              ((popMin1 pairLt x xs).2, st.fstates.erase (popMin1 pairLt x xs).1.2.state,
                st.ng)).2.2 := by
            refine foldl_inv _ (fun acc : List (Nat × Node) × List String × Nat =>
              (∀ e ∈ acc.1, e.2.valid g start) ∧
              (st.ne + 1) + acc.1.length ≤ acc.2.2) children _ ⟨hrest, ?_⟩ ?_
            · show st.ne + 1 + (popMin1 pairLt x xs).2.length ≤ st.ng
              rw [hf] at hcnt
              simp only [List.length_cons] at hcnt
              omega
            · rintro ⟨fr, fs, ng⟩ c hc ⟨h1, h2⟩
              simp only at h1 h2
              simp only [ucsInsert]
              by_cases hb : (!(st.explored ++
                  [(popMin1 pairLt x xs).1.2.state]).contains c.state &&
                  !fs.contains c.state) = true
              · simp only [hb, if_true]
                refine ⟨?_, ?_⟩
                · intro e he
                  rcases List.mem_append.mp he with h | h
                  · exact h1 e h
                  · rw [List.mem_singleton.mp h]
                    exact hcv c hc
                · simp only [List.length_append, List.length_singleton]
                  omega
              · rw [if_neg hb]
                by_cases hb2 : fs.contains c.state = true
                · rw [if_pos hb2]
                  refine ⟨?_, ?_⟩
                  · intro e he
                    rcases ucsRelax_mem c fr e he with h | h
                    · exact h1 e h
                    · rw [h]
                      exact hcv c hc
                  · show st.ne + 1 + (ucsRelax c fr).length ≤ ng + 1
                    rw [ucsRelax_length]
                    omega
                · rw [if_neg hb2]
                  exact ⟨h1, by show st.ne + 1 + fr.length ≤ ng + 1; omega⟩
          refine ⟨hfold.1, hfold.2, le_trans hmf (le_max_left _ _), ?_, hsteps'⟩
          show (st.steps ++ [_]).length = st.ne + 1
          simp only [List.length_append, List.length_singleton, hlen]
        · intro r h
          simp [ucsStep, hf, hg, hx] at h

theorem ucs_props {g : Graph} {start goal : String} {r : SearchResult}
    (hin : ∀ kv ∈ g, (kv.2.map Prod.fst).Nodup)
    (h : uniform_cost_search g start goal = some r) :
    UniP "ucs" g start goal stepMemQ r := by
  by_cases hsg : start = goal
  · rw [uniform_cost_search, if_pos (by simpa using hsg)] at h
    cases h
    refine ⟨rfl, fun _ => ⟨rfl, by simpa using hsg, rfl⟩, Nat.zero_le _, le_refl _, rfl, ?_⟩
    intro sp hsp
    simp at hsp
  · rw [uniform_cost_search, if_neg (by simpa using hsg)] at h
    refine loopRun_inv (ucsStep g goal) (UcsInv g start) _
      (fun s hs => ucsStep_pres hin s hs) _ _ r ?_ h
    refine ⟨?_, by simp, le_refl _, rfl, ?_⟩
    · intro e he
      simp only [List.mem_singleton] at he
      subst he
      rfl
    · intro sp hsp
      simp at hsp

theorem greedyStep_pres {g : Graph} {start goal : String} {hdata : List (String × Nat)}
    (hin : ∀ kv ∈ g, (kv.2.map Prod.fst).Nodup) (st : UcsSt)
    (hInv : UcsInv g start st) :
    (∀ st', greedyStep g goal hdata st = .next st' → UcsInv g start st') ∧
    (∀ r, greedyStep g goal hdata st = .done r →
      UniP "greedy" g start goal stepMemQ r) := by
  obtain ⟨hval, hcnt, hmf, hlen, hsteps⟩ := hInv
  cases hf : st.frontier with
  | nil =>
    constructor
    · intro st' h
      simp [greedyStep, hf] at h
    · intro r h
      simp only [greedyStep, hf] at h
      cases h
      exact ⟨rfl, fun h => absurd rfl h, by rw [hf] at hcnt; simpa using hcnt,
        hmf, hlen, hsteps⟩
  | cons x xs =>
    have hpmem : (popMin1 pairLt x xs).1 ∈ st.frontier := by
      rw [hf]; exact popMin1_mem pairLt x xs
    have hnv : (popMin1 pairLt x xs).1.2.valid g start := hval _ hpmem
    have hsnap : stepMemQ ⟨(x :: xs).map (fun e => e.2.state), st.explored,
        some (popMin1 pairLt x xs).1.2.state, none⟩ := by
      refine ⟨(popMin1 pairLt x xs).1.2.state, rfl, ?_⟩
      rw [← hf]
      exact List.mem_map.mpr ⟨(popMin1 pairLt x xs).1, hpmem, rfl⟩
    have hsteps' : ∀ sp ∈ st.steps ++
        [⟨(x :: xs).map (fun e => e.2.state), st.explored,
          some (popMin1 pairLt x xs).1.2.state, none⟩], stepMemQ sp := by
      intro sp hsp
      rcases List.mem_append.mp hsp with h | h
      · exact hsteps sp h
      · simpa using (List.mem_singleton.mp h) ▸ hsnap
    have hrest : ∀ e ∈ (popMin1 pairLt x xs).2, e.2.valid g start := by
      intro e he
      exact hval e (by rw [hf]; exact popMin1_mem_of_mem_rest pairLt x xs e he)
    have hrlen : (popMin1 pairLt x xs).2.length = xs.length := popMin1_length pairLt x xs
    by_cases hg : (popMin1 pairLt x xs).1.2.state = goal
    · constructor
      · intro st' h
        simp [greedyStep, hf, hg] at h
      · intro r h
        simp only [greedyStep, hf, hg, beq_self_eq_true, if_true] at h
        cases h
        refine ⟨rfl, fun _ => ⟨Node.path_head hnv, hg ▸ Node.path_last _,
          Node.path_weight hnv⟩, ?_, le_trans hmf (le_max_left _ _), ?_, ?_⟩
        · show st.ne + 1 ≤ st.ng
          rw [hf] at hcnt
          simp only [List.length_cons] at hcnt
          omega
        · show (st.steps ++ [_]).length = st.ne + 1
          simp only [List.length_append, List.length_singleton, hlen]
        · simpa [hg] using hsteps'
    · cases hx : (popMin1 pairLt x xs).1.2.expand g with
      | none =>
        constructor
        · intro st' h
          simp [greedyStep, hf, hg, hx] at h
        · intro r h
          simp [greedyStep, hf, hg, hx] at h
      | some children =>
        have hcv : ∀ c ∈ children, c.valid g start := Node.expand_valid hin hnv hx
        constructor
        · intro st' h
          simp only [greedyStep, hf, beq_iff_eq, if_neg hg, hx] at h
          cases h
          have hfold : (∀ e ∈ (children.foldl
              (greedyInsert goal hdata (st.explored ++ [(popMin1 pairLt x xs).1.2.state]))
              ((popMin1 pairLt x xs).2, st.fstates.erase (popMin1 pairLt x xs).1.2.state,
                st.ng)).1, e.2.valid g start) ∧
              (st.ne + 1) + (children.foldl
              (greedyInsert goal hdata (st.explored ++ [(popMin1 pairLt x xs).1.2.state]))
              ((popMin1 pairLt x xs).2, st.fstates.erase (popMin1 pairLt x xs).1.2.state,
                st.ng)).1.length ≤ (children.foldl
              (greedyInsert goal hdata (st.explored ++ [(popMin1 pairLt x xs).1.2.state]))
              ((popMin1 pairLt x xs).2, st.fstates.erase (popMin1 pairLt x xs).1.2.state,
                st.ng)).2.2 := by
            refine foldl_inv _ (fun acc : List (Nat × Node) × List String × Nat =>
              (∀ e ∈ acc.1, e.2.valid g start) ∧
              (st.ne + 1) + acc.1.length ≤ acc.2.2) children _ ⟨hrest, ?_⟩ ?_
            · show st.ne + 1 + (popMin1 pairLt x xs).2.length ≤ st.ng
              rw [hf] at hcnt
              simp only [List.length_cons] at hcnt
              omega
            · rintro ⟨fr, fs, ng⟩ c hc ⟨h1, h2⟩
              simp only at h1 h2
              simp only [greedyInsert]
              by_cases hb : (!(st.explored ++
                  [(popMin1 pairLt x xs).1.2.state]).contains c.state &&
                  !fs.contains c.state) = true
              · simp only [hb, if_true]
                refine ⟨?_, ?_⟩
                · intro e he
                  rcases List.mem_append.mp he with h | h
                  · exact h1 e h
                  · rw [List.mem_singleton.mp h]
                    exact hcv c hc
                · simp only [List.length_append, List.length_singleton]
                  omega
              · rw [if_neg hb]
                exact ⟨h1, by show st.ne + 1 + fr.length ≤ ng + 1; omega⟩
          refine ⟨hfold.1, hfold.2, le_trans hmf (le_max_left _ _), ?_, hsteps'⟩
          show (st.steps ++ [_]).length = st.ne + 1
          simp only [List.length_append, List.length_singleton, hlen]
        · intro r h
          simp [greedyStep, hf, hg, hx] at h

theorem greedy_props {g : Graph} {start goal : String} {hdata : List (String × Nat)}
    {r : SearchResult} (hin : ∀ kv ∈ g, (kv.2.map Prod.fst).Nodup)
    (h : greedy_search g start goal hdata = some r) :
    UniP "greedy" g start goal stepMemQ r := by
  by_cases hsg : start = goal
  · rw [greedy_search, if_pos (by simpa using hsg)] at h
    cases h
    refine ⟨rfl, fun _ => ⟨rfl, by simpa using hsg, rfl⟩, Nat.zero_le _, le_refl _, rfl, ?_⟩
    intro sp hsp
    simp at hsp
  · rw [greedy_search, if_neg (by simpa using hsg)] at h
    refine loopRun_inv (greedyStep g goal hdata) (UcsInv g start) _
      (fun s hs => greedyStep_pres hin s hs) _ _ r ?_ h
    refine ⟨?_, by simp, le_refl _, rfl, ?_⟩
    · intro e he
      simp only [List.mem_singleton] at he
      subst he
      rfl
    · intro sp hsp
      simp at hsp

theorem astarStep_pres {g : Graph} {start goal : String} {hdata : List (String × Nat)}
    (hin : ∀ kv ∈ g, (kv.2.map Prod.fst).Nodup) (st : AstarSt)
    (hInv : AstarInv g start st) :
    (∀ st', astarStep g goal hdata st = .next st' → AstarInv g start st') ∧
    (∀ r, astarStep g goal hdata st = .done r →
      UniP "astar" g start goal stepMemQ r) := by
  obtain ⟨hval, hcnt, hmf, hlen, hsteps⟩ := hInv
  cases hf : st.frontier with
  | nil =>
    constructor
    · intro st' h
      simp [astarStep, hf] at h
    · intro r h
      simp only [astarStep, hf] at h
      cases h
      exact ⟨rfl, fun h => absurd rfl h, by rw [hf] at hcnt; simpa using hcnt,
        hmf, hlen, hsteps⟩
  | cons x xs =>
    have hpmem : (popMin1 tripLt x xs).1 ∈ st.frontier := by
      rw [hf]; exact popMin1_mem tripLt x xs
    have hnv : (popMin1 tripLt x xs).1.2.2.valid g start := hval _ hpmem
    have hsnap : stepMemQ ⟨(x :: xs).map (fun e => e.2.2.state), st.explored,
        some (popMin1 tripLt x xs).1.2.2.state, none⟩ := by
      refine ⟨(popMin1 tripLt x xs).1.2.2.state, rfl, ?_⟩
      rw [← hf]
      exact List.mem_map.mpr ⟨(popMin1 tripLt x xs).1, hpmem, rfl⟩
    have hsteps' : ∀ sp ∈ st.steps ++
        [⟨(x :: xs).map (fun e => e.2.2.state), st.explored,
          some (popMin1 tripLt x xs).1.2.2.state, none⟩], stepMemQ sp := by
      intro sp hsp
      rcases List.mem_append.mp hsp with h | h
      · exact hsteps sp h
      · simpa using (List.mem_singleton.mp h) ▸ hsnap
    have hrest : ∀ e ∈ (popMin1 tripLt x xs).2, e.2.2.valid g start := by
      intro e he
      exact hval e (by rw [hf]; exact popMin1_mem_of_mem_rest tripLt x xs e he)
    have hrlen : (popMin1 tripLt x xs).2.length = xs.length := popMin1_length tripLt x xs
    by_cases hg : (popMin1 tripLt x xs).1.2.2.state = goal
    · constructor
      · intro st' h
        simp [astarStep, hf, hg] at h
      · intro r h
        simp only [astarStep, hf, hg, beq_self_eq_true, if_true] at h
        cases h
        refine ⟨rfl, fun _ => ⟨Node.path_head hnv, hg ▸ Node.path_last _,
          Node.path_weight hnv⟩, ?_, le_trans hmf (le_max_left _ _), ?_, ?_⟩
        · show st.ne + 1 ≤ st.ng
          rw [hf] at hcnt
          simp only [List.length_cons] at hcnt
          omega
        · show (st.steps ++ [_]).length = st.ne + 1
          simp only [List.length_append, List.length_singleton, hlen]
        · simpa [hg] using hsteps'
    · cases hx : (popMin1 tripLt x xs).1.2.2.expand g with
      | none =>
        constructor
        · intro st' h
          simp [astarStep, hf, hg, hx] at h
        · intro r h
          simp [astarStep, hf, hg, hx] at h
      | some children =>
        have hcv : ∀ c ∈ children, c.valid g start := Node.expand_valid hin hnv hx
        constructor
        · intro st' h
          simp only [astarStep, hf, beq_iff_eq, if_neg hg, hx] at h
          cases h
          have hfold : (∀ e ∈ (children.foldl
              (astarInsert goal hdata (st.explored ++ [(popMin1 tripLt x xs).1.2.2.state]))
              ((popMin1 tripLt x xs).2, adel st.fstates (popMin1 tripLt x xs).1.2.2.state,
                st.ng, st.ctr)).1, e.2.2.valid g start) ∧
              (st.ne + 1) + (children.foldl
              (astarInsert goal hdata (st.explored ++ [(popMin1 tripLt x xs).1.2.2.state]))
              ((popMin1 tripLt x xs).2, adel st.fstates (popMin1 tripLt x xs).1.2.2.state,
                st.ng, st.ctr)).1.length ≤ (children.foldl
              (astarInsert goal hdata (st.explored ++ [(popMin1 tripLt x xs).1.2.2.state]))
              ((popMin1 tripLt x xs).2, adel st.fstates (popMin1 tripLt x xs).1.2.2.state,
                st.ng, st.ctr)).2.2.1 := by
            refine foldl_inv _
              (fun acc : List (Nat × Nat × Node) × List (String × Nat) × Nat × Nat =>
              (∀ e ∈ acc.1, e.2.2.valid g start) ∧
              (st.ne + 1) + acc.1.length ≤ acc.2.2.1) children _ ⟨hrest, ?_⟩ ?_
            · show st.ne + 1 + (popMin1 tripLt x xs).2.length ≤ st.ng
              rw [hf] at hcnt
              simp only [List.length_cons] at hcnt
              omega
            · rintro ⟨fr, fs, ng, ctr⟩ c hc ⟨h1, h2⟩
              simp only at h1 h2
              simp only [astarInsert]
              split
              · split
                · refine ⟨?_, ?_⟩
                  · intro e he
                    rcases List.mem_append.mp he with h | h
                    · exact h1 e h
                    · rw [List.mem_singleton.mp h]
                      exact hcv c hc
                  · simp only [List.length_append, List.length_singleton]
                    omega
                · split
                  · refine ⟨?_, ?_⟩
                    · intro e he
                      rcases astarReplace_mem _ _ c fr e he with h | h
                      · exact h1 e h
                      · rw [h]
                        exact hcv c hc
                    · show st.ne + 1 +
                        (astarReplace (c.path_cost + get_heuristic c.state goal hdata)
                          ctr c fr).length ≤ ng + 1
                      rw [astarReplace_length]
                      omega
                  · exact ⟨h1, by show st.ne + 1 + fr.length ≤ ng + 1; omega⟩
              · exact ⟨h1, by show st.ne + 1 + fr.length ≤ ng + 1; omega⟩
          refine ⟨hfold.1, hfold.2, le_trans hmf (le_max_left _ _), ?_, hsteps'⟩
          show (st.steps ++ [_]).length = st.ne + 1
          simp only [List.length_append, List.length_singleton, hlen]
        · intro r h
          simp [astarStep, hf, hg, hx] at h

theorem astar_props {g : Graph} {start goal : String} {hdata : List (String × Nat)}
    {r : SearchResult} (hin : ∀ kv ∈ g, (kv.2.map Prod.fst).Nodup)
    (h : a_star_search g start goal hdata = some r) :
    UniP "astar" g start goal stepMemQ r := by
  by_cases hsg : start = goal
  · rw [a_star_search, if_pos (by simpa using hsg)] at h
    cases h
    refine ⟨rfl, fun _ => ⟨rfl, by simpa using hsg, rfl⟩, Nat.zero_le _, le_refl _, rfl, ?_⟩
    intro sp hsp
    simp at hsp
  · rw [a_star_search, if_neg (by simpa using hsg)] at h
    refine loopRun_inv (astarStep g goal hdata) (AstarInv g start) _
      (fun s hs => astarStep_pres hin s hs) _ _ r ?_ h
    refine ⟨?_, by simp, le_refl _, rfl, ?_⟩
    · intro e he
      simp only [List.mem_singleton] at he
      subst he
      rfl
    · intro sp hsp
      simp at hsp

/-! ### Result contract of iterative_deepening_search -/

theorem ids_props {g : Graph} {start goal : String} {max_depth : Nat} {r : SearchResult}
    (hin : ∀ kv ∈ g, (kv.2.map Prod.fst).Nodup)
    (h : iterative_deepening_search g start goal max_depth = some r) :
    r.algorithm = "ids" ∧
    (r.path ≠ [] → r.path.head? = some start ∧ r.path.getLast? = some goal ∧
      pathWeight g r.path = some r.distance) ∧
    r.nodes_expanded ≤ r.nodes_generated ∧
    (1 ≤ max_depth → 1 ≤ r.max_frontier_size) := by
  by_cases hsg : start = goal
  · rw [iterative_deepening_search, if_pos (by simpa using hsg)] at h
    cases h
    exact ⟨rfl, fun _ => ⟨rfl, by simpa using hsg, rfl⟩, le_refl _, fun _ => le_refl _⟩
  · rw [iterative_deepening_search, if_neg (by simpa using hsg)] at h
    refine loopRun_inv (idsStep g start goal)
      (fun st => st.tne ≤ st.tng ∧ (st.depths = [] → 1 ≤ max_depth → 1 ≤ st.tmf))
      (fun r' => r'.algorithm = "ids" ∧
        (r'.path ≠ [] → r'.path.head? = some start ∧ r'.path.getLast? = some goal ∧
          pathWeight g r'.path = some r'.distance) ∧
        r'.nodes_expanded ≤ r'.nodes_generated ∧
        (1 ≤ max_depth → 1 ≤ r'.max_frontier_size))
      (fun st hst => ?_) _ _ r ⟨Nat.le_refl _, fun he => ?_⟩ h
    · obtain ⟨h1, h2⟩ := hst
      constructor
      · intro st' hstep
        cases hd : st.depths with
        | nil => simp [idsStep, hd] at hstep
        | cons depth rest =>
          cases hdl : depth_limited_search g start goal depth with
          | none => simp [idsStep, hd, hdl] at hstep
          | some dlsr =>
            have hprops := dls_props hin hdl
            obtain ⟨_, _, hne, hmf1, _, _⟩ := hprops
            by_cases hemp : dlsr.path.isEmpty = true
            · simp only [idsStep, hd, hdl, hemp, if_true] at hstep
              cases hstep
              refine ⟨?_, fun _ _ => ?_⟩
              · show st.tne + dlsr.nodes_expanded ≤ st.tng + dlsr.nodes_generated
                omega
              · show 1 ≤ max st.tmf dlsr.max_frontier_size
                exact le_trans hmf1 (le_max_right _ _)
            · simp [idsStep, hd, hdl, hemp] at hstep
      · intro r' hstep
        cases hd : st.depths with
        | nil =>
          simp only [idsStep, hd] at hstep
          cases hstep
          exact ⟨rfl, fun hp => absurd rfl hp, h1, h2 hd⟩
        | cons depth rest =>
          cases hdl : depth_limited_search g start goal depth with
          | none => simp [idsStep, hd, hdl] at hstep
          | some dlsr =>
            have hprops := dls_props hin hdl
            obtain ⟨_, hpath, hne, hmf1, _, _⟩ := hprops
            by_cases hemp : dlsr.path.isEmpty = true
            · simp [idsStep, hd, hdl, hemp] at hstep
            · simp only [idsStep, hd, hdl, hemp, Bool.false_eq_true, if_false] at hstep
              cases hstep
              refine ⟨rfl, fun _ => hpath ?_, ?_, fun _ => ?_⟩
              · intro hpe
                rw [hpe] at hemp
                simp at hemp
              · show st.tne + dlsr.nodes_expanded ≤ st.tng + dlsr.nodes_generated
                omega
              · show 1 ≤ max st.tmf dlsr.max_frontier_size
                exact le_trans hmf1 (le_max_right _ _)
    · intro hmd
      rw [List.range_eq_nil] at he
      omega

/-! ### Result contract of bidirectional_search -/

theorem BiNodeOk_mono {g : Graph} {start : String} {keys keys' : List String} {n : Node}
    (hsub : ∀ x ∈ keys, x ∈ keys') (h : BiNodeOk g start keys n) :
    BiNodeOk g start keys' n :=
  ⟨h.1, h.2.1, fun x hx => hsub x (h.2.2 x hx)⟩

theorem biInsert_fold {g : Graph} {start : String} (expl : List (String × Node))
    (base : List String) (children : List Node) (init : List Node × Nat) (k : Nat)
    (hbase : ∀ x ∈ base, x ∈ expl.map Prod.fst) (hbnd : base.Nodup)
    (hch : ∀ c ∈ children, c.valid g start ∧ c.path = base ++ [c.state])
    (hinit : ∀ n ∈ init.1, BiNodeOk g start (expl.map Prod.fst) n)
    (hcnt : k + init.1.length ≤ init.2) :
    (∀ n ∈ (children.foldl (biInsert expl) init).1,
        BiNodeOk g start (expl.map Prod.fst) n) ∧
    k + (children.foldl (biInsert expl) init).1.length ≤
      (children.foldl (biInsert expl) init).2 ∧
    init.2 ≤ (children.foldl (biInsert expl) init).2 := by
  refine foldl_inv _ (fun acc : List Node × Nat =>
    (∀ n ∈ acc.1, BiNodeOk g start (expl.map Prod.fst) n) ∧
    k + acc.1.length ≤ acc.2 ∧ init.2 ≤ acc.2)
    children init ⟨hinit, hcnt, le_refl _⟩ ?_
  rintro ⟨fr, ng⟩ c hc ⟨h1, h2, h3⟩
  simp only at h1 h2 h3
  simp only [biInsert]
  by_cases hb : (!((expl.map Prod.fst).contains c.state) &&
      !((fr.map Node.state).contains c.state)) = true
  · simp only [hb, if_true]
    obtain ⟨hcv, hcp⟩ := hch c hc
    have hnot : c.state ∉ expl.map Prod.fst := by
      rw [Bool.and_eq_true] at hb
      have h1 := hb.1
      rw [Bool.not_eq_true'] at h1
      simpa using h1
    refine ⟨?_, ?_, ?_⟩
    · intro n hn
      rcases List.mem_append.mp hn with h | h
      · exact h1 n h
      · rw [List.mem_singleton.mp h]
        refine ⟨hcv, ?_, ?_⟩
        · rw [hcp]
          simp only [List.nodup_append, List.nodup_singleton, true_and]
          refine ⟨hbnd, ?_⟩
          intro x hx
          simp only [List.mem_singleton]
          intro he
          exact hnot (he ▸ hbase x hx)
        · rw [hcp, List.dropLast_concat]
          exact hbase
    · show k + (fr ++ [c]).length ≤ ng + 1
      simp only [List.length_append, List.length_singleton]
      omega
    · show init.2 ≤ ng + 1
      omega
  · rw [if_neg hb]
    refine ⟨h1, ?_, ?_⟩
    · show k + fr.length ≤ ng + 1
      omega
    · show init.2 ≤ ng + 1
      omega

theorem biStep_pres {g rg : Graph} {start goal : String}
    (hing : ∀ kv ∈ g, (kv.2.map Prod.fst).Nodup)
    (hinr : ∀ kv ∈ rg, (kv.2.map Prod.fst).Nodup)
    (st : BiSt) (hInv : BiInv g rg start goal st) :
    (∀ st', biStep g rg st = .next st' → BiInv g rg start goal st') ∧
    (∀ rx, biStep g rg st = .done rx → BiP g rg start goal rx) := by
  obtain ⟨hffok, hbfok, hfe, hbe, hcnt, hmf⟩ := hInv
  cases hff : st.ff with
  | nil =>
    constructor
    · intro st' h
      simp [biStep, hff] at h
    · intro rx h
      simp only [biStep, hff] at h
      cases h
      refine ⟨rfl, ?_, hmf, fun _ => rfl, fun hp => absurd rfl hp⟩
      show st.ne ≤ st.ng
      omega
  | cons fnode frest =>
    cases hbf : st.bf with
    | nil =>
      constructor
      · intro st' h
        simp [biStep, hff, hbf] at h
      · intro rx h
        simp only [biStep, hff, hbf] at h
        cases h
        refine ⟨rfl, ?_, hmf, fun _ => rfl, fun hp => absurd rfl hp⟩
        show st.ne ≤ st.ng
        omega
    | cons bnode brest =>
      have hflen : st.ff.length = frest.length + 1 := by rw [hff]; rfl
      have hblen : st.bf.length = brest.length + 1 := by rw [hbf]; rfl
      obtain ⟨hfv, hfnd, hfdl⟩ :=
        hffok fnode (by rw [hff]; exact List.mem_cons_self _ _)
      obtain ⟨hbv, hbnd2, hbdl⟩ :=
        hbfok bnode (by rw [hbf]; exact List.mem_cons_self _ _)
      have hfkeys : ∀ x ∈ fnode.path,
          x ∈ (aset st.fe fnode.state fnode).map Prod.fst := by
        intro x hx
        rw [← List.dropLast_append_getLast? fnode.state fnode.path_last] at hx
        rcases List.mem_append.mp hx with h | h
        · exact (mem_keys_aset _ _ _ _).mpr (Or.inl (hfdl x h))
        · exact (mem_keys_aset _ _ _ _).mpr (Or.inr (List.mem_singleton.mp h))
      have hbkeys : ∀ x ∈ bnode.path,
          x ∈ (aset st.be bnode.state bnode).map Prod.fst := by
        intro x hx
        rw [← List.dropLast_append_getLast? bnode.state bnode.path_last] at hx
        rcases List.mem_append.mp hx with h | h
        · exact (mem_keys_aset _ _ _ _).mpr (Or.inl (hbdl x h))
        · exact (mem_keys_aset _ _ _ _).mpr (Or.inr (List.mem_singleton.mp h))
      cases hmet : alookup st.be fnode.state with
      | some bmet =>
        constructor
        · intro st' h
          simp [biStep, hff, hbf, hmet] at h
        · intro rx h
          simp only [biStep, hff, hbf, hmet, biJoin] at h
          cases h
          obtain ⟨hbs, hbv2, hbnd3⟩ := hbe (fnode.state, bmet) (alookup_mem hmet)
          refine ⟨rfl, ?_, le_trans hmf (le_max_left _ _), ?_, ?_⟩
          · show st.ne + 1 ≤ st.ng
            omega
          · intro hp
            exact absurd (List.append_eq_nil.mp hp).1 fnode.path_ne_nil
          · intro _
            exact ⟨fnode.state, fnode, bmet, rfl, rfl, hbs, rfl, rfl,
              hfv, hbv2, hfnd, hbnd3⟩
      | none =>
        cases hfx : fnode.expand g with
        | none =>
          constructor
          · intro st' h
            simp [biStep, hff, hbf, hmet, hfx] at h
          · intro rx h
            simp [biStep, hff, hbf, hmet, hfx] at h
        | some fchildren =>
          have hfch : ∀ c ∈ fchildren, c.valid g start ∧
              c.path = fnode.path ++ [c.state] := by
            intro c hc
            refine ⟨Node.expand_valid hing hfv hfx c hc, ?_⟩
            obtain ⟨adj, vw, ha, hvw, rfl⟩ := Node.expand_mem hfx c hc
            rfl
          have hfinit : ∀ n ∈ frest,
              BiNodeOk g start ((aset st.fe fnode.state fnode).map Prod.fst) n := by
            intro n hn
            refine BiNodeOk_mono (fun x hx => (mem_keys_aset _ _ _ _).mpr (Or.inl hx)) ?_
            exact hffok n (by rw [hff]; exact List.mem_cons_of_mem _ hn)
          have hfold1 := biInsert_fold (aset st.fe fnode.state fnode) fnode.path
            fchildren (frest, st.ng) (st.ne + 2 + brest.length) hfkeys hfnd hfch
            hfinit (by show st.ne + 2 + brest.length + frest.length ≤ st.ng; omega)
          cases hmet2 : alookup (aset st.fe fnode.state fnode) bnode.state with
          | some fmet =>
            constructor
            · intro st' h
              simp [biStep, hff, hbf, hmet, hfx, hmet2] at h
            · intro rx h
              simp only [biStep, hff, hbf, hmet, hfx, hmet2, biJoin] at h
              cases h
              have hmetfacts : fmet.state = bnode.state ∧ fmet.valid g start ∧
                  fmet.path.Nodup := by
                rcases mem_aset _ (alookup_mem hmet2) with hmm | hmm
                · exact hfe _ hmm
                · have h1 : bnode.state = fnode.state := congrArg Prod.fst hmm
                  have h2 : fmet = fnode := congrArg Prod.snd hmm
                  exact ⟨by rw [h2, h1], h2 ▸ hfv, h2 ▸ hfnd⟩
              refine ⟨rfl, ?_, le_trans hmf (le_max_left _ _), ?_, ?_⟩
              · show st.ne + 1 + 1 ≤
                  (fchildren.foldl (biInsert (aset st.fe fnode.state fnode))
                    (frest, st.ng)).2
                have := hfold1.2.2
                simp only at this
                omega
              · intro hp
                exact absurd (List.append_eq_nil.mp hp).1 fmet.path_ne_nil
              · intro _
                exact ⟨fmet.state, fmet, bnode, rfl, rfl, hmetfacts.1.symm, rfl, rfl,
                  hmetfacts.2.1, hbv, hmetfacts.2.2, hbnd2⟩
          | none =>
            cases hbx : bnode.expand rg with
            | none =>
              constructor
              · intro st' h
                simp [biStep, hff, hbf, hmet, hfx, hmet2, hbx] at h
              · intro rx h
                simp [biStep, hff, hbf, hmet, hfx, hmet2, hbx] at h
            | some bchildren =>
              have hbch : ∀ c ∈ bchildren, c.valid rg goal ∧
                  c.path = bnode.path ++ [c.state] := by
                intro c hc
                refine ⟨Node.expand_valid hinr hbv hbx c hc, ?_⟩
                obtain ⟨adj, vw, ha, hvw, rfl⟩ := Node.expand_mem hbx c hc
                rfl
              have hbinit : ∀ n ∈ brest,
                  BiNodeOk rg goal ((aset st.be bnode.state bnode).map Prod.fst) n := by
                intro n hn
                refine BiNodeOk_mono
                  (fun x hx => (mem_keys_aset _ _ _ _).mpr (Or.inl hx)) ?_
                exact hbfok n (by rw [hbf]; exact List.mem_cons_of_mem _ hn)
              have hfold2 := biInsert_fold (aset st.be bnode.state bnode) bnode.path
                bchildren (brest,
                  (fchildren.foldl (biInsert (aset st.fe fnode.state fnode))
                    (frest, st.ng)).2)
                (st.ne + 2 + (fchildren.foldl (biInsert (aset st.fe fnode.state fnode))
                  (frest, st.ng)).1.length)
                hbkeys hbnd2 hbch hbinit ?_
              constructor
              · intro st' h
                simp only [biStep, hff, hbf, hmet, hfx, hmet2, hbx] at h
                cases h
                refine ⟨hfold1.1, hfold2.1, ?_, ?_, ?_, le_trans hmf (le_max_left _ _)⟩
                · intro p hp
                  rcases mem_aset _ hp with hmm | hmm
                  · exact hfe _ hmm
                  · rw [hmm]
                    exact ⟨rfl, hfv, hfnd⟩
                · intro p hp
                  rcases mem_aset _ hp with hmm | hmm
                  · exact hbe _ hmm
                  · rw [hmm]
                    exact ⟨rfl, hbv, hbnd2⟩
                · show st.ne + 1 + 1 +
                    (fchildren.foldl (biInsert (aset st.fe fnode.state fnode))
                      (frest, st.ng)).1.length +
                    (bchildren.foldl (biInsert (aset st.be bnode.state bnode))
                      (brest, (fchildren.foldl (biInsert (aset st.fe fnode.state fnode))
                        (frest, st.ng)).2)).1.length ≤
                    (bchildren.foldl (biInsert (aset st.be bnode.state bnode))
                      (brest, (fchildren.foldl (biInsert (aset st.fe fnode.state fnode))
                        (frest, st.ng)).2)).2
                  have h21 := hfold2.2.1
                  omega
              · intro rx h
                simp [biStep, hff, hbf, hmet, hfx, hmet2, hbx] at h
              · show st.ne + 2 +
                  (fchildren.foldl (biInsert (aset st.fe fnode.state fnode))
                    (frest, st.ng)).1.length + brest.length ≤
                  (fchildren.foldl (biInsert (aset st.fe fnode.state fnode))
                    (frest, st.ng)).2
                have h11 := hfold1.2.1
                omega

theorem bidirectional_core_props {g rg : Graph} {start goal : String}
    {rx : BiResult × Option (String × Node × Node)}
    (hwf : WFGraph g) (hrg : reverseGraph g = some rg) (hsg : start ≠ goal)
    (h : bidirectional_core g start goal = some rx) : BiP g rg start goal rx := by
  rw [bidirectional_core, if_neg (by simpa using hsg), hrg] at h
  have hinr := (reverseGraph_wf hwf hrg).2
  refine loopRun_inv (biStep g rg) (BiInv g rg start goal) (BiP g rg start goal)
    (fun s hs => biStep_pres hwf.2 hinr s hs) _ _ rx ?_ h
  refine ⟨?_, ?_, by simp, by simp, ?_, ?_⟩
  · intro n hn
    simp only [List.mem_singleton] at hn
    subst hn
    exact ⟨rfl, List.nodup_singleton _, by simp [Node.path]⟩
  · intro n hn
    simp only [List.mem_singleton] at hn
    subst hn
    exact ⟨rfl, List.nodup_singleton _, by simp [Node.path]⟩
  · show 0 + 1 + 1 ≤ 2
    omega
  · show 1 ≤ 2
    omega

theorem bi_path_facts {g rg : Graph} {start goal m : String} {fn bn : Node}
    (hrev : ∀ a b w, edgeOf rg a b = some w → edgeOf g b a = some w)
    (hfv : fn.valid g start) (hbv : bn.valid rg goal)
    (hfs : fn.state = m) (hbs : bn.state = m) :
    pathWeight g (fn.path ++ bn.path.reverse.drop 1) =
      some (fn.path_cost + bn.path_cost) ∧
    (fn.path ++ bn.path.reverse.drop 1).head? = some start ∧
    (fn.path ++ bn.path.reverse.drop 1).getLast? = some goal := by
  have hw1 : pathWeight g fn.path = some fn.path_cost := Node.path_weight hfv
  have hh1 : fn.path.head? = some start := Node.path_head hfv
  have hl1 : fn.path.getLast? = some m := hfs ▸ fn.path_last
  have hw2 : pathWeight g bn.path.reverse = some bn.path_cost :=
    pathWeight_reverse hrev (Node.path_weight hbv)
  have hh2 : bn.path.reverse.head? = some m := by
    rw [List.head?_reverse]
    exact hbs ▸ bn.path_last
  have hl2 : bn.path.reverse.getLast? = some goal := by
    rw [List.getLast?_reverse]
    exact Node.path_head hbv
  refine ⟨pathWeight_join hw1 hw2 (by rw [hl1, hh2]), ?_, ?_⟩
  · cases hfp : fn.path with
    | nil => exact absurd hfp fn.path_ne_nil
    | cons a as =>
      rw [hfp] at hh1
      simpa using hh1
  · cases hbr : bn.path.reverse with
    | nil => exact absurd (List.reverse_eq_nil_iff.mp hbr) bn.path_ne_nil
    | cons x xs =>
      have hx : x = m := by
        rw [hbr] at hh2
        simpa using hh2
      cases xs with
      | nil =>
        have hgoal : x = goal := by
          rw [hbr] at hl2
          simpa using hl2
        simp only [List.drop_succ_cons, List.drop_zero, List.append_nil]
        rw [hl1, ← hx, hgoal]
      | cons b bs =>
        simp only [List.drop_succ_cons, List.drop_zero]
        rw [List.getLast?_append_cons]
        rw [hbr, List.getLast?_cons_cons] at hl2
        exact hl2

theorem bidi_props {g : Graph} {start goal : String} {r : BiResult}
    (hwf : WFGraph g) (h : bidirectional_search g start goal = some r) :
    r.nodes_expanded ≤ r.nodes_generated ∧ 1 ≤ r.max_frontier_size ∧
    (r.path ≠ [] → r.path.head? = some start ∧ r.path.getLast? = some goal ∧
      pathWeight g r.path = some r.distance ∧
      ∃ m fc bc, r.path.count m = 1 ∧ WalkTo g start m fc ∧ WalkTo g m goal bc ∧
        r.distance = fc + bc) := by
  by_cases hsg : start = goal
  · subst hsg
    simp only [bidirectional_search, bidirectional_core, beq_self_eq_true, if_true,
      Option.map_some', Option.some_inj] at h
    subst h
    refine ⟨Nat.zero_le _, by show (1 : Nat) ≤ 2; omega,
      fun _ => ⟨rfl, rfl, rfl, start, 0, 0, ?_, ?_, ?_, rfl⟩⟩
    · simp
    · exact ⟨[start], rfl, rfl, rfl⟩
    · exact ⟨[start], rfl, rfl, rfl⟩
  · rw [bidirectional_search] at h
    cases hc : bidirectional_core g start goal with
    | none => rw [hc] at h; cases h
    | some rx =>
      rw [hc] at h
      simp only [Option.map_some', Option.some_inj] at h
      subst h
      have hrg : ∃ rg, reverseGraph g = some rg := by
        rw [bidirectional_core, if_neg (by simpa using hsg)] at hc
        cases hrev : reverseGraph g with
        | none => rw [hrev] at hc; cases hc
        | some rg => exact ⟨rg, rfl⟩
      obtain ⟨rg, hrg⟩ := hrg
      obtain ⟨_, hneng, hmf, _, hnon⟩ := bidirectional_core_props hwf hrg hsg hc
      refine ⟨hneng, hmf, fun hne => ?_⟩
      obtain ⟨m, fn, bn, _, hfs, hbs, hpath, hdist, hfv, hbv, hfnd, hbnd⟩ := hnon hne
      have hrev := reverseGraph_edge hwf hrg
      have hfacts := bi_path_facts hrev hfv hbv hfs hbs
      rw [hpath, hdist]
      refine ⟨hfacts.2.1, hfacts.2.2, hfacts.1, m, fn.path_cost, bn.path_cost,
        ?_, ?_, ?_, rfl⟩
      · rw [List.count_append]
        have hlast : fn.path.getLast? = some m := by rw [fn.path_last, hfs]
        have heq := List.dropLast_append_getLast? m hlast
        have hmem : m ∈ fn.path := by
          rw [← heq]
          exact List.mem_append.mpr (Or.inr (List.mem_singleton.mpr rfl))
        have h1 : fn.path.count m = 1 := List.count_eq_one_of_mem hfnd hmem
        have h2 : (bn.path.reverse.drop 1).count m = 0 := by
          refine List.count_eq_zero.mpr ?_
          cases hbr : bn.path.reverse with
          | nil => simp
          | cons x xs =>
            have hx : x = m := by
              have := hbs ▸ bn.path_last
              rw [← List.head?_reverse, hbr] at this
              simpa using this
            have hnd : (x :: xs).Nodup := hbr ▸ List.nodup_reverse.mpr hbnd
            simp only [List.drop_succ_cons, List.drop_zero]
            rw [← hx]
            exact (List.nodup_cons.mp hnd).1
        omega
      · exact hfs ▸ Node.valid_walk hfv
      · refine ⟨bn.path.reverse, pathWeight_reverse hrev (Node.path_weight hbv),
          ?_, ?_⟩
        · rw [List.head?_reverse]
          exact hbs ▸ bn.path_last
        · rw [List.getLast?_reverse]
          exact Node.path_head hbv

/-! ### Termination when the goal is unreachable (for C7) -/

theorem bfsInsert_fold_tinv {g : Graph} {start : String} {explored : List String}
    {children : List Node} (hcv : ∀ c ∈ children, c.valid g start)
    (fr : List Node × Nat)
    (hfr : (∀ n ∈ fr.1, n.valid g start) ∧ (fr.1.map Node.state).Nodup ∧
      (∀ x ∈ fr.1.map Node.state, x ∉ explored)) :
    (∀ n ∈ (children.foldl (bfsInsert explored) fr).1, n.valid g start) ∧
    ((children.foldl (bfsInsert explored) fr).1.map Node.state).Nodup ∧
    (∀ x ∈ (children.foldl (bfsInsert explored) fr).1.map Node.state, x ∉ explored) := by
  refine foldl_inv (bfsInsert explored)
    (fun acc : List Node × Nat =>
      (∀ n ∈ acc.1, n.valid g start) ∧ (acc.1.map Node.state).Nodup ∧
      (∀ x ∈ acc.1.map Node.state, x ∉ explored))
    children fr hfr ?_
  rintro ⟨fr', ng'⟩ a ha ⟨hv, hnd, hdisj⟩
  simp only at hv hnd hdisj
  simp only [bfsInsert]
  by_cases hguard : (!(explored.contains a.state) &&
      !((fr'.map Node.state).contains a.state)) = true
  · rw [if_pos hguard]
    rw [Bool.and_eq_true, Bool.not_eq_true', Bool.not_eq_true'] at hguard
    have hne : a.state ∉ explored := contains_false_not_mem hguard.1
    have hnf : a.state ∉ fr'.map Node.state := contains_false_not_mem hguard.2
    refine ⟨?_, ?_, ?_⟩
    · intro n hn
      rcases List.mem_append.mp hn with h | h
      · exact hv n h
      · exact (List.mem_singleton.mp h) ▸ hcv a ha
    · rw [List.map_append, List.nodup_append]
      refine ⟨hnd, List.nodup_singleton _, ?_⟩
      intro x hx hx2
      simp only [List.map_cons, List.map_nil, List.mem_singleton] at hx2
      exact hnf (hx2 ▸ hx)
    · intro x hx
      rw [List.map_append, List.mem_append] at hx
      rcases hx with h | h
      · exact hdisj x h
      · simp only [List.map_cons, List.map_nil, List.mem_singleton] at h
        exact h ▸ hne
  · rw [if_neg hguard]
    exact ⟨hv, hnd, hdisj⟩

theorem ucsRelax_states (child : Node) (l : List (Nat × Node)) :
    (ucsRelax child l).map (fun e => e.2.state) = l.map (fun e => e.2.state) := by
  induction l with
  | nil => rfl
  | cons hd tl ih =>
    obtain ⟨c, n⟩ := hd
    simp only [ucsRelax]
    by_cases hb : (n.state == child.state && decide (child.path_cost < c)) = true
    · rw [if_pos hb]
      rw [Bool.and_eq_true] at hb
      have hst := beq_iff_eq.mp hb.1
      simp [hst]
    · rw [if_neg hb]
      simp [ih]

theorem ucsRelax_valid {g : Graph} {start : String} {child : Node}
    (hch : child.valid g start) {l : List (Nat × Node)}
    (hl : ∀ e ∈ l, e.2.valid g start) :
    ∀ e ∈ ucsRelax child l, e.2.valid g start := by
  intro e he
  rcases ucsRelax_mem child l e he with h | h
  · exact hl e h
  · rw [h]
    exact hch

theorem astarReplace_states (f ctr : Nat) (child : Node)
    (l : List (Nat × Nat × Node)) :
    (astarReplace f ctr child l).map (fun e => e.2.2.state) =
      l.map (fun e => e.2.2.state) := by
  induction l with
  | nil => rfl
  | cons hd tl ih =>
    simp only [astarReplace]
    by_cases hb : (hd.2.2.state == child.state) = true
    · rw [if_pos hb]
      have hst := beq_iff_eq.mp hb
      simp [hst]
    · rw [if_neg hb]
      simp [ih]

theorem astarReplace_valid {g : Graph} {start : String} {f ctr : Nat} {child : Node}
    (hch : child.valid g start) {l : List (Nat × Nat × Node)}
    (hl : ∀ e ∈ l, e.2.2.valid g start) :
    ∀ e ∈ astarReplace f ctr child l, e.2.2.valid g start := by
  intro e he
  rcases astarReplace_mem f ctr child l e he with h | h
  · exact hl e h
  · rw [h]
    exact hch

theorem astarReplace_exists_self (f ctr : Nat) (child : Node) :
    ∀ l : List (Nat × Nat × Node), (∃ e ∈ l, e.2.2.state = child.state) →
      (f, ctr, child) ∈ astarReplace f ctr child l := by
  intro l
  induction l with
  | nil =>
    rintro ⟨e, he, _⟩
    cases he
  | cons hd tl ih =>
    rintro ⟨e, he, hst⟩
    simp only [astarReplace]
    by_cases hb : (hd.2.2.state == child.state) = true
    · rw [if_pos hb]
      exact List.mem_cons_self _ _
    · rw [if_neg hb]
      have hetl : e ∈ tl := by
        rcases List.mem_cons.mp he with h | h
        · exfalso
          rw [h] at hst
          exact hb (beq_iff_eq.mpr hst)
        · exact h
      exact List.mem_cons_of_mem _ (ih ⟨e, hetl, hst⟩)

theorem astarReplace_mem_of_ne (f ctr : Nat) (child : Node) :
    ∀ l : List (Nat × Nat × Node), ∀ e ∈ l, e.2.2.state ≠ child.state →
      e ∈ astarReplace f ctr child l := by
  intro l
  induction l with
  | nil =>
    intro e he
    cases he
  | cons hd tl ih =>
    intro e he hne
    simp only [astarReplace]
    by_cases hb : (hd.2.2.state == child.state) = true
    · rw [if_pos hb]
      rcases List.mem_cons.mp he with h | h
      · exfalso
        rw [h, beq_iff_eq.mp hb] at hne
        exact hne rfl
      · exact List.mem_cons_of_mem _ h
    · rw [if_neg hb]
      rcases List.mem_cons.mp he with h | h
      · exact h ▸ List.mem_cons_self _ _
      · exact List.mem_cons_of_mem _ (ih e h hne)

theorem astarReplace_mem_ne (f ctr : Nat) (child : Node) :
    ∀ l : List (Nat × Nat × Node), (l.map (fun e => e.2.2.state)).Nodup →
      ∀ e ∈ astarReplace f ctr child l,
        e = (f, ctr, child) ∨ (e ∈ l ∧ e.2.2.state ≠ child.state) := by
  intro l
  induction l with
  | nil =>
    intro _ e he
    simp [astarReplace] at he
  | cons hd tl ih =>
    intro hnd e he
    simp only [List.map_cons, List.nodup_cons] at hnd
    simp only [astarReplace] at he
    by_cases hb : (hd.2.2.state == child.state) = true
    · rw [if_pos hb] at he
      rcases List.mem_cons.mp he with h | h
      · exact Or.inl h
      · right
        refine ⟨List.mem_cons_of_mem _ h, ?_⟩
        intro hcc
        apply hnd.1
        rw [beq_iff_eq.mp hb, ← hcc]
        exact List.mem_map.mpr ⟨e, h, rfl⟩
    · rw [if_neg hb] at he
      rcases List.mem_cons.mp he with h | h
      · right
        refine ⟨h ▸ List.mem_cons_self _ _, ?_⟩
        rw [h]
        exact fun hcc => hb (beq_iff_eq.mpr hcc)
      · rcases ih hnd.2 e h with h' | ⟨h1, h2⟩
        · exact Or.inl h'
        · exact Or.inr ⟨List.mem_cons_of_mem _ h1, h2⟩

theorem ucs_pop_base {g : Graph} {start : String} {st : UcsSt}
    {x : Nat × Node} {xs : List (Nat × Node)} (hf : st.frontier = x :: xs)
    (hval : ∀ e ∈ st.frontier, e.2.valid g start)
    (hndf : (st.frontier.map (fun e => e.2.state)).Nodup)
    (hfsnd : st.fstates.Nodup)
    (hsync : ∀ x, x ∈ st.fstates ↔ x ∈ st.frontier.map (fun e => e.2.state))
    (hdisj : ∀ x ∈ st.frontier.map (fun e => e.2.state), x ∉ st.explored) :
    (popMin1 pairLt x xs).1.2.valid g start ∧
    (popMin1 pairLt x xs).1.2.state ∉ st.explored ∧
    (∀ e ∈ (popMin1 pairLt x xs).2, e.2.valid g start) ∧
    ((popMin1 pairLt x xs).2.map (fun e => e.2.state)).Nodup ∧
    (st.fstates.erase (popMin1 pairLt x xs).1.2.state).Nodup ∧
    (∀ y, y ∈ st.fstates.erase (popMin1 pairLt x xs).1.2.state ↔
      y ∈ (popMin1 pairLt x xs).2.map (fun e => e.2.state)) ∧
    (∀ y ∈ (popMin1 pairLt x xs).2.map (fun e => e.2.state),
      y ∉ st.explored ++ [(popMin1 pairLt x xs).1.2.state]) := by
  have hperm := popMin1_perm pairLt x xs
  have hpermmap : List.Perm (st.frontier.map (fun e => e.2.state))
      ((popMin1 pairLt x xs).1.2.state ::
        (popMin1 pairLt x xs).2.map (fun e => e.2.state)) := by
    rw [hf]
    exact hperm.map (fun e => e.2.state)
  have hndx : ((popMin1 pairLt x xs).1.2.state ::
      (popMin1 pairLt x xs).2.map (fun e => e.2.state)).Nodup :=
    hpermmap.nodup_iff.mp hndf
  rw [List.nodup_cons] at hndx
  have hnode_mem : (popMin1 pairLt x xs).1.2.state ∈
      st.frontier.map (fun e => e.2.state) :=
    hpermmap.mem_iff.mpr (List.mem_cons_self _ _)
  refine ⟨?_, hdisj _ hnode_mem, ?_, hndx.2, hfsnd.erase _, ?_, ?_⟩
  · refine hval _ ?_
    rw [hf]
    exact (hperm.mem_iff).mpr (List.mem_cons_self _ _)
  · intro e he
    refine hval e ?_
    rw [hf]
    exact (hperm.mem_iff).mpr (List.mem_cons_of_mem _ he)
  · intro y
    rw [hfsnd.mem_erase_iff, hsync y, hpermmap.mem_iff, List.mem_cons]
    constructor
    · rintro ⟨hy1, hy2 | hy2⟩
      · exact absurd hy2 hy1
      · exact hy2
    · intro hy
      exact ⟨fun he => hndx.1 (he ▸ hy), Or.inr hy⟩
  · intro y hym
    rw [List.mem_append, List.mem_singleton]
    rintro (h | h)
    · exact hdisj y (hpermmap.mem_iff.mpr (List.mem_cons_of_mem _ hym)) h
    · exact hndx.1 (h ▸ hym)

theorem ucsInsert_fold_tinv {g : Graph} {start : String} {explored : List String}
    {children : List Node} (hcv : ∀ c ∈ children, c.valid g start)
    (fr : List (Nat × Node) × List String × Nat)
    (hfr : (∀ e ∈ fr.1, e.2.valid g start) ∧
      (fr.1.map (fun e => e.2.state)).Nodup ∧
      fr.2.1.Nodup ∧ (∀ x, x ∈ fr.2.1 ↔ x ∈ fr.1.map (fun e => e.2.state)) ∧
      (∀ x ∈ fr.1.map (fun e => e.2.state), x ∉ explored)) :
    (∀ e ∈ (children.foldl (ucsInsert explored) fr).1, e.2.valid g start) ∧
    ((children.foldl (ucsInsert explored) fr).1.map (fun e => e.2.state)).Nodup ∧
    (children.foldl (ucsInsert explored) fr).2.1.Nodup ∧
    (∀ x, x ∈ (children.foldl (ucsInsert explored) fr).2.1 ↔
      x ∈ (children.foldl (ucsInsert explored) fr).1.map (fun e => e.2.state)) ∧
    (∀ x ∈ (children.foldl (ucsInsert explored) fr).1.map (fun e => e.2.state),
      x ∉ explored) := by
  refine foldl_inv (ucsInsert explored)
    (fun acc : List (Nat × Node) × List String × Nat =>
      (∀ e ∈ acc.1, e.2.valid g start) ∧
      (acc.1.map (fun e => e.2.state)).Nodup ∧
      acc.2.1.Nodup ∧ (∀ x, x ∈ acc.2.1 ↔ x ∈ acc.1.map (fun e => e.2.state)) ∧
      (∀ x ∈ acc.1.map (fun e => e.2.state), x ∉ explored))
    children fr hfr ?_
  rintro ⟨fr', fs', ng'⟩ a ha ⟨hv, hnd, hfsnd, hsync, hdisj⟩
  simp only at hv hnd hfsnd hsync hdisj
  simp only [ucsInsert]
  by_cases hguard : (!(explored.contains a.state) && !(fs'.contains a.state)) = true
  · rw [if_pos hguard]
    rw [Bool.and_eq_true, Bool.not_eq_true', Bool.not_eq_true'] at hguard
    have hne : a.state ∉ explored := contains_false_not_mem hguard.1
    have hnfs : a.state ∉ fs' := contains_false_not_mem hguard.2
    have hnf : a.state ∉ fr'.map (fun e => e.2.state) :=
      fun hm => hnfs ((hsync a.state).mpr hm)
    refine ⟨?_, ?_, ?_, ?_, ?_⟩
    · intro e he
      rcases List.mem_append.mp he with h | h
      · exact hv e h
      · rw [List.mem_singleton] at h
        rw [h]
        exact hcv a ha
    · rw [List.map_append, List.nodup_append]
      refine ⟨hnd, List.nodup_singleton _, ?_⟩
      intro y hy hy2
      simp only [List.map_cons, List.map_nil, List.mem_singleton] at hy2
      exact hnf (hy2 ▸ hy)
    · rw [List.nodup_append]
      refine ⟨hfsnd, List.nodup_singleton _, ?_⟩
      intro y hy hy2
      rw [List.mem_singleton] at hy2
      exact hnfs (hy2 ▸ hy)
    · intro y
      rw [List.map_append, List.mem_append, List.mem_append]
      simp only [List.map_cons, List.map_nil]
      rw [hsync y]
    · intro y hy
      rw [List.map_append, List.mem_append] at hy
      rcases hy with h | h
      · exact hdisj y h
      · simp only [List.map_cons, List.map_nil, List.mem_singleton] at h
        exact h ▸ hne
  · rw [if_neg hguard]
    by_cases hmem : (fs'.contains a.state) = true
    · rw [if_pos hmem]
      refine ⟨ucsRelax_valid (hcv a ha) hv, ?_, hfsnd, ?_, ?_⟩
      · rw [ucsRelax_states]
        exact hnd
      · intro y
        rw [ucsRelax_states]
        exact hsync y
      · intro y hy
        rw [ucsRelax_states] at hy
        exact hdisj y hy
    · rw [if_neg hmem]
      exact ⟨hv, hnd, hfsnd, hsync, hdisj⟩

theorem ucsRelax_pres_le {z : String} {B : Nat} (child : Node) :
    ∀ l : List (Nat × Node), (∃ e ∈ l, e.2.state = z ∧ e.1 ≤ B) →
      ∃ e ∈ ucsRelax child l, e.2.state = z ∧ e.1 ≤ B := by
  intro l
  induction l with
  | nil =>
    rintro ⟨e, he, _⟩
    cases he
  | cons hd tl ih =>
    rintro ⟨e, he, hst, hle⟩
    obtain ⟨c, n⟩ := hd
    simp only [ucsRelax]
    by_cases hb : (n.state == child.state && decide (child.path_cost < c)) = true
    · rw [if_pos hb]
      rw [Bool.and_eq_true, beq_iff_eq, decide_eq_true_eq] at hb
      rcases List.mem_cons.mp he with h | h
      · refine ⟨(child.path_cost, child), List.mem_cons_self _ _, ?_, ?_⟩
        · show child.state = z
          rw [← hb.1, ← congrArg (fun e : Nat × Node => e.2.state) h]
          exact hst
        · have : e.1 = c := congrArg Prod.fst h
          omega
      · exact ⟨e, List.mem_cons_of_mem _ h, hst, hle⟩
    · rw [if_neg hb]
      rcases List.mem_cons.mp he with h | h
      · exact ⟨e, h ▸ List.mem_cons_self _ _, hst, hle⟩
      · obtain ⟨e', he', hst', hle'⟩ := ih ⟨e, h, hst, hle⟩
        exact ⟨e', List.mem_cons_of_mem _ he', hst', hle'⟩

theorem ucsRelax_exists_le (child : Node) :
    ∀ l : List (Nat × Node), (∃ e ∈ l, e.2.state = child.state) →
      ∃ e ∈ ucsRelax child l, e.2.state = child.state ∧
        e.1 ≤ child.path_cost := by
  intro l
  induction l with
  | nil =>
    rintro ⟨e, he, _⟩
    cases he
  | cons hd tl ih =>
    rintro ⟨e, he, hst⟩
    obtain ⟨c, n⟩ := hd
    simp only [ucsRelax]
    by_cases hb : (n.state == child.state && decide (child.path_cost < c)) = true
    · rw [if_pos hb]
      exact ⟨(child.path_cost, child), List.mem_cons_self _ _, rfl, le_refl _⟩
    · rw [if_neg hb]
      by_cases hn : n.state = child.state
      · have hc : ¬ child.path_cost < c := by
          intro hlt
          exact hb (by simp [hn, hlt])
        exact ⟨(c, n), List.mem_cons_self _ _, hn, by omega⟩
      · have hetl : e ∈ tl := by
          rcases List.mem_cons.mp he with h | h
          · exfalso
            apply hn
            rw [← hst, ← congrArg (fun e : Nat × Node => e.2.state) h]
          · exact h
        obtain ⟨e', he', hst', hle'⟩ := ih ⟨e, hetl, hst⟩
        exact ⟨e', List.mem_cons_of_mem _ he', hst', hle'⟩

theorem ucsInsert_pres_le {explored : List String} {z : String} {B : Nat}
    (fr : List (Nat × Node) × List String × Nat) (c : Node)
    (h : ∃ e ∈ fr.1, e.2.state = z ∧ e.1 ≤ B) :
    ∃ e ∈ (ucsInsert explored fr c).1, e.2.state = z ∧ e.1 ≤ B := by
  obtain ⟨fl, fs, ng⟩ := fr
  simp only at h
  simp only [ucsInsert]
  by_cases hg1 : (!(explored.contains c.state) && !(fs.contains c.state)) = true
  · rw [if_pos hg1]
    obtain ⟨e, he, hst, hle⟩ := h
    exact ⟨e, List.mem_append.mpr (Or.inl he), hst, hle⟩
  · rw [if_neg hg1]
    by_cases hg2 : (fs.contains c.state) = true
    · rw [if_pos hg2]
      exact ucsRelax_pres_le c fl h
    · rw [if_neg hg2]
      exact h

theorem ucsInsert_fold_le {explored : List String} {z : String} {B : Nat}
    (children : List Node) (fr : List (Nat × Node) × List String × Nat)
    (h : ∃ e ∈ fr.1, e.2.state = z ∧ e.1 ≤ B) :
    ∃ e ∈ (children.foldl (ucsInsert explored) fr).1, e.2.state = z ∧ e.1 ≤ B :=
  foldl_inv (ucsInsert explored)
    (fun acc : List (Nat × Node) × List String × Nat =>
      ∃ e ∈ acc.1, e.2.state = z ∧ e.1 ≤ B)
    children fr h (fun b' a _ hb => ucsInsert_pres_le b' a hb)

theorem ucsInsert_fold_keys {g : Graph} {start : String} (explored : List String)
    {children : List Node} (hcv : ∀ c ∈ children, c.valid g start)
    (fr : List (Nat × Node) × List String × Nat)
    (h : ∀ e ∈ fr.1, e.1 = e.2.path_cost ∧ e.2.valid g start) :
    ∀ e ∈ (children.foldl (ucsInsert explored) fr).1,
      e.1 = e.2.path_cost ∧ e.2.valid g start := by
  refine foldl_inv (ucsInsert explored)
    (fun acc : List (Nat × Node) × List String × Nat =>
      ∀ e ∈ acc.1, e.1 = e.2.path_cost ∧ e.2.valid g start)
    children fr h ?_
  rintro ⟨fl, fs, ng⟩ a ha hb
  simp only at hb
  simp only [ucsInsert]
  by_cases hg1 : (!(explored.contains a.state) && !(fs.contains a.state)) = true
  · rw [if_pos hg1]
    intro e he
    rcases List.mem_append.mp he with h' | h'
    · exact hb e h'
    · rw [List.mem_singleton.mp h']
      exact ⟨rfl, hcv a ha⟩
  · rw [if_neg hg1]
    by_cases hg2 : (fs.contains a.state) = true
    · rw [if_pos hg2]
      intro e he
      rcases ucsRelax_mem a fl e he with h' | h'
      · exact hb e h'
      · rw [h']
        exact ⟨rfl, hcv a ha⟩
    · rw [if_neg hg2]
      exact hb

theorem ucsInsert_fold_covers {g : Graph} {start : String} {explored : List String} :
    ∀ children : List Node, (∀ c ∈ children, c.valid g start) →
      ∀ fr : List (Nat × Node) × List String × Nat,
      ((∀ e ∈ fr.1, e.2.valid g start) ∧
        (fr.1.map (fun e => e.2.state)).Nodup ∧
        fr.2.1.Nodup ∧ (∀ x, x ∈ fr.2.1 ↔ x ∈ fr.1.map (fun e => e.2.state)) ∧
        (∀ x ∈ fr.1.map (fun e => e.2.state), x ∉ explored)) →
      ∀ c ∈ children, c.state ∈ explored ∨
        ∃ e ∈ (children.foldl (ucsInsert explored) fr).1,
          e.2.state = c.state ∧ e.1 ≤ c.path_cost := by
  intro children
  induction children with
  | nil =>
    intro _ fr _ c hc
    cases hc
  | cons c0 cs ih =>
    intro hcv fr hfr c hc
    have hcv0 : ∀ c' ∈ [c0], c'.valid g start := by
      intro c' hc'
      rw [List.mem_singleton.mp hc']
      exact hcv c0 (List.mem_cons_self _ _)
    have hstep := ucsInsert_fold_tinv hcv0 fr hfr
    simp only [List.foldl_cons, List.foldl_nil] at hstep
    simp only [List.foldl_cons]
    rcases List.mem_cons.mp hc with rfl | hcs
    · have hcov1 : c.state ∈ explored ∨
          ∃ e ∈ (ucsInsert explored fr c).1,
            e.2.state = c.state ∧ e.1 ≤ c.path_cost := by
        obtain ⟨hv, hnd, hfsnd, hsync, hdisj⟩ := hfr
        obtain ⟨fl, fs, ng⟩ := fr
        simp only at hv hnd hfsnd hsync hdisj
        simp only [ucsInsert]
        by_cases hg1 : (!(explored.contains c.state) && !(fs.contains c.state)) = true
        · rw [if_pos hg1]
          exact Or.inr ⟨(c.path_cost, c),
            List.mem_append.mpr (Or.inr (List.mem_singleton.mpr rfl)), rfl, le_refl _⟩
        · rw [if_neg hg1]
          by_cases hg2 : (fs.contains c.state) = true
          · rw [if_pos hg2]
            have hmem : ∃ e ∈ fl, e.2.state = c.state := by
              have hx := (hsync c.state).mp (List.mem_of_elem_eq_true hg2)
              obtain ⟨e, he, heq⟩ := List.mem_map.mp hx
              exact ⟨e, he, heq⟩
            obtain ⟨e', he', hst', hle'⟩ := ucsRelax_exists_le c fl hmem
            exact Or.inr ⟨e', he', hst', hle'⟩
          · rw [if_neg hg2]
            cases hec : explored.contains c.state with
            | true => exact Or.inl (List.mem_of_elem_eq_true hec)
            | false =>
              exfalso
              cases hfsb : fs.contains c.state with
              | true => exact hg2 hfsb
              | false =>
                apply hg1
                rw [hec, hfsb]
                rfl
      rcases hcov1 with h | ⟨e, he, hst, hle⟩
      · exact Or.inl h
      · exact Or.inr (ucsInsert_fold_le cs _ ⟨e, he, hst, hle⟩)
    · exact ih (fun c' hc' => hcv c' (List.mem_cons_of_mem _ hc'))
        (ucsInsert explored fr c0) hstep c hcs

theorem astarInsert_pres_dij {g : Graph} {start goal : String}
    {hdata : List (String × Nat)} {explored : List String} {c : Node}
    (hcv : c.valid g start)
    (acc : List (Nat × Nat × Node) × List (String × Nat) × Nat × Nat)
    (hpre : AstarPre g start (fun s => get_heuristic s goal hdata) explored acc) :
    AstarPre g start (fun s => get_heuristic s goal hdata) explored
      (astarInsert goal hdata explored acc c) := by
  obtain ⟨fl, fs, ng, ctr⟩ := acc
  obtain ⟨hkey, hnd, hknd, hsync, hvs, hdisj⟩ := hpre
  simp only at hkey hnd hknd hsync hvs hdisj
  simp only [astarInsert]
  by_cases hg1 : (!(explored.contains c.state)) = true
  · rw [if_pos hg1]
    cases halk : alookup fs c.state with
    | none =>
      dsimp only
      have hnk : c.state ∉ fs.map Prod.fst := by
        intro hm
        obtain ⟨v, hv⟩ := alookup_isSome_of_mem_keys hm
        rw [halk] at hv
        cases hv
      have hnf : c.state ∉ fl.map (fun e => e.2.2.state) :=
        fun hm => hnk ((hsync c.state).mpr hm)
      refine ⟨?_, ?_, ?_, ?_, ?_, ?_⟩
      · intro e he
        rcases List.mem_append.mp he with h | h
        · exact hkey e h
        · rw [List.mem_singleton.mp h]
          exact ⟨rfl, hcv⟩
      · rw [List.map_append, List.nodup_append]
        refine ⟨hnd, List.nodup_singleton _, ?_⟩
        intro y hy hy2
        simp only [List.map_cons, List.map_nil, List.mem_singleton] at hy2
        exact hnf (hy2 ▸ hy)
      · rw [keys_aset_of_not_mem _ _ _ hnk, List.nodup_append]
        refine ⟨hknd, List.nodup_singleton _, ?_⟩
        intro y hy hy2
        rw [List.mem_singleton] at hy2
        exact hnk (hy2 ▸ hy)
      · intro y
        rw [keys_aset_of_not_mem _ _ _ hnk, List.map_append, List.mem_append,
          List.mem_append]
        simp only [List.map_cons, List.map_nil]
        rw [hsync y]
      · intro e he
        rcases List.mem_append.mp he with h | h
        · have hne : e.2.2.state ≠ c.state :=
            fun hh => hnf (hh ▸ List.mem_map.mpr ⟨e, h, rfl⟩)
          rw [alookup_aset_ne _ _ _ _ hne]
          exact hvs e h
        · rw [List.mem_singleton.mp h]
          exact alookup_aset_self _ _ _
      · intro y hy
        rw [List.map_append, List.mem_append] at hy
        rcases hy with h | h
        · exact hdisj y h
        · simp only [List.map_cons, List.map_nil, List.mem_singleton] at h
          subst h
          have hg1' : explored.contains c.state = false := by
            rw [← Bool.not_eq_true']
            exact hg1
          exact contains_false_not_mem hg1'
    | some gOld =>
      have hk : c.state ∈ fs.map Prod.fst := alookup_mem_keys halk
      dsimp only
      by_cases hlt : c.path_cost < gOld
      · rw [if_pos hlt]
        refine ⟨?_, ?_, ?_, ?_, ?_, ?_⟩
        · intro e he
          rcases astarReplace_mem _ _ _ _ e he with h | h
          · exact hkey e h
          · rw [h]
            exact ⟨rfl, hcv⟩
        · rw [astarReplace_states]
          exact hnd
        · rw [keys_aset_of_mem _ _ _ hk]
          exact hknd
        · intro y
          rw [keys_aset_of_mem _ _ _ hk, astarReplace_states]
          exact hsync y
        · intro e he
          rcases astarReplace_mem_ne _ _ _ _ hnd e he with h | ⟨h1, h2⟩
          · rw [h]
            exact alookup_aset_self _ _ _
          · rw [alookup_aset_ne _ _ _ _ h2]
            exact hvs e h1
        · intro y hy
          rw [astarReplace_states] at hy
          exact hdisj y hy
      · rw [if_neg hlt]
        exact ⟨hkey, hnd, hknd, hsync, hvs, hdisj⟩
  · rw [if_neg hg1]
    exact ⟨hkey, hnd, hknd, hsync, hvs, hdisj⟩

theorem astarInsert_fold_dij {g : Graph} {start goal : String}
    {hdata : List (String × Nat)} {explored : List String}
    {children : List Node} (hcv : ∀ c ∈ children, c.valid g start)
    (acc : List (Nat × Nat × Node) × List (String × Nat) × Nat × Nat)
    (hpre : AstarPre g start (fun s => get_heuristic s goal hdata) explored acc) :
    AstarPre g start (fun s => get_heuristic s goal hdata) explored
      (children.foldl (astarInsert goal hdata explored) acc) :=
  foldl_inv (astarInsert goal hdata explored)
    (AstarPre g start (fun s => get_heuristic s goal hdata) explored)
    children acc hpre
    (fun b' a ha hb => astarInsert_pres_dij (hcv a ha) b' hb)

theorem astarInsert_pres_le {g : Graph} {start goal : String}
    {hdata : List (String × Nat)} {explored : List String}
    {z : String} {B : Nat}
    (acc : List (Nat × Nat × Node) × List (String × Nat) × Nat × Nat) (c : Node)
    (hpre : AstarPre g start (fun s => get_heuristic s goal hdata) explored acc)
    (h : ∃ e ∈ acc.1, e.2.2.state = z ∧ e.2.2.path_cost ≤ B) :
    ∃ e ∈ (astarInsert goal hdata explored acc c).1,
      e.2.2.state = z ∧ e.2.2.path_cost ≤ B := by
  obtain ⟨fl, fs, ng, ctr⟩ := acc
  obtain ⟨hkey, hnd, hknd, hsync, hvs, hdisj⟩ := hpre
  simp only at hvs h
  simp only [astarInsert]
  by_cases hg1 : (!(explored.contains c.state)) = true
  · rw [if_pos hg1]
    cases halk : alookup fs c.state with
    | none =>
      dsimp only
      obtain ⟨e, he, hst, hle⟩ := h
      exact ⟨e, List.mem_append.mpr (Or.inl he), hst, hle⟩
    | some gOld =>
      dsimp only
      by_cases hlt : c.path_cost < gOld
      · rw [if_pos hlt]
        obtain ⟨e0, he0, hst0, hle0⟩ := h
        by_cases hz : z = c.state
        · have hv0 := hvs e0 he0
          rw [hst0, hz, halk] at hv0
          have hg0 : e0.2.2.path_cost = gOld := by
            cases hv0
            rfl
          refine ⟨(c.path_cost + get_heuristic c.state goal hdata, ctr, c),
            astarReplace_exists_self _ _ _ fl ⟨e0, he0, hst0.trans hz⟩, hz.symm, ?_⟩
          show c.path_cost ≤ B
          omega
        · exact ⟨e0, astarReplace_mem_of_ne _ _ _ fl e0 he0
            (fun hh => hz (hst0 ▸ hh)), hst0, hle0⟩
      · rw [if_neg hlt]
        exact h
  · rw [if_neg hg1]
    exact h

theorem astarInsert_fold_le {g : Graph} {start goal : String}
    {hdata : List (String × Nat)} {explored : List String}
    {z : String} {B : Nat}
    {children : List Node} (hcv : ∀ c ∈ children, c.valid g start)
    (acc : List (Nat × Nat × Node) × List (String × Nat) × Nat × Nat)
    (hpre : AstarPre g start (fun s => get_heuristic s goal hdata) explored acc)
    (h : ∃ e ∈ acc.1, e.2.2.state = z ∧ e.2.2.path_cost ≤ B) :
    ∃ e ∈ (children.foldl (astarInsert goal hdata explored) acc).1,
      e.2.2.state = z ∧ e.2.2.path_cost ≤ B := by
  have hfold := foldl_inv (astarInsert goal hdata explored)
    (fun acc2 => AstarPre g start (fun s => get_heuristic s goal hdata)
      explored acc2 ∧
      ∃ e ∈ acc2.1, e.2.2.state = z ∧ e.2.2.path_cost ≤ B)
    children acc ⟨hpre, h⟩ ?_
  · exact hfold.2
  · rintro b' a ha ⟨hb1, hb2⟩
    exact ⟨astarInsert_pres_dij (hcv a ha) b' hb1,
      astarInsert_pres_le b' a hb1 hb2⟩

theorem astarInsert_fold_covers {g : Graph} {start goal : String}
    {hdata : List (String × Nat)} {explored : List String} :
    ∀ children : List Node, (∀ c ∈ children, c.valid g start) →
      ∀ acc : List (Nat × Nat × Node) × List (String × Nat) × Nat × Nat,
      AstarPre g start (fun s => get_heuristic s goal hdata) explored acc →
      ∀ c ∈ children, c.state ∈ explored ∨
        ∃ e ∈ (children.foldl (astarInsert goal hdata explored) acc).1,
          e.2.2.state = c.state ∧ e.2.2.path_cost ≤ c.path_cost := by
  intro children
  induction children with
  | nil =>
    intro _ acc _ c hc
    cases hc
  | cons c0 cs ih =>
    intro hcv acc hpre c hc
    have hpre' := astarInsert_pres_dij (hcv c0 (List.mem_cons_self _ _)) acc hpre
    simp only [List.foldl_cons]
    rcases List.mem_cons.mp hc with rfl | hcs
    · have hcov1 : c.state ∈ explored ∨
          ∃ e ∈ (astarInsert goal hdata explored acc c).1,
            e.2.2.state = c.state ∧ e.2.2.path_cost ≤ c.path_cost := by
        obtain ⟨fl, fs, ng, ctr⟩ := acc
        obtain ⟨hkey, hnd, hknd, hsync, hvs, hdisj⟩ := hpre
        simp only at hsync hvs
        simp only [astarInsert]
        by_cases hg1 : (!(explored.contains c.state)) = true
        · rw [if_pos hg1]
          cases halk : alookup fs c.state with
          | none =>
            dsimp only
            exact Or.inr ⟨(c.path_cost + get_heuristic c.state goal hdata, ctr, c),
              List.mem_append.mpr (Or.inr (List.mem_singleton.mpr rfl)),
              rfl, le_refl _⟩
          | some gOld =>
            have hk : c.state ∈ fs.map Prod.fst := alookup_mem_keys halk
            have hmemst : ∃ e ∈ fl, e.2.2.state = c.state := by
              have hx := (hsync c.state).mp hk
              obtain ⟨e, he, heq⟩ := List.mem_map.mp hx
              exact ⟨e, he, heq⟩
            dsimp only
            by_cases hlt : c.path_cost < gOld
            · rw [if_pos hlt]
              exact Or.inr ⟨(c.path_cost + get_heuristic c.state goal hdata, ctr, c),
                astarReplace_exists_self _ _ _ fl hmemst, rfl, le_refl _⟩
            · rw [if_neg hlt]
              obtain ⟨e0, he0, hst0⟩ := hmemst
              have hv0 := hvs e0 he0
              rw [hst0, halk] at hv0
              have hg0 : e0.2.2.path_cost = gOld := by
                cases hv0
                rfl
              exact Or.inr ⟨e0, he0, hst0, by omega⟩
        · left
          rw [Bool.not_eq_true] at hg1
          -- hg1 : (!(explored.contains c.state)) = false
          have : explored.contains c.state = true := by
            cases hec : explored.contains c.state with
            | true => rfl
            | false =>
              rw [hec] at hg1
              cases hg1
          exact List.mem_of_elem_eq_true this
      rcases hcov1 with h | hcov
      · exact Or.inl h
      · exact Or.inr (astarInsert_fold_le
          (fun c' hc' => hcv c' (List.mem_cons_of_mem _ hc')) _ hpre' hcov)
    · exact ih (fun c' hc' => hcv c' (List.mem_cons_of_mem _ hc'))
        (astarInsert goal hdata explored acc c0) hpre' c hcs

theorem dfs_pop_base {g : Graph} {start : String} {R : List String} {st : DfsSt}
    {node : Node} (hf : st.frontier.getLast? = some node)
    (hInv : DfsTInv g start R st) :
    st.frontier = st.frontier.dropLast ++ [node] ∧
    node.valid g start ∧ node.state ∉ st.explored ∧
    (∀ n ∈ st.frontier.dropLast, n.valid g start) ∧
    (st.frontier.dropLast.map Node.state).Nodup ∧
    (st.fstates.erase node.state).Nodup ∧
    (∀ x, x ∈ st.fstates.erase node.state ↔
      x ∈ st.frontier.dropLast.map Node.state) ∧
    (∀ x ∈ st.frontier.dropLast.map Node.state, x ∉ st.explored ++ [node.state]) := by
  obtain ⟨hval, hndf, hfsnd, hsync, hdisj, hexnd, hsubR, hne⟩ := hInv
  have hsplit : st.frontier = st.frontier.dropLast ++ [node] :=
    (List.dropLast_append_getLast? node hf).symm
  have hmapsplit : st.frontier.map Node.state =
      st.frontier.dropLast.map Node.state ++ [node.state] := by
    conv_lhs => rw [hsplit]
    simp
  have hndf' := hndf
  rw [hmapsplit, List.nodup_append] at hndf'
  obtain ⟨hdlnd, _, hdl_disj⟩ := hndf'
  have hnode_notdl : node.state ∉ st.frontier.dropLast.map Node.state := by
    intro hm
    exact hdl_disj hm (List.mem_singleton.mpr rfl)
  have hnode_mem : node.state ∈ st.frontier.map Node.state := by
    rw [hmapsplit]
    exact List.mem_append.mpr (Or.inr (List.mem_singleton.mpr rfl))
  refine ⟨hsplit, ?_, hdisj node.state hnode_mem, ?_, hdlnd, hfsnd.erase _, ?_, ?_⟩
  · refine hval node ?_
    rw [hsplit]
    exact List.mem_append.mpr (Or.inr (List.mem_singleton.mpr rfl))
  · intro n hn
    refine hval n ?_
    rw [hsplit]
    exact List.mem_append.mpr (Or.inl hn)
  · intro x
    rw [hfsnd.mem_erase_iff, hsync x, hmapsplit, List.mem_append, List.mem_singleton]
    constructor
    · rintro ⟨hx1, hx2 | hx2⟩
      · exact hx2
      · exact absurd hx2 hx1
    · intro hx
      exact ⟨fun he => hnode_notdl (he ▸ hx), Or.inl hx⟩
  · intro x hxm
    rw [List.mem_append, List.mem_singleton]
    rintro (h | h)
    · refine hdisj x ?_ h
      rw [hmapsplit]
      exact List.mem_append.mpr (Or.inl hxm)
    · exact hnode_notdl (h ▸ hxm)

theorem dfsInsert_fold_tinv {g : Graph} {start : String} {explored : List String}
    {children : List Node} (hcv : ∀ c ∈ children, c.valid g start)
    (fr : List Node × List String × Nat)
    (hfr : (∀ n ∈ fr.1, n.valid g start) ∧ (fr.1.map Node.state).Nodup ∧
      fr.2.1.Nodup ∧ (∀ x, x ∈ fr.2.1 ↔ x ∈ fr.1.map Node.state) ∧
      (∀ x ∈ fr.1.map Node.state, x ∉ explored)) :
    (∀ n ∈ (children.foldl (dfsInsert explored) fr).1, n.valid g start) ∧
    ((children.foldl (dfsInsert explored) fr).1.map Node.state).Nodup ∧
    (children.foldl (dfsInsert explored) fr).2.1.Nodup ∧
    (∀ x, x ∈ (children.foldl (dfsInsert explored) fr).2.1 ↔
      x ∈ (children.foldl (dfsInsert explored) fr).1.map Node.state) ∧
    (∀ x ∈ (children.foldl (dfsInsert explored) fr).1.map Node.state,
      x ∉ explored) := by
  refine foldl_inv (dfsInsert explored)
    (fun acc : List Node × List String × Nat =>
      (∀ n ∈ acc.1, n.valid g start) ∧ (acc.1.map Node.state).Nodup ∧
      acc.2.1.Nodup ∧ (∀ x, x ∈ acc.2.1 ↔ x ∈ acc.1.map Node.state) ∧
      (∀ x ∈ acc.1.map Node.state, x ∉ explored))
    children fr hfr ?_
  rintro ⟨fr', fs', ng'⟩ a ha ⟨hv, hnd, hfsnd, hsync, hdisj⟩
  simp only at hv hnd hfsnd hsync hdisj
  simp only [dfsInsert]
  by_cases hguard : (!(explored.contains a.state) && !(fs'.contains a.state)) = true
  · rw [if_pos hguard]
    rw [Bool.and_eq_true, Bool.not_eq_true', Bool.not_eq_true'] at hguard
    have hne : a.state ∉ explored := contains_false_not_mem hguard.1
    have hnfs : a.state ∉ fs' := contains_false_not_mem hguard.2
    have hnf : a.state ∉ fr'.map Node.state := fun hm => hnfs ((hsync a.state).mpr hm)
    refine ⟨?_, ?_, ?_, ?_, ?_⟩
    · intro n hn
      rcases List.mem_append.mp hn with h | h
      · exact hv n h
      · exact (List.mem_singleton.mp h) ▸ hcv a ha
    · rw [List.map_append, List.nodup_append]
      refine ⟨hnd, List.nodup_singleton _, ?_⟩
      intro x hx hx2
      simp only [List.map_cons, List.map_nil, List.mem_singleton] at hx2
      exact hnf (hx2 ▸ hx)
    · rw [List.nodup_append]
      refine ⟨hfsnd, List.nodup_singleton _, ?_⟩
      intro x hx hx2
      rw [List.mem_singleton] at hx2
      exact hnfs (hx2 ▸ hx)
    · intro x
      rw [List.map_append, List.mem_append, List.mem_append]
      simp only [List.map_cons, List.map_nil]
      rw [hsync x]
    · intro x hx
      rw [List.map_append, List.mem_append] at hx
      rcases hx with h | h
      · exact hdisj x h
      · simp only [List.map_cons, List.map_nil, List.mem_singleton] at h
        exact h ▸ hne
  · rw [if_neg hguard]
    exact ⟨hv, hnd, hfsnd, hsync, hdisj⟩

theorem bfs_terminates {g : Graph} {start goal : String} {R : List String}
    (hin : ∀ kv ∈ g, (kv.2.map Prod.fst).Nodup)
    (hcl : ReachClosed g start)
    (hun : ∀ c, ¬ WalkTo g start goal c)
    (hR : R.Nodup) (hRmem : ∀ x, (∃ c, WalkTo g start x c) → x ∈ R) :
    ∃ r, breadth_first_search g start goal = some r ∧
      r.path = [] ∧ r.distance = 0 ∧ r.nodes_expanded ≤ R.length := by
  have hsg : ¬ (start == goal) = true := by
    simp only [beq_iff_eq]
    intro he
    exact hun 0 (he ▸ ⟨[start], rfl, rfl, rfl⟩)
  rw [breadth_first_search, if_neg hsg]
  refine loopRun_term (bfsStep g goal) (BfsTInv g start R)
    (fun r => r.path = [] ∧ r.distance = 0 ∧ r.nodes_expanded ≤ R.length)
    (fun st => measureLeft g start st.explored) ?_ (fuelFor g start) _ ?_ ?_
  · rintro st ⟨hval, hndf, hdisj, hexnd, hsubR, hne⟩
    cases hf : st.frontier with
    | nil =>
      refine Or.inl ⟨⟨"bfs", [], 0, st.ne, st.ng, st.mf, st.steps⟩, ?_, rfl, rfl, ?_⟩
      · simp [bfsStep, hf]
      · show st.ne ≤ R.length
        rw [hne]
        exact nodup_length_le hexnd hsubR hR
    | cons node rest =>
      have hnv : node.valid g start :=
        hval node (by rw [hf]; exact List.mem_cons_self _ _)
      have hgoal : node.state ≠ goal := fun he =>
        hun node.path_cost (he ▸ node.valid_walk hnv)
      obtain ⟨children, hx⟩ := Node.expand_isSome hcl hnv
      have hnotex : node.state ∉ st.explored :=
        hdisj node.state (by rw [hf]; simp)
      rw [hf] at hndf
      simp only [List.map_cons, List.nodup_cons] at hndf
      refine Or.inr ⟨⟨(children.foldl (bfsInsert (st.explored ++ [node.state]))
          (rest, st.ng)).1,
        st.explored ++ [node.state],
        st.steps ++ [⟨st.frontier.map Node.state, st.explored, some node.state, none⟩],
        st.ne + 1,
        (children.foldl (bfsInsert (st.explored ++ [node.state])) (rest, st.ng)).2,
        max st.mf st.frontier.length⟩, ?_, ?_, ?_⟩
      · simp only [bfsStep, hf, beq_iff_eq, if_neg hgoal, hx]
      · have hbase : (∀ n ∈ rest, n.valid g start) ∧ (rest.map Node.state).Nodup ∧
            (∀ x ∈ rest.map Node.state, x ∉ st.explored ++ [node.state]) := by
          refine ⟨?_, hndf.2, ?_⟩
          · intro n hn
            exact hval n (by rw [hf]; exact List.mem_cons_of_mem _ hn)
          · intro x hxm
            rw [List.mem_append]
            rintro (h | h)
            · refine hdisj x ?_ h
              rw [hf, List.map_cons]
              exact List.mem_cons_of_mem _ hxm
            · rw [List.mem_singleton] at h
              exact hndf.1 (h ▸ hxm)
        have hfold := bfsInsert_fold_tinv (Node.expand_valid hin hnv hx)
          (rest, st.ng) hbase
        refine ⟨hfold.1, hfold.2.1, hfold.2.2, ?_, ?_, ?_⟩
        · rw [List.nodup_append]
          refine ⟨hexnd, List.nodup_singleton _, ?_⟩
          intro x hx1 hx2
          rw [List.mem_singleton] at hx2
          exact hnotex (hx2 ▸ hx1)
        · intro x hxm
          rcases List.mem_append.mp hxm with h | h
          · exact hsubR x h
          · rw [List.mem_singleton] at h
            exact h ▸ hRmem node.state ⟨node.path_cost, node.valid_walk hnv⟩
        · show st.ne + 1 = (st.explored ++ [node.state]).length
          rw [List.length_append, List.length_singleton, hne]
      · show measureLeft g start (st.explored ++ [node.state]) <
          measureLeft g start st.explored
        exact measure_dec (valid_state_mem_allStates hnv) hnotex
  · exact ⟨fun n hn => by
      simp only [List.mem_singleton] at hn
      subst hn
      rfl, by simp, by simp, List.nodup_nil, by simp, rfl⟩
  · exact measure_lt_fuel g start []

theorem dfs_terminates {g : Graph} {start goal : String} {R : List String}
    (hin : ∀ kv ∈ g, (kv.2.map Prod.fst).Nodup)
    (hcl : ReachClosed g start)
    (hun : ∀ c, ¬ WalkTo g start goal c)
    (hR : R.Nodup) (hRmem : ∀ x, (∃ c, WalkTo g start x c) → x ∈ R) :
    ∃ r, depth_first_search g start goal = some r ∧
      r.path = [] ∧ r.distance = 0 ∧ r.nodes_expanded ≤ R.length := by
  have hsg : ¬ (start == goal) = true := by
    simp only [beq_iff_eq]
    intro he
    exact hun 0 (he ▸ ⟨[start], rfl, rfl, rfl⟩)
  rw [depth_first_search, if_neg hsg]
  refine loopRun_term (dfsStep g goal) (DfsTInv g start R)
    (fun r => r.path = [] ∧ r.distance = 0 ∧ r.nodes_expanded ≤ R.length)
    (fun st => measureLeft g start st.explored) ?_ (fuelFor g start) _ ?_ ?_
  · intro st hInv
    obtain ⟨hval, hndf, hfsnd, hsync, hdisj, hexnd, hsubR, hne⟩ := hInv
    cases hf : st.frontier.getLast? with
    | none =>
      refine Or.inl ⟨⟨"dfs", [], 0, st.ne, st.ng, st.mf, st.steps⟩, ?_, rfl, rfl, ?_⟩
      · simp [dfsStep, hf]
      · show st.ne ≤ R.length
        rw [hne]
        exact nodup_length_le hexnd hsubR hR
    | some node =>
      obtain ⟨hsplit, hnv, hnotex, hdlval, hdlnd, hersnd, hsync', hdisj'⟩ :=
        dfs_pop_base hf ⟨hval, hndf, hfsnd, hsync, hdisj, hexnd, hsubR, hne⟩
      have hgoal : node.state ≠ goal := fun he =>
        hun node.path_cost (he ▸ node.valid_walk hnv)
      obtain ⟨children, hx⟩ := Node.expand_isSome hcl hnv
      refine Or.inr ⟨⟨(children.reverse.foldl (dfsInsert (st.explored ++ [node.state]))
          (st.frontier.dropLast, st.fstates.erase node.state, st.ng)).1,
        (children.reverse.foldl (dfsInsert (st.explored ++ [node.state]))
          (st.frontier.dropLast, st.fstates.erase node.state, st.ng)).2.1,
        st.explored ++ [node.state],
        st.steps ++ [⟨st.frontier.map Node.state, st.explored, some node.state, none⟩],
        st.ne + 1,
        (children.reverse.foldl (dfsInsert (st.explored ++ [node.state]))
          (st.frontier.dropLast, st.fstates.erase node.state, st.ng)).2.2,
        max st.mf st.frontier.length⟩, ?_, ?_, ?_⟩
      · simp only [dfsStep, hf, beq_iff_eq, if_neg hgoal, hx]
      · have hcv : ∀ c ∈ children.reverse, c.valid g start := by
          intro c hc
          exact Node.expand_valid hin hnv hx c (List.mem_reverse.mp hc)
        have hfold := dfsInsert_fold_tinv hcv
          (st.frontier.dropLast, st.fstates.erase node.state, st.ng)
          ⟨hdlval, hdlnd, hersnd, hsync', hdisj'⟩
        refine ⟨hfold.1, hfold.2.1, hfold.2.2.1, hfold.2.2.2.1, hfold.2.2.2.2,
          ?_, ?_, ?_⟩
        · rw [List.nodup_append]
          refine ⟨hexnd, List.nodup_singleton _, ?_⟩
          intro x hx1 hx2
          rw [List.mem_singleton] at hx2
          exact hnotex (hx2 ▸ hx1)
        · intro x hxm
          rcases List.mem_append.mp hxm with h | h
          · exact hsubR x h
          · rw [List.mem_singleton] at h
            exact h ▸ hRmem node.state ⟨node.path_cost, node.valid_walk hnv⟩
        · show st.ne + 1 = (st.explored ++ [node.state]).length
          rw [List.length_append, List.length_singleton, hne]
      · show measureLeft g start (st.explored ++ [node.state]) <
          measureLeft g start st.explored
        exact measure_dec (valid_state_mem_allStates hnv) hnotex
  · refine ⟨fun n hn => by
      simp only [List.mem_singleton] at hn
      subst hn
      rfl, by simp, List.nodup_singleton _, ?_, by simp, List.nodup_nil, by simp, rfl⟩
    intro x
    simp [Node.state]
  · exact measure_lt_fuel g start []

theorem dls_terminates {g : Graph} {start goal : String} {depth_limit : Nat}
    {R : List String}
    (hin : ∀ kv ∈ g, (kv.2.map Prod.fst).Nodup)
    (hcl : ReachClosed g start)
    (hun : ∀ c, ¬ WalkTo g start goal c)
    (hR : R.Nodup) (hRmem : ∀ x, (∃ c, WalkTo g start x c) → x ∈ R) :
    ∃ r, depth_limited_search g start goal depth_limit = some r ∧
      r.path = [] ∧ r.distance = 0 ∧ r.nodes_expanded ≤ R.length := by
  have hsg : ¬ (start == goal) = true := by
    simp only [beq_iff_eq]
    intro he
    exact hun 0 (he ▸ ⟨[start], rfl, rfl, rfl⟩)
  rw [depth_limited_search, if_neg hsg]
  refine loopRun_term (dlsStep g goal depth_limit) (DfsTInv g start R)
    (fun r => r.path = [] ∧ r.distance = 0 ∧ r.nodes_expanded ≤ R.length)
    (fun st => measureLeft g start st.explored) ?_ (fuelFor g start) _ ?_ ?_
  · intro st hInv
    obtain ⟨hval, hndf, hfsnd, hsync, hdisj, hexnd, hsubR, hne⟩ := hInv
    cases hf : st.frontier.getLast? with
    | none =>
      refine Or.inl ⟨⟨"dls", [], 0, st.ne, st.ng, st.mf, st.steps⟩, ?_, rfl, rfl, ?_⟩
      · simp [dlsStep, hf]
      · show st.ne ≤ R.length
        rw [hne]
        exact nodup_length_le hexnd hsubR hR
    | some node =>
      obtain ⟨hsplit, hnv, hnotex, hdlval, hdlnd, hersnd, hsync', hdisj'⟩ :=
        dfs_pop_base hf ⟨hval, hndf, hfsnd, hsync, hdisj, hexnd, hsubR, hne⟩
      have hgoal : node.state ≠ goal := fun he =>
        hun node.path_cost (he ▸ node.valid_walk hnv)
      have hexplored : (st.explored ++ [node.state]).Nodup ∧
          (∀ x ∈ st.explored ++ [node.state], x ∈ R) ∧
          st.ne + 1 = (st.explored ++ [node.state]).length := by
        refine ⟨?_, ?_, ?_⟩
        · rw [List.nodup_append]
          refine ⟨hexnd, List.nodup_singleton _, ?_⟩
          intro x hx1 hx2
          rw [List.mem_singleton] at hx2
          exact hnotex (hx2 ▸ hx1)
        · intro x hxm
          rcases List.mem_append.mp hxm with h | h
          · exact hsubR x h
          · rw [List.mem_singleton] at h
            exact h ▸ hRmem node.state ⟨node.path_cost, node.valid_walk hnv⟩
        · rw [List.length_append, List.length_singleton, hne]
      by_cases hd : node.depth < depth_limit
      · obtain ⟨children, hx⟩ := Node.expand_isSome hcl hnv
        refine Or.inr ⟨⟨(children.reverse.foldl (dfsInsert (st.explored ++ [node.state]))
            (st.frontier.dropLast, st.fstates.erase node.state, st.ng)).1,
          (children.reverse.foldl (dfsInsert (st.explored ++ [node.state]))
            (st.frontier.dropLast, st.fstates.erase node.state, st.ng)).2.1,
          st.explored ++ [node.state],
          st.steps ++ [⟨st.frontier.map Node.state, st.explored, some node.state, none⟩],
          st.ne + 1,
          (children.reverse.foldl (dfsInsert (st.explored ++ [node.state]))
            (st.frontier.dropLast, st.fstates.erase node.state, st.ng)).2.2,
          max st.mf st.frontier.length⟩, ?_, ?_, ?_⟩
        · simp only [dlsStep, hf, beq_iff_eq, if_neg hgoal, if_pos hd, hx]
        · have hcv : ∀ c ∈ children.reverse, c.valid g start := by
            intro c hc
            exact Node.expand_valid hin hnv hx c (List.mem_reverse.mp hc)
          have hfold := dfsInsert_fold_tinv hcv
            (st.frontier.dropLast, st.fstates.erase node.state, st.ng)
            ⟨hdlval, hdlnd, hersnd, hsync', hdisj'⟩
          exact ⟨hfold.1, hfold.2.1, hfold.2.2.1, hfold.2.2.2.1, hfold.2.2.2.2,
            hexplored.1, hexplored.2.1, hexplored.2.2⟩
        · show measureLeft g start (st.explored ++ [node.state]) <
            measureLeft g start st.explored
          exact measure_dec (valid_state_mem_allStates hnv) hnotex
      · refine Or.inr ⟨⟨st.frontier.dropLast, st.fstates.erase node.state,
          st.explored ++ [node.state],
          st.steps ++ [⟨st.frontier.map Node.state, st.explored, some node.state, none⟩],
          st.ne + 1, st.ng, max st.mf st.frontier.length⟩, ?_, ?_, ?_⟩
        · simp only [dlsStep, hf, beq_iff_eq, if_neg hgoal, if_neg hd]
        · exact ⟨hdlval, hdlnd, hersnd, hsync', hdisj',
            hexplored.1, hexplored.2.1, hexplored.2.2⟩
        · show measureLeft g start (st.explored ++ [node.state]) <
            measureLeft g start st.explored
          exact measure_dec (valid_state_mem_allStates hnv) hnotex
  · refine ⟨fun n hn => by
      simp only [List.mem_singleton] at hn
      subst hn
      rfl, by simp, List.nodup_singleton _, ?_, by simp, List.nodup_nil, by simp, rfl⟩
    intro x
    simp [Node.state]
  · exact measure_lt_fuel g start []

theorem greedyInsert_fold_tinv {g : Graph} {start : String} (goal : String)
    (hdata : List (String × Nat)) {explored : List String}
    {children : List Node} (hcv : ∀ c ∈ children, c.valid g start)
    (fr : List (Nat × Node) × List String × Nat)
    (hfr : (∀ e ∈ fr.1, e.2.valid g start) ∧
      (fr.1.map (fun e => e.2.state)).Nodup ∧
      fr.2.1.Nodup ∧ (∀ x, x ∈ fr.2.1 ↔ x ∈ fr.1.map (fun e => e.2.state)) ∧
      (∀ x ∈ fr.1.map (fun e => e.2.state), x ∉ explored)) :
    (∀ e ∈ (children.foldl (greedyInsert goal hdata explored) fr).1,
      e.2.valid g start) ∧
    ((children.foldl (greedyInsert goal hdata explored) fr).1.map
      (fun e => e.2.state)).Nodup ∧
    (children.foldl (greedyInsert goal hdata explored) fr).2.1.Nodup ∧
    (∀ x, x ∈ (children.foldl (greedyInsert goal hdata explored) fr).2.1 ↔
      x ∈ (children.foldl (greedyInsert goal hdata explored) fr).1.map
        (fun e => e.2.state)) ∧
    (∀ x ∈ (children.foldl (greedyInsert goal hdata explored) fr).1.map
      (fun e => e.2.state), x ∉ explored) := by
  refine foldl_inv (greedyInsert goal hdata explored)
    (fun acc : List (Nat × Node) × List String × Nat =>
      (∀ e ∈ acc.1, e.2.valid g start) ∧
      (acc.1.map (fun e => e.2.state)).Nodup ∧
      acc.2.1.Nodup ∧ (∀ x, x ∈ acc.2.1 ↔ x ∈ acc.1.map (fun e => e.2.state)) ∧
      (∀ x ∈ acc.1.map (fun e => e.2.state), x ∉ explored))
    children fr hfr ?_
  rintro ⟨fr', fs', ng'⟩ a ha ⟨hv, hnd, hfsnd, hsync, hdisj⟩
  simp only at hv hnd hfsnd hsync hdisj
  simp only [greedyInsert]
  by_cases hguard : (!(explored.contains a.state) && !(fs'.contains a.state)) = true
  · rw [if_pos hguard]
    rw [Bool.and_eq_true, Bool.not_eq_true', Bool.not_eq_true'] at hguard
    have hne : a.state ∉ explored := contains_false_not_mem hguard.1
    have hnfs : a.state ∉ fs' := contains_false_not_mem hguard.2
    have hnf : a.state ∉ fr'.map (fun e => e.2.state) :=
      fun hm => hnfs ((hsync a.state).mpr hm)
    refine ⟨?_, ?_, ?_, ?_, ?_⟩
    · intro e he
      rcases List.mem_append.mp he with h | h
      · exact hv e h
      · rw [List.mem_singleton] at h
        rw [h]
        exact hcv a ha
    · rw [List.map_append, List.nodup_append]
      refine ⟨hnd, List.nodup_singleton _, ?_⟩
      intro y hy hy2
      simp only [List.map_cons, List.map_nil, List.mem_singleton] at hy2
      exact hnf (hy2 ▸ hy)
    · rw [List.nodup_append]
      refine ⟨hfsnd, List.nodup_singleton _, ?_⟩
      intro y hy hy2
      rw [List.mem_singleton] at hy2
      exact hnfs (hy2 ▸ hy)
    · intro y
      rw [List.map_append, List.mem_append, List.mem_append]
      simp only [List.map_cons, List.map_nil]
      rw [hsync y]
    · intro y hy
      rw [List.map_append, List.mem_append] at hy
      rcases hy with h | h
      · exact hdisj y h
      · simp only [List.map_cons, List.map_nil, List.mem_singleton] at h
        exact h ▸ hne
  · rw [if_neg hguard]
    exact ⟨hv, hnd, hfsnd, hsync, hdisj⟩

theorem ucs_terminates {g : Graph} {start goal : String} {R : List String}
    (hin : ∀ kv ∈ g, (kv.2.map Prod.fst).Nodup)
    (hcl : ReachClosed g start)
    (hun : ∀ c, ¬ WalkTo g start goal c)
    (hR : R.Nodup) (hRmem : ∀ x, (∃ c, WalkTo g start x c) → x ∈ R) :
    ∃ r, uniform_cost_search g start goal = some r ∧
      r.path = [] ∧ r.distance = 0 ∧ r.nodes_expanded ≤ R.length := by
  have hsg : ¬ (start == goal) = true := by
    simp only [beq_iff_eq]
    intro he
    exact hun 0 (he ▸ ⟨[start], rfl, rfl, rfl⟩)
  rw [uniform_cost_search, if_neg hsg]
  refine loopRun_term (ucsStep g goal) (UcsTInv g start R)
    (fun r => r.path = [] ∧ r.distance = 0 ∧ r.nodes_expanded ≤ R.length)
    (fun st => measureLeft g start st.explored) ?_ (fuelFor g start) _ ?_ ?_
  · intro st hInv
    obtain ⟨hval, hndf, hfsnd, hsync, hdisj, hexnd, hsubR, hne⟩ := hInv
    cases hf : st.frontier with
    | nil =>
      refine Or.inl ⟨⟨"ucs", [], 0, st.ne, st.ng, st.mf, st.steps⟩, ?_, rfl, rfl, ?_⟩
      · simp [ucsStep, hf]
      · show st.ne ≤ R.length
        rw [hne]
        exact nodup_length_le hexnd hsubR hR
    | cons x xs =>
      obtain ⟨hnv, hnotex, hrval, hrnd, hersnd, hsync', hdisj'⟩ :=
        ucs_pop_base hf hval hndf hfsnd hsync hdisj
      have hgoal : (popMin1 pairLt x xs).1.2.state ≠ goal := fun he =>
        hun (popMin1 pairLt x xs).1.2.path_cost (he ▸ Node.valid_walk hnv)
      obtain ⟨children, hx⟩ := Node.expand_isSome hcl hnv
      refine Or.inr ⟨⟨(children.foldl (ucsInsert
          (st.explored ++ [(popMin1 pairLt x xs).1.2.state]))
          ((popMin1 pairLt x xs).2,
           st.fstates.erase (popMin1 pairLt x xs).1.2.state, st.ng)).1,
        (children.foldl (ucsInsert
          (st.explored ++ [(popMin1 pairLt x xs).1.2.state]))
          ((popMin1 pairLt x xs).2,
           st.fstates.erase (popMin1 pairLt x xs).1.2.state, st.ng)).2.1,
        st.explored ++ [(popMin1 pairLt x xs).1.2.state],
        st.steps ++ [⟨st.frontier.map (fun e => e.2.state), st.explored,
          some (popMin1 pairLt x xs).1.2.state, none⟩],
        st.ne + 1,
        (children.foldl (ucsInsert
          (st.explored ++ [(popMin1 pairLt x xs).1.2.state]))
          ((popMin1 pairLt x xs).2,
           st.fstates.erase (popMin1 pairLt x xs).1.2.state, st.ng)).2.2,
        max st.mf st.frontier.length⟩, ?_, ?_, ?_⟩
      · simp only [ucsStep, hf, beq_iff_eq, if_neg hgoal, hx]
      · have hfold := ucsInsert_fold_tinv (Node.expand_valid hin hnv hx)
          ((popMin1 pairLt x xs).2,
           st.fstates.erase (popMin1 pairLt x xs).1.2.state, st.ng)
          ⟨hrval, hrnd, hersnd, hsync', hdisj'⟩
        refine ⟨hfold.1, hfold.2.1, hfold.2.2.1, hfold.2.2.2.1, hfold.2.2.2.2,
          ?_, ?_, ?_⟩
        · rw [List.nodup_append]
          refine ⟨hexnd, List.nodup_singleton _, ?_⟩
          intro y hy1 hy2
          rw [List.mem_singleton] at hy2
          exact hnotex (hy2 ▸ hy1)
        · intro y hym
          rcases List.mem_append.mp hym with h | h
          · exact hsubR y h
          · rw [List.mem_singleton] at h
            refine h ▸ hRmem _ ⟨(popMin1 pairLt x xs).1.2.path_cost,
              Node.valid_walk hnv⟩
        · show st.ne + 1 =
            (st.explored ++ [(popMin1 pairLt x xs).1.2.state]).length
          rw [List.length_append, List.length_singleton, hne]
      · show measureLeft g start
            (st.explored ++ [(popMin1 pairLt x xs).1.2.state]) <
          measureLeft g start st.explored
        exact measure_dec (valid_state_mem_allStates hnv) hnotex
  · refine ⟨fun e he => by
      simp only [List.mem_singleton] at he
      subst he
      rfl, by simp, List.nodup_singleton _, ?_, by simp, List.nodup_nil, by simp, rfl⟩
    intro y
    simp [Node.state]
  · exact measure_lt_fuel g start []

theorem greedy_terminates {g : Graph} {start goal : String}
    {hdata : List (String × Nat)} {R : List String}
    (hin : ∀ kv ∈ g, (kv.2.map Prod.fst).Nodup)
    (hcl : ReachClosed g start)
    (hun : ∀ c, ¬ WalkTo g start goal c)
    (hR : R.Nodup) (hRmem : ∀ x, (∃ c, WalkTo g start x c) → x ∈ R) :
    ∃ r, greedy_search g start goal hdata = some r ∧
      r.path = [] ∧ r.distance = 0 ∧ r.nodes_expanded ≤ R.length := by
  have hsg : ¬ (start == goal) = true := by
    simp only [beq_iff_eq]
    intro he
    exact hun 0 (he ▸ ⟨[start], rfl, rfl, rfl⟩)
  rw [greedy_search, if_neg hsg]
  refine loopRun_term (greedyStep g goal hdata) (UcsTInv g start R)
    (fun r => r.path = [] ∧ r.distance = 0 ∧ r.nodes_expanded ≤ R.length)
    (fun st => measureLeft g start st.explored) ?_ (fuelFor g start) _ ?_ ?_
  · intro st hInv
    obtain ⟨hval, hndf, hfsnd, hsync, hdisj, hexnd, hsubR, hne⟩ := hInv
    cases hf : st.frontier with
    | nil =>
      refine Or.inl ⟨⟨"greedy", [], 0, st.ne, st.ng, st.mf, st.steps⟩, ?_, rfl, rfl, ?_⟩
      · simp [greedyStep, hf]
      · show st.ne ≤ R.length
        rw [hne]
        exact nodup_length_le hexnd hsubR hR
    | cons x xs =>
      obtain ⟨hnv, hnotex, hrval, hrnd, hersnd, hsync', hdisj'⟩ :=
        ucs_pop_base hf hval hndf hfsnd hsync hdisj
      have hgoal : (popMin1 pairLt x xs).1.2.state ≠ goal := fun he =>
        hun (popMin1 pairLt x xs).1.2.path_cost (he ▸ Node.valid_walk hnv)
      obtain ⟨children, hx⟩ := Node.expand_isSome hcl hnv
      refine Or.inr ⟨⟨(children.foldl (greedyInsert goal hdata
          (st.explored ++ [(popMin1 pairLt x xs).1.2.state]))
          ((popMin1 pairLt x xs).2,
           st.fstates.erase (popMin1 pairLt x xs).1.2.state, st.ng)).1,
        (children.foldl (greedyInsert goal hdata
          (st.explored ++ [(popMin1 pairLt x xs).1.2.state]))
          ((popMin1 pairLt x xs).2,
           st.fstates.erase (popMin1 pairLt x xs).1.2.state, st.ng)).2.1,
        st.explored ++ [(popMin1 pairLt x xs).1.2.state],
        st.steps ++ [⟨st.frontier.map (fun e => e.2.state), st.explored,
          some (popMin1 pairLt x xs).1.2.state, none⟩],
        st.ne + 1,
        (children.foldl (greedyInsert goal hdata
          (st.explored ++ [(popMin1 pairLt x xs).1.2.state]))
          ((popMin1 pairLt x xs).2,
           st.fstates.erase (popMin1 pairLt x xs).1.2.state, st.ng)).2.2,
        max st.mf st.frontier.length⟩, ?_, ?_, ?_⟩
      · simp only [greedyStep, hf, beq_iff_eq, if_neg hgoal, hx]
      · have hfold := greedyInsert_fold_tinv goal hdata (Node.expand_valid hin hnv hx)
          ((popMin1 pairLt x xs).2,
           st.fstates.erase (popMin1 pairLt x xs).1.2.state, st.ng)
          ⟨hrval, hrnd, hersnd, hsync', hdisj'⟩
        refine ⟨hfold.1, hfold.2.1, hfold.2.2.1, hfold.2.2.2.1, hfold.2.2.2.2,
          ?_, ?_, ?_⟩
        · rw [List.nodup_append]
          refine ⟨hexnd, List.nodup_singleton _, ?_⟩
          intro y hy1 hy2
          rw [List.mem_singleton] at hy2
          exact hnotex (hy2 ▸ hy1)
        · intro y hym
          rcases List.mem_append.mp hym with h | h
          · exact hsubR y h
          · rw [List.mem_singleton] at h
            refine h ▸ hRmem _ ⟨(popMin1 pairLt x xs).1.2.path_cost,
              Node.valid_walk hnv⟩
        · show st.ne + 1 =
            (st.explored ++ [(popMin1 pairLt x xs).1.2.state]).length
          rw [List.length_append, List.length_singleton, hne]
      · show measureLeft g start
            (st.explored ++ [(popMin1 pairLt x xs).1.2.state]) <
          measureLeft g start st.explored
        exact measure_dec (valid_state_mem_allStates hnv) hnotex
  · refine ⟨fun e he => by
      simp only [List.mem_singleton] at he
      subst he
      rfl, by simp, List.nodup_singleton _, ?_, by simp, List.nodup_nil, by simp, rfl⟩
    intro y
    simp [Node.state]
  · exact measure_lt_fuel g start []

theorem astar_pop_base {g : Graph} {start : String} {st : AstarSt}
    {x : Nat × Nat × Node} {xs : List (Nat × Nat × Node)} (hf : st.frontier = x :: xs)
    (hval : ∀ e ∈ st.frontier, e.2.2.valid g start)
    (hndf : (st.frontier.map (fun e => e.2.2.state)).Nodup)
    (hfsnd : (st.fstates.map Prod.fst).Nodup)
    (hsync : ∀ x, x ∈ st.fstates.map Prod.fst ↔
      x ∈ st.frontier.map (fun e => e.2.2.state))
    (hdisj : ∀ x ∈ st.frontier.map (fun e => e.2.2.state), x ∉ st.explored) :
    (popMin1 tripLt x xs).1.2.2.valid g start ∧
    (popMin1 tripLt x xs).1.2.2.state ∉ st.explored ∧
    (∀ e ∈ (popMin1 tripLt x xs).2, e.2.2.valid g start) ∧
    ((popMin1 tripLt x xs).2.map (fun e => e.2.2.state)).Nodup ∧
    ((adel st.fstates (popMin1 tripLt x xs).1.2.2.state).map Prod.fst).Nodup ∧
    (∀ y, y ∈ (adel st.fstates (popMin1 tripLt x xs).1.2.2.state).map Prod.fst ↔
      y ∈ (popMin1 tripLt x xs).2.map (fun e => e.2.2.state)) ∧
    (∀ y ∈ (popMin1 tripLt x xs).2.map (fun e => e.2.2.state),
      y ∉ st.explored ++ [(popMin1 tripLt x xs).1.2.2.state]) := by
  have hperm := popMin1_perm tripLt x xs
  have hpermmap : List.Perm (st.frontier.map (fun e => e.2.2.state))
      ((popMin1 tripLt x xs).1.2.2.state ::
        (popMin1 tripLt x xs).2.map (fun e => e.2.2.state)) := by
    rw [hf]
    exact hperm.map (fun e => e.2.2.state)
  have hndx : ((popMin1 tripLt x xs).1.2.2.state ::
      (popMin1 tripLt x xs).2.map (fun e => e.2.2.state)).Nodup :=
    hpermmap.nodup_iff.mp hndf
  rw [List.nodup_cons] at hndx
  have hnode_mem : (popMin1 tripLt x xs).1.2.2.state ∈
      st.frontier.map (fun e => e.2.2.state) :=
    hpermmap.mem_iff.mpr (List.mem_cons_self _ _)
  refine ⟨?_, hdisj _ hnode_mem, ?_, hndx.2, ?_, ?_, ?_⟩
  · refine hval _ ?_
    rw [hf]
    exact (hperm.mem_iff).mpr (List.mem_cons_self _ _)
  · intro e he
    refine hval e ?_
    rw [hf]
    exact (hperm.mem_iff).mpr (List.mem_cons_of_mem _ he)
  · rw [keys_adel]
    exact hfsnd.erase _
  · intro y
    rw [keys_adel, hfsnd.mem_erase_iff, hsync y, hpermmap.mem_iff, List.mem_cons]
    constructor
    · rintro ⟨hy1, hy2 | hy2⟩
      · exact absurd hy2 hy1
      · exact hy2
    · intro hy
      exact ⟨fun he => hndx.1 (he ▸ hy), Or.inr hy⟩
  · intro y hym
    rw [List.mem_append, List.mem_singleton]
    rintro (h | h)
    · exact hdisj y (hpermmap.mem_iff.mpr (List.mem_cons_of_mem _ hym)) h
    · exact hndx.1 (h ▸ hym)

theorem astarInsert_fold_tinv {g : Graph} {start : String} (goal : String)
    (hdata : List (String × Nat)) {explored : List String}
    {children : List Node} (hcv : ∀ c ∈ children, c.valid g start)
    (fr : List (Nat × Nat × Node) × List (String × Nat) × Nat × Nat)
    (hfr : (∀ e ∈ fr.1, e.2.2.valid g start) ∧
      (fr.1.map (fun e => e.2.2.state)).Nodup ∧
      (fr.2.1.map Prod.fst).Nodup ∧
      (∀ x, x ∈ fr.2.1.map Prod.fst ↔ x ∈ fr.1.map (fun e => e.2.2.state)) ∧
      (∀ x ∈ fr.1.map (fun e => e.2.2.state), x ∉ explored)) :
    (∀ e ∈ (children.foldl (astarInsert goal hdata explored) fr).1,
      e.2.2.valid g start) ∧
    ((children.foldl (astarInsert goal hdata explored) fr).1.map
      (fun e => e.2.2.state)).Nodup ∧
    ((children.foldl (astarInsert goal hdata explored) fr).2.1.map Prod.fst).Nodup ∧
    (∀ x, x ∈ (children.foldl (astarInsert goal hdata explored) fr).2.1.map
        Prod.fst ↔
      x ∈ (children.foldl (astarInsert goal hdata explored) fr).1.map
        (fun e => e.2.2.state)) ∧
    (∀ x ∈ (children.foldl (astarInsert goal hdata explored) fr).1.map
      (fun e => e.2.2.state), x ∉ explored) := by
  refine foldl_inv (astarInsert goal hdata explored)
    (fun acc : List (Nat × Nat × Node) × List (String × Nat) × Nat × Nat =>
      (∀ e ∈ acc.1, e.2.2.valid g start) ∧
      (acc.1.map (fun e => e.2.2.state)).Nodup ∧
      (acc.2.1.map Prod.fst).Nodup ∧
      (∀ x, x ∈ acc.2.1.map Prod.fst ↔ x ∈ acc.1.map (fun e => e.2.2.state)) ∧
      (∀ x ∈ acc.1.map (fun e => e.2.2.state), x ∉ explored))
    children fr hfr ?_
  rintro ⟨fr', fs', ng', ctr'⟩ a ha ⟨hv, hnd, hfsnd, hsync, hdisj⟩
  simp only at hv hnd hfsnd hsync hdisj
  simp only [astarInsert]
  by_cases hguard : (!(explored.contains a.state)) = true
  · rw [if_pos hguard]
    rw [Bool.not_eq_true'] at hguard
    have hne : a.state ∉ explored := contains_false_not_mem hguard
    cases halk : alookup fs' a.state with
    | none =>
      have hnk : a.state ∉ fs'.map Prod.fst := by
        intro hm
        obtain ⟨v, hv'⟩ := alookup_isSome_of_mem_keys hm
        rw [halk] at hv'
        cases hv'
      have hnf : a.state ∉ fr'.map (fun e => e.2.2.state) :=
        fun hm => hnk ((hsync a.state).mpr hm)
      refine ⟨?_, ?_, ?_, ?_, ?_⟩
      · intro e he
        rcases List.mem_append.mp he with h | h
        · exact hv e h
        · rw [List.mem_singleton] at h
          rw [h]
          exact hcv a ha
      · rw [List.map_append, List.nodup_append]
        refine ⟨hnd, List.nodup_singleton _, ?_⟩
        intro y hy hy2
        simp only [List.map_cons, List.map_nil, List.mem_singleton] at hy2
        exact hnf (hy2 ▸ hy)
      · rw [keys_aset_of_not_mem _ _ _ hnk, List.nodup_append]
        refine ⟨hfsnd, List.nodup_singleton _, ?_⟩
        intro y hy hy2
        rw [List.mem_singleton] at hy2
        exact hnk (hy2 ▸ hy)
      · intro y
        rw [keys_aset_of_not_mem _ _ _ hnk, List.map_append, List.mem_append,
          List.mem_append]
        simp only [List.map_cons, List.map_nil]
        rw [hsync y]
      · intro y hy
        rw [List.map_append, List.mem_append] at hy
        rcases hy with h | h
        · exact hdisj y h
        · simp only [List.map_cons, List.map_nil, List.mem_singleton] at h
          exact h ▸ hne
    | some gOld =>
      have hk : a.state ∈ fs'.map Prod.fst := alookup_mem_keys halk
      dsimp only
      by_cases hlt : a.path_cost < gOld
      · rw [if_pos hlt]
        refine ⟨astarReplace_valid (hcv a ha) hv, ?_, ?_, ?_, ?_⟩
        · rw [astarReplace_states]
          exact hnd
        · rw [keys_aset_of_mem _ _ _ hk]
          exact hfsnd
        · intro y
          rw [keys_aset_of_mem _ _ _ hk, astarReplace_states]
          exact hsync y
        · intro y hy
          rw [astarReplace_states] at hy
          exact hdisj y hy
      · rw [if_neg hlt]
        exact ⟨hv, hnd, hfsnd, hsync, hdisj⟩
  · rw [if_neg hguard]
    exact ⟨hv, hnd, hfsnd, hsync, hdisj⟩

theorem astar_terminates {g : Graph} {start goal : String}
    {hdata : List (String × Nat)} {R : List String}
    (hin : ∀ kv ∈ g, (kv.2.map Prod.fst).Nodup)
    (hcl : ReachClosed g start)
    (hun : ∀ c, ¬ WalkTo g start goal c)
    (hR : R.Nodup) (hRmem : ∀ x, (∃ c, WalkTo g start x c) → x ∈ R) :
    ∃ r, a_star_search g start goal hdata = some r ∧
      r.path = [] ∧ r.distance = 0 ∧ r.nodes_expanded ≤ R.length := by
  have hsg : ¬ (start == goal) = true := by
    simp only [beq_iff_eq]
    intro he
    exact hun 0 (he ▸ ⟨[start], rfl, rfl, rfl⟩)
  rw [a_star_search, if_neg hsg]
  refine loopRun_term (astarStep g goal hdata) (AstarTInv g start R)
    (fun r => r.path = [] ∧ r.distance = 0 ∧ r.nodes_expanded ≤ R.length)
    (fun st => measureLeft g start st.explored) ?_ (fuelFor g start) _ ?_ ?_
  · intro st hInv
    obtain ⟨hval, hndf, hfsnd, hsync, hdisj, hexnd, hsubR, hne⟩ := hInv
    cases hf : st.frontier with
    | nil =>
      refine Or.inl ⟨⟨"astar", [], 0, st.ne, st.ng, st.mf, st.steps⟩, ?_, rfl, rfl, ?_⟩
      · simp [astarStep, hf]
      · show st.ne ≤ R.length
        rw [hne]
        exact nodup_length_le hexnd hsubR hR
    | cons x xs =>
      obtain ⟨hnv, hnotex, hrval, hrnd, hersnd, hsync', hdisj'⟩ :=
        astar_pop_base hf hval hndf hfsnd hsync hdisj
      have hgoal : (popMin1 tripLt x xs).1.2.2.state ≠ goal := fun he =>
        hun (popMin1 tripLt x xs).1.2.2.path_cost (he ▸ Node.valid_walk hnv)
      obtain ⟨children, hx⟩ := Node.expand_isSome hcl hnv
      refine Or.inr ⟨⟨(children.foldl (astarInsert goal hdata
          (st.explored ++ [(popMin1 tripLt x xs).1.2.2.state]))
          ((popMin1 tripLt x xs).2,
           adel st.fstates (popMin1 tripLt x xs).1.2.2.state, st.ng, st.ctr)).1,
        (children.foldl (astarInsert goal hdata
          (st.explored ++ [(popMin1 tripLt x xs).1.2.2.state]))
          ((popMin1 tripLt x xs).2,
           adel st.fstates (popMin1 tripLt x xs).1.2.2.state, st.ng, st.ctr)).2.1,
        st.explored ++ [(popMin1 tripLt x xs).1.2.2.state],
        st.steps ++ [⟨st.frontier.map (fun e => e.2.2.state), st.explored,
          some (popMin1 tripLt x xs).1.2.2.state, none⟩],
        st.ne + 1,
        (children.foldl (astarInsert goal hdata
          (st.explored ++ [(popMin1 tripLt x xs).1.2.2.state]))
          ((popMin1 tripLt x xs).2,
           adel st.fstates (popMin1 tripLt x xs).1.2.2.state, st.ng, st.ctr)).2.2.1,
        max st.mf st.frontier.length,
        (children.foldl (astarInsert goal hdata
          (st.explored ++ [(popMin1 tripLt x xs).1.2.2.state]))
          ((popMin1 tripLt x xs).2,
           adel st.fstates (popMin1 tripLt x xs).1.2.2.state, st.ng,
           st.ctr)).2.2.2⟩, ?_, ?_, ?_⟩
      · simp only [astarStep, hf, beq_iff_eq, if_neg hgoal, hx]
      · have hfold := astarInsert_fold_tinv goal hdata (Node.expand_valid hin hnv hx)
          ((popMin1 tripLt x xs).2,
           adel st.fstates (popMin1 tripLt x xs).1.2.2.state, st.ng, st.ctr)
          ⟨hrval, hrnd, hersnd, hsync', hdisj'⟩
        refine ⟨hfold.1, hfold.2.1, hfold.2.2.1, hfold.2.2.2.1, hfold.2.2.2.2,
          ?_, ?_, ?_⟩
        · rw [List.nodup_append]
          refine ⟨hexnd, List.nodup_singleton _, ?_⟩
          intro y hy1 hy2
          rw [List.mem_singleton] at hy2
          exact hnotex (hy2 ▸ hy1)
        · intro y hym
          rcases List.mem_append.mp hym with h | h
          · exact hsubR y h
          · rw [List.mem_singleton] at h
            refine h ▸ hRmem _ ⟨(popMin1 tripLt x xs).1.2.2.path_cost,
              Node.valid_walk hnv⟩
        · show st.ne + 1 =
            (st.explored ++ [(popMin1 tripLt x xs).1.2.2.state]).length
          rw [List.length_append, List.length_singleton, hne]
      · show measureLeft g start
            (st.explored ++ [(popMin1 tripLt x xs).1.2.2.state]) <
          measureLeft g start st.explored
        exact measure_dec (valid_state_mem_allStates hnv) hnotex
  · refine ⟨fun e he => by
      simp only [List.mem_singleton] at he
      subst he
      rfl, by simp, by simp, ?_, by simp, List.nodup_nil, by simp, rfl⟩
    intro y
    simp [Node.state]
  · exact measure_lt_fuel g start []

theorem ids_terminates {g : Graph} {start goal : String} {max_depth : Nat}
    {R : List String}
    (hin : ∀ kv ∈ g, (kv.2.map Prod.fst).Nodup)
    (hcl : ReachClosed g start)
    (hun : ∀ c, ¬ WalkTo g start goal c)
    (hR : R.Nodup) (hRmem : ∀ x, (∃ c, WalkTo g start x c) → x ∈ R) :
    ∃ r, iterative_deepening_search g start goal max_depth = some r ∧
      r.path = [] ∧ r.distance = 0 ∧ r.nodes_expanded ≤ max_depth * R.length := by
  have hsg : ¬ (start == goal) = true := by
    simp only [beq_iff_eq]
    intro he
    exact hun 0 (he ▸ ⟨[start], rfl, rfl, rfl⟩)
  rw [iterative_deepening_search, if_neg hsg]
  refine loopRun_term (idsStep g start goal)
    (fun st => st.tne + st.depths.length * R.length ≤ max_depth * R.length)
    (fun r => r.path = [] ∧ r.distance = 0 ∧ r.nodes_expanded ≤ max_depth * R.length)
    (fun st => st.depths.length) ?_ (max_depth + 1) _ ?_ ?_
  · intro st hInv
    cases hdep : st.depths with
    | nil =>
      refine Or.inl ⟨⟨"ids", [], 0, st.tne, st.tng, st.tmf, st.all_steps⟩,
        ?_, rfl, rfl, ?_⟩
      · simp [idsStep, hdep]
      · show st.tne ≤ max_depth * R.length
        rw [hdep] at hInv
        simpa using hInv
    | cons depth rest =>
      obtain ⟨r, hdls, hp, hd0, hnr⟩ :=
        @dls_terminates g start goal depth R hin hcl hun hR hRmem
      refine Or.inr ⟨⟨rest, st.tne + r.nodes_expanded, st.tng + r.nodes_generated,
        max st.tmf r.max_frontier_size,
        st.all_steps ++ r.steps.map (fun sp => { sp with depth_limit := some depth })⟩,
        ?_, ?_, ?_⟩
      · simp only [idsStep, hdep, hdls, hp, List.isEmpty_nil, if_true]
      · show st.tne + r.nodes_expanded + rest.length * R.length ≤
          max_depth * R.length
        rw [hdep] at hInv
        simp only [List.length_cons] at hInv
        have h1 : st.tne + r.nodes_expanded + rest.length * R.length ≤
            st.tne + R.length + rest.length * R.length :=
          Nat.add_le_add_right (Nat.add_le_add_left hnr _) _
        have h2 : st.tne + R.length + rest.length * R.length =
            st.tne + (rest.length + 1) * R.length := by
          rw [Nat.succ_mul]
          ring
        exact le_trans (le_of_le_of_eq h1 h2) hInv
      · show rest.length < st.depths.length
        rw [hdep]
        simp
  · show 0 + (List.range max_depth).length * R.length ≤ max_depth * R.length
    simp [List.length_range]
  · show (List.range max_depth).length < max_depth + 1
    simp [List.length_range]

theorem biInsert_fold_tinv {g : Graph} {start : String} (expl : List (String × Node))
    {children : List Node} (hcv : ∀ c ∈ children, c.valid g start)
    (fr : List Node × Nat)
    (hfr : (∀ n ∈ fr.1, n.valid g start) ∧ (fr.1.map Node.state).Nodup ∧
      (∀ x ∈ fr.1.map Node.state, x ∉ expl.map Prod.fst)) :
    (∀ n ∈ (children.foldl (biInsert expl) fr).1, n.valid g start) ∧
    ((children.foldl (biInsert expl) fr).1.map Node.state).Nodup ∧
    (∀ x ∈ (children.foldl (biInsert expl) fr).1.map Node.state,
      x ∉ expl.map Prod.fst) := by
  refine foldl_inv (biInsert expl)
    (fun acc : List Node × Nat =>
      (∀ n ∈ acc.1, n.valid g start) ∧ (acc.1.map Node.state).Nodup ∧
      (∀ x ∈ acc.1.map Node.state, x ∉ expl.map Prod.fst))
    children fr hfr ?_
  rintro ⟨fr', ng'⟩ a ha ⟨hv, hnd, hdisj⟩
  simp only at hv hnd hdisj
  simp only [biInsert]
  by_cases hguard : (!((expl.map Prod.fst).contains a.state) &&
      !((fr'.map Node.state).contains a.state)) = true
  · rw [if_pos hguard]
    rw [Bool.and_eq_true, Bool.not_eq_true', Bool.not_eq_true'] at hguard
    have hne : a.state ∉ expl.map Prod.fst := contains_false_not_mem hguard.1
    have hnf : a.state ∉ fr'.map Node.state := contains_false_not_mem hguard.2
    refine ⟨?_, ?_, ?_⟩
    · intro n hn
      rcases List.mem_append.mp hn with h | h
      · exact hv n h
      · exact (List.mem_singleton.mp h) ▸ hcv a ha
    · rw [List.map_append, List.nodup_append]
      refine ⟨hnd, List.nodup_singleton _, ?_⟩
      intro x hx hx2
      simp only [List.map_cons, List.map_nil, List.mem_singleton] at hx2
      exact hnf (hx2 ▸ hx)
    · intro x hx
      rw [List.map_append, List.mem_append] at hx
      rcases hx with h | h
      · exact hdisj x h
      · simp only [List.map_cons, List.map_nil, List.mem_singleton] at h
        exact h ▸ hne
  · rw [if_neg hguard]
    exact ⟨hv, hnd, hdisj⟩

theorem biInsert_fold_pred (Q : Node → Prop) (expl : List (String × Node))
    {children : List Node} (hc : ∀ c ∈ children, Q c)
    (fr : List Node × Nat) (hfr : ∀ n ∈ fr.1, Q n) :
    ∀ n ∈ (children.foldl (biInsert expl) fr).1, Q n := by
  refine foldl_inv (biInsert expl) (fun acc : List Node × Nat => ∀ n ∈ acc.1, Q n)
    children fr hfr ?_
  rintro ⟨fr', ng'⟩ a ha h
  simp only at h
  simp only [biInsert]
  by_cases hb : (!((expl.map Prod.fst).contains a.state) &&
      !((fr'.map Node.state).contains a.state)) = true
  · rw [if_pos hb]
    intro n hn
    rcases List.mem_append.mp hn with hh | hh
    · exact h n hh
    · exact (List.mem_singleton.mp hh) ▸ hc a ha
  · rw [if_neg hb]
    exact h

theorem bidi_terminates {g : Graph} {start goal : String} {R : List String}
    (hwf : WFGraph g) (hfc : FullClosed g)
    (hs : (alookup g start).isSome = true) (hg : (alookup g goal).isSome = true)
    (hun : ∀ c, ¬ WalkTo g start goal c)
    (hR : R.Nodup) (hRmem : ∀ x, (∃ c, WalkTo g start x c) → x ∈ R) :
    ∃ r, bidirectional_search g start goal = some r ∧
      r.path = [] ∧ r.distance = 0 ∧ r.nodes_expanded ≤ 2 * R.length := by
  have hcl : ReachClosed g start := reachClosed_of_fullClosed hfc hs
  obtain ⟨rg, hrg, hkeys⟩ := reverseGraph_total hfc
  have hrev := reverseGraph_edge hwf hrg
  have hrgwf := reverseGraph_wf hwf hrg
  have hsg : ¬ (start == goal) = true := by
    simp only [beq_iff_eq]
    intro he
    exact hun 0 (he ▸ ⟨[start], rfl, rfl, rfl⟩)
  have hterm := loopRun_term (biStep g rg) (BiTInv g rg start goal)
    (fun pr : BiResult × Option (String × Node × Node) =>
      pr.1.path = [] ∧ pr.1.distance = 0 ∧ pr.1.nodes_expanded ≤ 2 * R.length)
    (fun st => measureLeft g start (st.fe.map Prod.fst)) ?_ (fuelFor g start)
    ⟨[Node.root start], [Node.root goal], [], [], [], 0, 2, 2⟩ ?_ ?_
  · obtain ⟨pr, hrun, hp⟩ := hterm
    refine ⟨pr.1, ?_, hp.1, hp.2.1, hp.2.2⟩
    rw [bidirectional_search, bidirectional_core, if_neg hsg, hrg]
    dsimp only
    rw [hrun]
    rfl
  · intro st hInv
    obtain ⟨hffv, hffnd, hffdisj, hfend, hfereach, hbe, hbf, hne⟩ := hInv
    have hbound : st.ne ≤ 2 * R.length := by
      rw [hne]
      refine Nat.mul_le_mul (le_refl 2) ?_
      exact nodup_length_le hfend (fun x hx => hRmem x (hfereach x hx)) hR
    cases hff : st.ff with
    | nil =>
      refine Or.inl ⟨(⟨"bidirectional", [], 0, st.ne, st.ng, st.mf, st.steps⟩, none),
        ?_, rfl, rfl, hbound⟩
      simp [biStep, hff]
    | cons fnode frest =>
      cases hbff : st.bf with
      | nil =>
        refine Or.inl ⟨(⟨"bidirectional", [], 0, st.ne, st.ng, st.mf, st.steps⟩, none),
          ?_, rfl, rfl, hbound⟩
        simp [biStep, hff, hbff]
      | cons bnode brest =>
        have hfv : fnode.valid g start :=
          hffv fnode (by rw [hff]; exact List.mem_cons_self _ _)
        have hfne : fnode.state ∉ st.fe.map Prod.fst :=
          hffdisj fnode.state (by rw [hff]; simp)
        have hbmem : bnode ∈ st.bf := by
          rw [hbff]
          exact List.mem_cons_self _ _
        have hbv := (hbf bnode hbmem).1
        have hbk := (hbf bnode hbmem).2
        rw [hff] at hffnd
        simp only [List.map_cons, List.nodup_cons] at hffnd
        have hmet : alookup st.be fnode.state = none := by
          cases hm : alookup st.be fnode.state with
          | none => rfl
          | some bmet =>
            obtain ⟨c, hwk⟩ := hbe (fnode.state, bmet) (alookup_mem hm)
            exact absurd (walk_trans (Node.valid_walk hfv) hwk) (hun _)
        have hmet2 : alookup (aset st.fe fnode.state fnode) bnode.state = none := by
          cases hm : alookup (aset st.fe fnode.state fnode) bnode.state with
          | none => rfl
          | some fmet =>
            have hw1 : ∃ c, WalkTo g start bnode.state c := by
              by_cases hbs : bnode.state = fnode.state
              · exact ⟨fnode.path_cost, hbs ▸ Node.valid_walk hfv⟩
              · rw [alookup_aset_ne _ _ _ _ hbs] at hm
                exact hfereach bnode.state (alookup_mem_keys hm)
            obtain ⟨c1, hw1⟩ := hw1
            have hw2 : WalkTo g bnode.state goal bnode.path_cost :=
              walkTo_reverse hrev (Node.valid_walk hbv)
            exact absurd (walk_trans hw1 hw2) (hun _)
        obtain ⟨fchildren, hfx⟩ := Node.expand_isSome hcl hfv
        obtain ⟨badj, hbadj⟩ := Option.isSome_iff_exists.mp hbk
        have hbx : bnode.expand rg = some (badj.map (fun vw =>
            Node.child vw.1 bnode (bnode.state ++ " to " ++ vw.1)
              (bnode.path_cost + vw.2) (bnode.depth + 1))) := by
          simp [Node.expand, hbadj]
        have hfekeys : (aset st.fe fnode.state fnode).map Prod.fst =
            st.fe.map Prod.fst ++ [fnode.state] :=
          keys_aset_of_not_mem _ _ _ hfne
        refine Or.inr ⟨⟨(fchildren.foldl (biInsert (aset st.fe fnode.state fnode))
            (frest, st.ng)).1,
          ((badj.map (fun vw => Node.child vw.1 bnode (bnode.state ++ " to " ++ vw.1)
            (bnode.path_cost + vw.2) (bnode.depth + 1))).foldl
            (biInsert (aset st.be bnode.state bnode))
            (brest, (fchildren.foldl (biInsert (aset st.fe fnode.state fnode))
              (frest, st.ng)).2)).1,
          aset st.fe fnode.state fnode,
          aset st.be bnode.state bnode,
          st.steps ++ [⟨st.ff.map Node.state, st.bf.map Node.state,
            st.fe.map Prod.fst, st.be.map Prod.fst,
            some fnode.state, some bnode.state⟩],
          st.ne + 1 + 1,
          ((badj.map (fun vw => Node.child vw.1 bnode (bnode.state ++ " to " ++ vw.1)
            (bnode.path_cost + vw.2) (bnode.depth + 1))).foldl
            (biInsert (aset st.be bnode.state bnode))
            (brest, (fchildren.foldl (biInsert (aset st.fe fnode.state fnode))
              (frest, st.ng)).2)).2,
          max st.mf (st.ff.length + st.bf.length)⟩, ?_, ?_, ?_⟩
        · simp only [biStep, hff, hbff, hmet, hfx, hmet2, hbx]
        · have hffold := biInsert_fold_tinv (aset st.fe fnode.state fnode)
            (Node.expand_valid hwf.2 hfv hfx) (frest, st.ng) ?_
          rotate_left
          · refine ⟨?_, hffnd.2, ?_⟩
            · intro n hn
              exact hffv n (by rw [hff]; exact List.mem_cons_of_mem _ hn)
            · intro x hxm
              rw [hfekeys, List.mem_append, List.mem_singleton]
              rintro (h | h)
              · refine hffdisj x ?_ h
                rw [hff, List.map_cons]
                exact List.mem_cons_of_mem _ hxm
              · exact hffnd.1 (h ▸ hxm)
          refine ⟨hffold.1, hffold.2.1, hffold.2.2, ?_, ?_, ?_, ?_, ?_⟩
          · exact aset_nodup_keys hfend
          · intro x hxm
            rw [hfekeys, List.mem_append, List.mem_singleton] at hxm
            rcases hxm with h | h
            · exact hfereach x h
            · exact h ▸ ⟨fnode.path_cost, Node.valid_walk hfv⟩
          · intro p hp
            rcases mem_aset p hp with h | h
            · exact hbe p h
            · rw [h]
              exact ⟨bnode.path_cost, walkTo_reverse hrev (Node.valid_walk hbv)⟩
          · refine biInsert_fold_pred
              (fun n => n.valid rg goal ∧ (alookup rg n.state).isSome = true) _
              ?_ _ ?_
            · intro c hc
              refine ⟨Node.expand_valid hrgwf.2 hbv hbx c hc, ?_⟩
              obtain ⟨adj, vw, hadj, hvw, rfl⟩ := Node.expand_mem hbx c hc
              have hedge : edgeOf rg bnode.state vw.1 = some vw.2 := by
                simp only [edgeOf, hadj, Option.some_bind]
                exact alookup_of_mem_nodup (hrgwf.2 _ (alookup_mem hadj)) hvw
              have hgedge := hrev _ _ _ hedge
              show (alookup rg vw.1).isSome = true
              rw [hkeys]
              exact edgeOf_isSome_left hgedge
            · intro n hn
              exact hbf n (by rw [hbff]; exact List.mem_cons_of_mem _ hn)
          · show st.ne + 1 + 1 =
              2 * ((aset st.fe fnode.state fnode).map Prod.fst).length
            rw [hfekeys, List.length_append, List.length_singleton, hne]
            ring
        · show measureLeft g start ((aset st.fe fnode.state fnode).map Prod.fst) <
            measureLeft g start (st.fe.map Prod.fst)
          rw [hfekeys]
          exact measure_dec (valid_state_mem_allStates hfv) hfne
  · refine ⟨fun n hn => by
      simp only [List.mem_singleton] at hn
      subst hn
      rfl, by simp, by simp, List.nodup_nil, by simp, by simp, ?_, rfl⟩
    intro n hn
    simp only [List.mem_singleton] at hn
    subst hn
    refine ⟨rfl, ?_⟩
    show (alookup rg goal).isSome = true
    rw [hkeys]
    exact hg
  · simpa using measure_lt_fuel g start []

/-! ### Optimality of uniform_cost_search and a_star_search (for C1) -/

theorem dijUcs_cover {g : Graph} {start goal : String} {st : UcsSt}
    (hInv : DijUcs g start goal st) :
    ∀ t c, t ∉ st.explored → WalkTo g start t c →
      ∃ e ∈ st.frontier, e.1 ≤ c := by
  obtain ⟨hkey, hnd, hfsnd, hsync, hdisj, hgne, hstart, hexp⟩ := hInv
  intro t c ht hw
  obtain ⟨l, hwl, hh, hl⟩ := hw
  have hexp' : ∀ u ∈ st.explored, ∃ du,
      (∀ cu, WalkTo g start u cu → du ≤ cu) ∧
      ∀ v w, edgeOf g u v = some w → v ∈ st.explored ∨
        ∃ k, (∃ e ∈ st.frontier, e.2.state = v ∧ e.1 = k) ∧ k ≤ du + w := by
    intro u hu
    obtain ⟨du, hsd, hrel⟩ := hexp u hu
    refine ⟨du, hsd.2, ?_⟩
    intro v w hevw
    rcases hrel v w hevw with h | ⟨e, he, hst, hle⟩
    · exact Or.inl h
    · exact Or.inr ⟨e.1, ⟨e, he, hst, rfl⟩, hle⟩
  have hs' : start ∈ st.explored ∨
      ∃ k, (∃ e ∈ st.frontier, e.2.state = start ∧ e.1 = k) ∧ k ≤ 0 := by
    rcases hstart with h | ⟨e, he, hst, hle⟩
    · exact Or.inl h
    · exact Or.inr ⟨e.1, ⟨e, he, hst, rfl⟩, hle⟩
  have hcov := walk_cover
    (fun z k => ∃ e ∈ st.frontier, e.2.state = z ∧ e.1 = k)
    hexp' l start c t 0 hwl hh hl ht ⟨[start], rfl, rfl, rfl⟩ hs'
  obtain ⟨z, k, c2, ⟨e, he, hez, hek⟩, hwz, hb⟩ := hcov
  exact ⟨e, he, by omega⟩

theorem ucs_pop_bound {g : Graph} {start goal : String} {st : UcsSt}
    {x : Nat × Node} {xs : List (Nat × Node)} (hf : st.frontier = x :: xs)
    (hInv : DijUcs g start goal st) :
    ∀ t c, t ∉ st.explored → WalkTo g start t c →
      (popMin1 pairLt x xs).1.1 ≤ c := by
  intro t c ht hw
  obtain ⟨e, he, hle⟩ := dijUcs_cover hInv t c ht hw
  have hmin := popMin1_le Prod.fst pairLt pairLt_true_le pairLt_false_le x xs e
    (hf ▸ he)
  omega

theorem ucs_optimal {g : Graph} {start goal : String}
    (hwf : WFGraph g) (hcl : ReachClosed g start)
    (hreach : ∃ c0, WalkTo g start goal c0) :
    ∃ r, uniform_cost_search g start goal = some r ∧
      ShortestDist g start goal r.distance := by
  by_cases hsg : start = goal
  · subst hsg
    rw [uniform_cost_search, if_pos (by simp)]
    refine ⟨_, rfl, ?_⟩
    show ShortestDist g start start 0
    exact ⟨⟨[start], rfl, rfl, rfl⟩, fun c _ => Nat.zero_le c⟩
  · rw [uniform_cost_search, if_neg (by simpa using hsg)]
    refine loopRun_term (ucsStep g goal) (DijUcs g start goal)
      (fun r => ShortestDist g start goal r.distance)
      (fun st => measureLeft g start st.explored) ?_ (fuelFor g start) _ ?_ ?_
    · intro st hInv
      have hkey := hInv.1
      have hnd := hInv.2.1
      have hfsnd := hInv.2.2.1
      have hsync := hInv.2.2.2.1
      have hdisj := hInv.2.2.2.2.1
      have hgne := hInv.2.2.2.2.2.1
      have hstart := hInv.2.2.2.2.2.2.1
      have hexp := hInv.2.2.2.2.2.2.2
      cases hf : st.frontier with
      | nil =>
        exfalso
        obtain ⟨c0, hwg⟩ := hreach
        obtain ⟨e, he, _⟩ := dijUcs_cover hInv goal c0 hgne hwg
        rw [hf] at he
        cases he
      | cons x xs =>
        have hvalall : ∀ e ∈ st.frontier, e.2.valid g start :=
          fun e he => (hkey e he).2
        obtain ⟨hnv, hnotex, hrval, hrnd, hersnd, hsync', hdisj'⟩ :=
          ucs_pop_base hf hvalall hnd hfsnd hsync hdisj
        have hpopmem : (popMin1 pairLt x xs).1 ∈ st.frontier := by
          rw [hf]
          exact popMin1_mem pairLt x xs
        have hkeypop : (popMin1 pairLt x xs).1.1 =
            (popMin1 pairLt x xs).1.2.path_cost := (hkey _ hpopmem).1
        have hshort : ShortestDist g start (popMin1 pairLt x xs).1.2.state
            (popMin1 pairLt x xs).1.2.path_cost := by
          refine ⟨Node.valid_walk hnv, ?_⟩
          intro cu hwu
          have hb := ucs_pop_bound hf hInv _ cu hnotex hwu
          omega
        have hsurv : ∀ e1 ∈ st.frontier,
            e1.2.state ≠ (popMin1 pairLt x xs).1.2.state →
            e1 ∈ (popMin1 pairLt x xs).2 := by
          intro e1 he1 hne
          have hmem : e1 ∈ (popMin1 pairLt x xs).1 :: (popMin1 pairLt x xs).2 :=
            (popMin1_perm pairLt x xs).mem_iff.mp (hf ▸ he1)
          rcases List.mem_cons.mp hmem with h | h
          · exact absurd (congrArg (fun e : Nat × Node => e.2.state) h) hne
          · exact h
        by_cases hgoal : (popMin1 pairLt x xs).1.2.state = goal
        · refine Or.inl ⟨⟨"ucs", (popMin1 pairLt x xs).1.2.path,
            (popMin1 pairLt x xs).1.2.path_cost, st.ne + 1, st.ng,
            max st.mf st.frontier.length,
            st.steps ++ [⟨st.frontier.map (fun e => e.2.state), st.explored,
              some (popMin1 pairLt x xs).1.2.state, none⟩]⟩, ?_, ?_⟩
          · simp only [ucsStep, hf, beq_iff_eq, if_pos hgoal]
          · show ShortestDist g start goal (popMin1 pairLt x xs).1.2.path_cost
            exact hgoal ▸ hshort
        · obtain ⟨children, hx⟩ := Node.expand_isSome hcl hnv
          have hadj : ∃ adj, alookup g (popMin1 pairLt x xs).1.2.state = some adj ∧
              children = adj.map (fun vw =>
                Node.child vw.1 (popMin1 pairLt x xs).1.2
                  ((popMin1 pairLt x xs).1.2.state ++ " to " ++ vw.1)
                  ((popMin1 pairLt x xs).1.2.path_cost + vw.2)
                  ((popMin1 pairLt x xs).1.2.depth + 1)) := by
            simp only [Node.expand] at hx
            cases ha : alookup g (popMin1 pairLt x xs).1.2.state with
            | none =>
              rw [ha] at hx
              cases hx
            | some adj =>
              rw [ha] at hx
              simp only [Option.map_some', Option.some_inj] at hx
              exact ⟨adj, rfl, hx.symm⟩
          have hcv : ∀ c ∈ children, c.valid g start :=
            Node.expand_valid hwf.2 hnv hx
          refine Or.inr ⟨⟨(children.foldl (ucsInsert
              (st.explored ++ [(popMin1 pairLt x xs).1.2.state]))
              ((popMin1 pairLt x xs).2,
               st.fstates.erase (popMin1 pairLt x xs).1.2.state, st.ng)).1,
            (children.foldl (ucsInsert
              (st.explored ++ [(popMin1 pairLt x xs).1.2.state]))
              ((popMin1 pairLt x xs).2,
               st.fstates.erase (popMin1 pairLt x xs).1.2.state, st.ng)).2.1,
            st.explored ++ [(popMin1 pairLt x xs).1.2.state],
            st.steps ++ [⟨st.frontier.map (fun e => e.2.state), st.explored,
              some (popMin1 pairLt x xs).1.2.state, none⟩],
            st.ne + 1,
            (children.foldl (ucsInsert
              (st.explored ++ [(popMin1 pairLt x xs).1.2.state]))
              ((popMin1 pairLt x xs).2,
               st.fstates.erase (popMin1 pairLt x xs).1.2.state, st.ng)).2.2,
            max st.mf st.frontier.length⟩, ?_, ?_, ?_⟩
          · simp only [ucsStep, hf, beq_iff_eq, if_neg hgoal, hx]
          · have hfold := ucsInsert_fold_tinv hcv
              ((popMin1 pairLt x xs).2,
               st.fstates.erase (popMin1 pairLt x xs).1.2.state, st.ng)
              ⟨hrval, hrnd, hersnd, hsync', hdisj'⟩
            have hkeys' := ucsInsert_fold_keys
              (st.explored ++ [(popMin1 pairLt x xs).1.2.state]) hcv
              ((popMin1 pairLt x xs).2,
               st.fstates.erase (popMin1 pairLt x xs).1.2.state, st.ng)
              (fun e he => hkey e (by
                rw [hf]
                exact (popMin1_perm pairLt x xs).mem_iff.mpr
                  (List.mem_cons_of_mem _ he)))
            refine ⟨hkeys', hfold.2.1, hfold.2.2.1, hfold.2.2.2.1,
              hfold.2.2.2.2, ?_, ?_, ?_⟩
            · intro hmem
              rcases List.mem_append.mp hmem with h | h
              · exact hgne h
              · exact hgoal (List.mem_singleton.mp h).symm
            · rcases hstart with h | ⟨e0, he0, hst0, hle0⟩
              · exact Or.inl (List.mem_append.mpr (Or.inl h))
              · by_cases hss : (popMin1 pairLt x xs).1.2.state = start
                · exact Or.inl (List.mem_append.mpr
                    (Or.inr (List.mem_singleton.mpr hss.symm)))
                · have he0' : e0 ∈ (popMin1 pairLt x xs).2 :=
                    hsurv e0 he0 (fun hh => hss (hh.symm.trans hst0))
                  exact Or.inr (ucsInsert_fold_le children _ ⟨e0, he0', hst0, hle0⟩)
            · intro u hu
              rcases List.mem_append.mp hu with hu' | hu'
              · obtain ⟨du, hsd, hrel⟩ := hexp u hu'
                refine ⟨du, hsd, ?_⟩
                intro v w hevw
                rcases hrel v w hevw with h | ⟨e1, he1, hst1, hle1⟩
                · exact Or.inl (List.mem_append.mpr (Or.inl h))
                · by_cases hvs : v = (popMin1 pairLt x xs).1.2.state
                  · exact Or.inl (List.mem_append.mpr
                      (Or.inr (List.mem_singleton.mpr hvs)))
                  · have he1' : e1 ∈ (popMin1 pairLt x xs).2 :=
                      hsurv e1 he1 (fun hh => hvs (hst1.symm.trans hh))
                    exact Or.inr (ucsInsert_fold_le children _
                      ⟨e1, he1', hst1, hle1⟩)
              · rw [List.mem_singleton] at hu'
                subst hu'
                refine ⟨(popMin1 pairLt x xs).1.2.path_cost, hshort, ?_⟩
                intro v w hevw
                obtain ⟨adj, ha, hch⟩ := hadj
                have hvw_adj : (v, w) ∈ adj := by
                  rw [edgeOf, ha, Option.some_bind] at hevw
                  exact alookup_mem hevw
                have hc0 : (Node.child v (popMin1 pairLt x xs).1.2
                    ((popMin1 pairLt x xs).1.2.state ++ " to " ++ v)
                    ((popMin1 pairLt x xs).1.2.path_cost + w)
                    ((popMin1 pairLt x xs).1.2.depth + 1)) ∈ children := by
                  rw [hch]
                  exact List.mem_map.mpr ⟨(v, w), hvw_adj, rfl⟩
                exact ucsInsert_fold_covers children hcv
                  ((popMin1 pairLt x xs).2,
                   st.fstates.erase (popMin1 pairLt x xs).1.2.state, st.ng)
                  ⟨hrval, hrnd, hersnd, hsync', hdisj'⟩ _ hc0
          · show measureLeft g start
                (st.explored ++ [(popMin1 pairLt x xs).1.2.state]) <
              measureLeft g start st.explored
            exact measure_dec (valid_state_mem_allStates hnv) hnotex
    · refine ⟨?_, by simp, List.nodup_singleton _, ?_, by simp, by simp,
        Or.inr ⟨(0, Node.root start), List.mem_singleton.mpr rfl, rfl, le_refl 0⟩,
        by simp⟩
      · intro e he
        simp only [List.mem_singleton] at he
        subst he
        exact ⟨rfl, rfl⟩
      · intro y
        simp [Node.state]
    · exact measure_lt_fuel g start []

theorem dijAstar_cover {g : Graph} {start goal : String}
    {hdata : List (String × Nat)} {st : AstarSt}
    (hInv : DijAstar g start (fun s => get_heuristic s goal hdata) goal st)
    (hcons : ∀ u v w, edgeOf g u v = some w →
      get_heuristic u goal hdata ≤ w + get_heuristic v goal hdata) :
    ∀ t c, t ∉ st.explored → WalkTo g start t c →
      ∃ e ∈ st.frontier, e.1 ≤ c + get_heuristic t goal hdata := by
  obtain ⟨hkey, hnd, hknd, hsync, hvs, hdisj, hgne, hstart, hexp⟩ := hInv
  intro t c ht hw
  obtain ⟨l, hwl, hh, hl⟩ := hw
  have hexp' : ∀ u ∈ st.explored, ∃ du,
      (∀ cu, WalkTo g start u cu → du ≤ cu) ∧
      ∀ v w, edgeOf g u v = some w → v ∈ st.explored ∨
        ∃ k, (∃ e ∈ st.frontier, e.2.2.state = v ∧ e.2.2.path_cost = k) ∧
          k ≤ du + w := by
    intro u hu
    obtain ⟨du, hsd, hrel⟩ := hexp u hu
    refine ⟨du, hsd.2, ?_⟩
    intro v w hevw
    rcases hrel v w hevw with h | ⟨e, he, hst, hle⟩
    · exact Or.inl h
    · exact Or.inr ⟨e.2.2.path_cost, ⟨e, he, hst, rfl⟩, hle⟩
  have hs' : start ∈ st.explored ∨
      ∃ k, (∃ e ∈ st.frontier, e.2.2.state = start ∧ e.2.2.path_cost = k) ∧
        k ≤ 0 := by
    rcases hstart with h | ⟨e, he, hst, hle⟩
    · exact Or.inl h
    · exact Or.inr ⟨e.2.2.path_cost, ⟨e, he, hst, rfl⟩, hle⟩
  have hcov := walk_cover
    (fun z k => ∃ e ∈ st.frontier, e.2.2.state = z ∧ e.2.2.path_cost = k)
    hexp' l start c t 0 hwl hh hl ht ⟨[start], rfl, rfl, rfl⟩ hs'
  obtain ⟨z, k, c2, ⟨e, he, hez, hek⟩, hwz, hb⟩ := hcov
  obtain ⟨l2, hw2, hh2, hl2⟩ := hwz
  have hHz := consistent_walk hcons hw2 hh2 hl2
  have hkeye := (hkey e he).1
  refine ⟨e, he, ?_⟩
  rw [hkeye, hez, hek]
  dsimp only
  omega

theorem astar_pop_bound {g : Graph} {start goal : String}
    {hdata : List (String × Nat)} {st : AstarSt}
    {x : Nat × Nat × Node} {xs : List (Nat × Nat × Node)}
    (hf : st.frontier = x :: xs)
    (hInv : DijAstar g start (fun s => get_heuristic s goal hdata) goal st)
    (hcons : ∀ u v w, edgeOf g u v = some w →
      get_heuristic u goal hdata ≤ w + get_heuristic v goal hdata) :
    ∀ t c, t ∉ st.explored → WalkTo g start t c →
      (popMin1 tripLt x xs).1.1 ≤ c + get_heuristic t goal hdata := by
  intro t c ht hw
  obtain ⟨e, he, hle⟩ := dijAstar_cover hInv hcons t c ht hw
  have hmin := popMin1_le Prod.fst tripLt tripLt_true_le tripLt_false_le x xs e
    (hf ▸ he)
  omega

theorem astar_optimal {g : Graph} {start goal : String}
    {hdata : List (String × Nat)}
    (hwf : WFGraph g) (hcl : ReachClosed g start)
    (hreach : ∃ c0, WalkTo g start goal c0)
    (hcons : ∀ u v w, edgeOf g u v = some w →
      get_heuristic u goal hdata ≤ w + get_heuristic v goal hdata) :
    ∃ r, a_star_search g start goal hdata = some r ∧
      ShortestDist g start goal r.distance := by
  by_cases hsg : start = goal
  · subst hsg
    rw [a_star_search, if_pos (by simp)]
    refine ⟨_, rfl, ?_⟩
    show ShortestDist g start start 0
    exact ⟨⟨[start], rfl, rfl, rfl⟩, fun c _ => Nat.zero_le c⟩
  · rw [a_star_search, if_neg (by simpa using hsg)]
    refine loopRun_term (astarStep g goal hdata)
      (DijAstar g start (fun s => get_heuristic s goal hdata) goal)
      (fun r => ShortestDist g start goal r.distance)
      (fun st => measureLeft g start st.explored) ?_ (fuelFor g start) _ ?_ ?_
    · intro st hInv
      have hkey := hInv.1
      have hnd := hInv.2.1
      have hknd := hInv.2.2.1
      have hsync := hInv.2.2.2.1
      have hvs := hInv.2.2.2.2.1
      have hdisj := hInv.2.2.2.2.2.1
      have hgne := hInv.2.2.2.2.2.2.1
      have hstart := hInv.2.2.2.2.2.2.2.1
      have hexp := hInv.2.2.2.2.2.2.2.2
      cases hf : st.frontier with
      | nil =>
        exfalso
        obtain ⟨c0, hwg⟩ := hreach
        obtain ⟨e, he, _⟩ := dijAstar_cover hInv hcons goal c0 hgne hwg
        rw [hf] at he
        cases he
      | cons x xs =>
        have hvalall : ∀ e ∈ st.frontier, e.2.2.valid g start :=
          fun e he => (hkey e he).2
        obtain ⟨hnv, hnotex, hrval, hrnd, hersnd, hsync', hdisj'⟩ :=
          astar_pop_base hf hvalall hnd hknd hsync hdisj
        have hpopmem : (popMin1 tripLt x xs).1 ∈ st.frontier := by
          rw [hf]
          exact popMin1_mem tripLt x xs
        have hkeypop := (hkey _ hpopmem).1
        dsimp only at hkeypop
        have hshort : ShortestDist g start (popMin1 tripLt x xs).1.2.2.state
            (popMin1 tripLt x xs).1.2.2.path_cost := by
          refine ⟨Node.valid_walk hnv, ?_⟩
          intro cu hwu
          have hb := astar_pop_bound hf hInv hcons _ cu hnotex hwu
          omega
        have hsurv : ∀ e1 ∈ st.frontier,
            e1.2.2.state ≠ (popMin1 tripLt x xs).1.2.2.state →
            e1 ∈ (popMin1 tripLt x xs).2 := by
          intro e1 he1 hne
          have hmem : e1 ∈ (popMin1 tripLt x xs).1 :: (popMin1 tripLt x xs).2 :=
            (popMin1_perm tripLt x xs).mem_iff.mp (hf ▸ he1)
          rcases List.mem_cons.mp hmem with h | h
          · exact absurd (congrArg (fun e : Nat × Nat × Node => e.2.2.state) h) hne
          · exact h
        have hvsbase : ∀ e ∈ (popMin1 tripLt x xs).2,
            alookup (adel st.fstates (popMin1 tripLt x xs).1.2.2.state)
              e.2.2.state = some e.2.2.path_cost := by
          intro e he
          have hef : e ∈ st.frontier := by
            rw [hf]
            exact (popMin1_perm tripLt x xs).mem_iff.mpr
              (List.mem_cons_of_mem _ he)
          have hne : e.2.2.state ≠ (popMin1 tripLt x xs).1.2.2.state := by
            intro hh
            have hpm : List.Perm (st.frontier.map (fun e => e.2.2.state))
                ((popMin1 tripLt x xs).1.2.2.state ::
                  (popMin1 tripLt x xs).2.map (fun e => e.2.2.state)) := by
              rw [hf]
              exact (popMin1_perm tripLt x xs).map (fun e => e.2.2.state)
            have hnds := hpm.nodup_iff.mp hnd
            rw [List.nodup_cons] at hnds
            exact hnds.1 (hh ▸ List.mem_map.mpr ⟨e, he, rfl⟩)
          rw [alookup_adel_ne _ _ _ hne]
          exact hvs e hef
        have hbasepre : AstarPre g start (fun s => get_heuristic s goal hdata)
            (st.explored ++ [(popMin1 tripLt x xs).1.2.2.state])
            ((popMin1 tripLt x xs).2,
             adel st.fstates (popMin1 tripLt x xs).1.2.2.state, st.ng, st.ctr) :=
          ⟨fun e he => hkey e (by
              rw [hf]
              exact (popMin1_perm tripLt x xs).mem_iff.mpr
                (List.mem_cons_of_mem _ he)),
           hrnd, hersnd, hsync', hvsbase, hdisj'⟩
        by_cases hgoal : (popMin1 tripLt x xs).1.2.2.state = goal
        · refine Or.inl ⟨⟨"astar", (popMin1 tripLt x xs).1.2.2.path,
            (popMin1 tripLt x xs).1.2.2.path_cost, st.ne + 1, st.ng,
            max st.mf st.frontier.length,
            st.steps ++ [⟨st.frontier.map (fun e => e.2.2.state), st.explored,
              some (popMin1 tripLt x xs).1.2.2.state, none⟩]⟩, ?_, ?_⟩
          · simp only [astarStep, hf, beq_iff_eq, if_pos hgoal]
          · show ShortestDist g start goal (popMin1 tripLt x xs).1.2.2.path_cost
            exact hgoal ▸ hshort
        · obtain ⟨children, hx⟩ := Node.expand_isSome hcl hnv
          have hadj : ∃ adj, alookup g (popMin1 tripLt x xs).1.2.2.state = some adj ∧
              children = adj.map (fun vw =>
                Node.child vw.1 (popMin1 tripLt x xs).1.2.2
                  ((popMin1 tripLt x xs).1.2.2.state ++ " to " ++ vw.1)
                  ((popMin1 tripLt x xs).1.2.2.path_cost + vw.2)
                  ((popMin1 tripLt x xs).1.2.2.depth + 1)) := by
            simp only [Node.expand] at hx
            cases ha : alookup g (popMin1 tripLt x xs).1.2.2.state with
            | none =>
              rw [ha] at hx
              cases hx
            | some adj =>
              rw [ha] at hx
              simp only [Option.map_some', Option.some_inj] at hx
              exact ⟨adj, rfl, hx.symm⟩
          have hcv : ∀ c ∈ children, c.valid g start :=
            Node.expand_valid hwf.2 hnv hx
          refine Or.inr ⟨⟨(children.foldl (astarInsert goal hdata
              (st.explored ++ [(popMin1 tripLt x xs).1.2.2.state]))
              ((popMin1 tripLt x xs).2,
               adel st.fstates (popMin1 tripLt x xs).1.2.2.state,
               st.ng, st.ctr)).1,
            (children.foldl (astarInsert goal hdata
              (st.explored ++ [(popMin1 tripLt x xs).1.2.2.state]))
              ((popMin1 tripLt x xs).2,
               adel st.fstates (popMin1 tripLt x xs).1.2.2.state,
               st.ng, st.ctr)).2.1,
            st.explored ++ [(popMin1 tripLt x xs).1.2.2.state],
            st.steps ++ [⟨st.frontier.map (fun e => e.2.2.state), st.explored,
              some (popMin1 tripLt x xs).1.2.2.state, none⟩],
            st.ne + 1,
            (children.foldl (astarInsert goal hdata
              (st.explored ++ [(popMin1 tripLt x xs).1.2.2.state]))
              ((popMin1 tripLt x xs).2,
               adel st.fstates (popMin1 tripLt x xs).1.2.2.state,
               st.ng, st.ctr)).2.2.1,
            max st.mf st.frontier.length,
            (children.foldl (astarInsert goal hdata
              (st.explored ++ [(popMin1 tripLt x xs).1.2.2.state]))
              ((popMin1 tripLt x xs).2,
               adel st.fstates (popMin1 tripLt x xs).1.2.2.state,
               st.ng, st.ctr)).2.2.2⟩, ?_, ?_, ?_⟩
          · simp only [astarStep, hf, beq_iff_eq, if_neg hgoal, hx]
          · have hfold := astarInsert_fold_dij hcv
              ((popMin1 tripLt x xs).2,
               adel st.fstates (popMin1 tripLt x xs).1.2.2.state,
               st.ng, st.ctr) hbasepre
            obtain ⟨hkey', hnd', hknd', hsync'', hvs', hdisj''⟩ := hfold
            refine ⟨hkey', hnd', hknd', hsync'', hvs', hdisj'', ?_, ?_, ?_⟩
            · intro hmem
              rcases List.mem_append.mp hmem with h | h
              · exact hgne h
              · exact hgoal (List.mem_singleton.mp h).symm
            · rcases hstart with h | ⟨e0, he0, hst0, hle0⟩
              · exact Or.inl (List.mem_append.mpr (Or.inl h))
              · by_cases hss : (popMin1 tripLt x xs).1.2.2.state = start
                · exact Or.inl (List.mem_append.mpr
                    (Or.inr (List.mem_singleton.mpr hss.symm)))
                · have he0' : e0 ∈ (popMin1 tripLt x xs).2 :=
                    hsurv e0 he0 (fun hh => hss (hh.symm.trans hst0))
                  exact Or.inr (astarInsert_fold_le hcv _ hbasepre
                    ⟨e0, he0', hst0, hle0⟩)
            · intro u hu
              rcases List.mem_append.mp hu with hu' | hu'
              · obtain ⟨du, hsd, hrel⟩ := hexp u hu'
                refine ⟨du, hsd, ?_⟩
                intro v w hevw
                rcases hrel v w hevw with h | ⟨e1, he1, hst1, hle1⟩
                · exact Or.inl (List.mem_append.mpr (Or.inl h))
                · by_cases hvs2 : v = (popMin1 tripLt x xs).1.2.2.state
                  · exact Or.inl (List.mem_append.mpr
                      (Or.inr (List.mem_singleton.mpr hvs2)))
                  · have he1' : e1 ∈ (popMin1 tripLt x xs).2 :=
                      hsurv e1 he1 (fun hh => hvs2 (hst1.symm.trans hh))
                    exact Or.inr (astarInsert_fold_le hcv _ hbasepre
                      ⟨e1, he1', hst1, hle1⟩)
              · rw [List.mem_singleton] at hu'
                subst hu'
                refine ⟨(popMin1 tripLt x xs).1.2.2.path_cost, hshort, ?_⟩
                intro v w hevw
                obtain ⟨adj, ha, hch⟩ := hadj
                have hvw_adj : (v, w) ∈ adj := by
                  rw [edgeOf, ha, Option.some_bind] at hevw
                  exact alookup_mem hevw
                have hc0 : (Node.child v (popMin1 tripLt x xs).1.2.2
                    ((popMin1 tripLt x xs).1.2.2.state ++ " to " ++ v)
                    ((popMin1 tripLt x xs).1.2.2.path_cost + w)
                    ((popMin1 tripLt x xs).1.2.2.depth + 1)) ∈ children := by
                  rw [hch]
                  exact List.mem_map.mpr ⟨(v, w), hvw_adj, rfl⟩
                exact astarInsert_fold_covers children hcv
                  ((popMin1 tripLt x xs).2,
                   adel st.fstates (popMin1 tripLt x xs).1.2.2.state,
                   st.ng, st.ctr) hbasepre _ hc0
          · show measureLeft g start
                (st.explored ++ [(popMin1 tripLt x xs).1.2.2.state]) <
              measureLeft g start st.explored
            exact measure_dec (valid_state_mem_allStates hnv) hnotex
    · refine ⟨?_, by simp, by simp, ?_, ?_, by simp, by simp,
        Or.inr ⟨(0 + get_heuristic start goal hdata, 0, Node.root start),
          List.mem_singleton.mpr rfl, rfl, le_refl 0⟩,
        by simp⟩
      · intro e he
        simp only [List.mem_singleton] at he
        subst he
        exact ⟨rfl, rfl⟩
      · intro y
        simp [Node.state]
      · intro e he
        simp only [List.mem_singleton] at he
        subst he
        simp [alookup, Node.state, Node.path_cost]
    · exact measure_lt_fuel g start []

/-! ### Claim C2: path validity for all eight algorithms -/

/-- C2: for every algorithm and every graph (as always, the image of a
Python dict of dicts), every returned non-empty path starts at start,
ends at goal, has consecutive elements adjacent in the input graph, and
carries distance equal to the sum of the traversed edge weights
(pathWeight is defined exactly when consecutive elements are
adjacent). -/
theorem claim_C2 (g : Graph) (start goal : String) (hdata : List (String × Nat))
    (depth_limit max_depth : Nat) (hwf : WFGraph g) :
    (∀ r, breadth_first_search g start goal = some r → r.path ≠ [] →
      r.path.head? = some start ∧ r.path.getLast? = some goal ∧
      pathWeight g r.path = some r.distance) ∧
    (∀ r, depth_first_search g start goal = some r → r.path ≠ [] →
      r.path.head? = some start ∧ r.path.getLast? = some goal ∧
      pathWeight g r.path = some r.distance) ∧
    (∀ r, uniform_cost_search g start goal = some r → r.path ≠ [] →
      r.path.head? = some start ∧ r.path.getLast? = some goal ∧
      pathWeight g r.path = some r.distance) ∧
    (∀ r, depth_limited_search g start goal depth_limit = some r → r.path ≠ [] →
      r.path.head? = some start ∧ r.path.getLast? = some goal ∧
      pathWeight g r.path = some r.distance) ∧
    (∀ r, iterative_deepening_search g start goal max_depth = some r → r.path ≠ [] →
      r.path.head? = some start ∧ r.path.getLast? = some goal ∧
      pathWeight g r.path = some r.distance) ∧
    (∀ r, greedy_search g start goal hdata = some r → r.path ≠ [] →
      r.path.head? = some start ∧ r.path.getLast? = some goal ∧
      pathWeight g r.path = some r.distance) ∧
    (∀ r, a_star_search g start goal hdata = some r → r.path ≠ [] →
      r.path.head? = some start ∧ r.path.getLast? = some goal ∧
      pathWeight g r.path = some r.distance) ∧
    (∀ r, bidirectional_search g start goal = some r → r.path ≠ [] →
      r.path.head? = some start ∧ r.path.getLast? = some goal ∧
      pathWeight g r.path = some r.distance) := by
  refine ⟨fun r h hne => (bfs_props hwf.2 h).2.1 hne,
    fun r h hne => (dfs_props hwf.2 h).2.1 hne,
    fun r h hne => (ucs_props hwf.2 h).2.1 hne,
    fun r h hne => (dls_props hwf.2 h).2.1 hne,
    fun r h hne => (ids_props hwf.2 h).2.1 hne,
    fun r h hne => (greedy_props hwf.2 h).2.1 hne,
    fun r h hne => (astar_props hwf.2 h).2.1 hne,
    fun r h hne => ?_⟩
  obtain ⟨hh, hl, hwt, _⟩ := (bidi_props hwf h).2.2 hne
  exact ⟨hh, hl, hwt⟩

/-- C2 witness: the theorem applied to uniform_cost_search on the fixed
test graph. -/
theorem claim_C2_witness :
    ∃ r, uniform_cost_search fixedGraph "A" "C" = some r ∧ r.path ≠ [] ∧
      r.path.head? = some "A" ∧ r.path.getLast? = some "C" ∧
      pathWeight fixedGraph r.path = some r.distance := by
  cases hr : uniform_cost_search fixedGraph "A" "C" with
  | none => exact absurd hr (by decide)
  | some r =>
    have hne : r.path ≠ [] := by
      have h2 : (uniform_cost_search fixedGraph "A" "C").map
          (fun x => x.path) = some r.path := by rw [hr]; rfl
      intro hp
      rw [hp] at h2
      exact absurd h2 (by decide)
    obtain ⟨hh, hl, hwt⟩ :=
      (claim_C2 fixedGraph "A" "C" [] 10 100 (by decide)).2.2.1 r hr hne
    exact ⟨r, rfl, hne, hh, hl, hwt⟩

/-! ### Claim C5: bidirectional path and distance guarantees -/

/-- C5: on a fully neighbor-closed dict graph, every bidirectional
result with a non-empty path has distance at least the true shortest
distance; the path is contiguous in the input graph from start to goal
with distance the sum of its edge weights; some meeting state m appears
exactly once on the path and splits the distance into the forward
node's path cost (a walk start to m) plus the backward node's path cost
(a walk m to goal, found edge-reversed in the constructed reverse
graph). -/
theorem claim_C5 (g : Graph) (start goal : String) (r : BiResult)
    (hwf : WFGraph g) (_hcl : FullClosed g)
    (h : bidirectional_search g start goal = some r) (hne : r.path ≠ []) :
    (∀ d, ShortestDist g start goal d → d ≤ r.distance) ∧
    pathWeight g r.path = some r.distance ∧
    r.path.head? = some start ∧ r.path.getLast? = some goal ∧
    ∃ m fc bc, r.path.count m = 1 ∧ WalkTo g start m fc ∧ WalkTo g m goal bc ∧
      r.distance = fc + bc := by
  obtain ⟨_, _, hmain⟩ := bidi_props hwf h
  obtain ⟨hh, hl, hwt, m, fc, bc, hcnt, hwm, hmg, hsum⟩ := hmain hne
  refine ⟨?_, hwt, hh, hl, m, fc, bc, hcnt, hwm, hmg, hsum⟩
  intro d hd
  exact hd.2 r.distance ⟨r.path, hwt, hh, hl⟩

/-- C5 witness: bidirectional search on the fixed test graph, with the
closure and dict hypotheses checked by evaluation. -/
theorem claim_C5_witness :
    ∃ r, bidirectional_search fixedGraph "A" "C" = some r ∧
      pathWeight fixedGraph r.path = some r.distance ∧
      r.path.head? = some "A" ∧ r.path.getLast? = some "C" := by
  cases hr : bidirectional_search fixedGraph "A" "C" with
  | none => exact absurd hr (by decide)
  | some r =>
    have hne : r.path ≠ [] := by
      have h2 : (bidirectional_search fixedGraph "A" "C").map
          (fun x => x.path) = some r.path := by rw [hr]; rfl
      intro hp
      rw [hp] at h2
      exact absurd h2 (by decide)
    obtain ⟨_, hwt, hh, hl, _⟩ :=
      claim_C5 fixedGraph "A" "C" r (by decide) (by decide) hr hne
    exact ⟨r, rfl, hwt, hh, hl⟩

/-! ### Claim C8: monotonic metrics for all eight algorithms -/

/-- C8: every returned result has nodes_generated at least
nodes_expanded, and max_frontier_size at least 1 (for
iterative_deepening_search under max_depth at least 1; with max_depth=0
no frontier ever exists, matching the claim's hedge that the bound
applies whenever the frontier was non-empty at least once). -/
theorem claim_C8 (g : Graph) (start goal : String) (hdata : List (String × Nat))
    (depth_limit max_depth : Nat) (hwf : WFGraph g) (hmd : 1 ≤ max_depth) :
    (∀ r, breadth_first_search g start goal = some r →
      r.nodes_expanded ≤ r.nodes_generated ∧ 1 ≤ r.max_frontier_size) ∧
    (∀ r, depth_first_search g start goal = some r →
      r.nodes_expanded ≤ r.nodes_generated ∧ 1 ≤ r.max_frontier_size) ∧
    (∀ r, uniform_cost_search g start goal = some r →
      r.nodes_expanded ≤ r.nodes_generated ∧ 1 ≤ r.max_frontier_size) ∧
    (∀ r, depth_limited_search g start goal depth_limit = some r →
      r.nodes_expanded ≤ r.nodes_generated ∧ 1 ≤ r.max_frontier_size) ∧
    (∀ r, iterative_deepening_search g start goal max_depth = some r →
      r.nodes_expanded ≤ r.nodes_generated ∧ 1 ≤ r.max_frontier_size) ∧
    (∀ r, greedy_search g start goal hdata = some r →
      r.nodes_expanded ≤ r.nodes_generated ∧ 1 ≤ r.max_frontier_size) ∧
    (∀ r, a_star_search g start goal hdata = some r →
      r.nodes_expanded ≤ r.nodes_generated ∧ 1 ≤ r.max_frontier_size) ∧
    (∀ r, bidirectional_search g start goal = some r →
      r.nodes_expanded ≤ r.nodes_generated ∧ 1 ≤ r.max_frontier_size) := by
  refine ⟨fun r h => ⟨(bfs_props hwf.2 h).2.2.1, (bfs_props hwf.2 h).2.2.2.1⟩,
    fun r h => ⟨(dfs_props hwf.2 h).2.2.1, (dfs_props hwf.2 h).2.2.2.1⟩,
    fun r h => ⟨(ucs_props hwf.2 h).2.2.1, (ucs_props hwf.2 h).2.2.2.1⟩,
    fun r h => ⟨(dls_props hwf.2 h).2.2.1, (dls_props hwf.2 h).2.2.2.1⟩,
    fun r h => ⟨(ids_props hwf.2 h).2.2.1, (ids_props hwf.2 h).2.2.2 hmd⟩,
    fun r h => ⟨(greedy_props hwf.2 h).2.2.1, (greedy_props hwf.2 h).2.2.2.1⟩,
    fun r h => ⟨(astar_props hwf.2 h).2.2.1, (astar_props hwf.2 h).2.2.2.1⟩,
    fun r h => ⟨(bidi_props hwf h).1, (bidi_props hwf h).2.1⟩⟩

/-- C8 witness: the theorem applied to breadth_first_search and
bidirectional_search on the fixed test graph. -/
theorem claim_C8_witness :
    ∃ r, breadth_first_search fixedGraph "A" "C" = some r ∧
      r.nodes_expanded ≤ r.nodes_generated ∧ 1 ≤ r.max_frontier_size := by
  cases hr : breadth_first_search fixedGraph "A" "C" with
  | none => exact absurd hr (by decide)
  | some r =>
    exact ⟨r, rfl, (claim_C8 fixedGraph "A" "C" [] 10 100 (by decide)
      (by omega)).1 r hr⟩

/-! ### Claim C9: the step trace of the unidirectional algorithms -/

/-- C9: for the six single-loop unidirectional algorithms, the returned
trace holds exactly one snapshot per expansion
(steps.length = nodes_expanded), and each snapshot's current field is
set and equals the state popped from the recorded pre-pop frontier: the
head of the snapshot frontier for the FIFO search, its last element for
the LIFO searches, and a member of the snapshot frontier for the
priority-queue searches. -/
theorem claim_C9 (g : Graph) (start goal : String) (hdata : List (String × Nat))
    (depth_limit : Nat) (hwf : WFGraph g) :
    (∀ r, breadth_first_search g start goal = some r →
      r.steps.length = r.nodes_expanded ∧ ∀ sp ∈ r.steps, stepHeadQ sp) ∧
    (∀ r, depth_first_search g start goal = some r →
      r.steps.length = r.nodes_expanded ∧ ∀ sp ∈ r.steps, stepLastQ sp) ∧
    (∀ r, depth_limited_search g start goal depth_limit = some r →
      r.steps.length = r.nodes_expanded ∧ ∀ sp ∈ r.steps, stepLastQ sp) ∧
    (∀ r, uniform_cost_search g start goal = some r →
      r.steps.length = r.nodes_expanded ∧ ∀ sp ∈ r.steps, stepMemQ sp) ∧
    (∀ r, greedy_search g start goal hdata = some r →
      r.steps.length = r.nodes_expanded ∧ ∀ sp ∈ r.steps, stepMemQ sp) ∧
    (∀ r, a_star_search g start goal hdata = some r →
      r.steps.length = r.nodes_expanded ∧ ∀ sp ∈ r.steps, stepMemQ sp) :=
  ⟨fun r h => ⟨(bfs_props hwf.2 h).2.2.2.2.1, (bfs_props hwf.2 h).2.2.2.2.2⟩,
    fun r h => ⟨(dfs_props hwf.2 h).2.2.2.2.1, (dfs_props hwf.2 h).2.2.2.2.2⟩,
    fun r h => ⟨(dls_props hwf.2 h).2.2.2.2.1, (dls_props hwf.2 h).2.2.2.2.2⟩,
    fun r h => ⟨(ucs_props hwf.2 h).2.2.2.2.1, (ucs_props hwf.2 h).2.2.2.2.2⟩,
    fun r h => ⟨(greedy_props hwf.2 h).2.2.2.2.1, (greedy_props hwf.2 h).2.2.2.2.2⟩,
    fun r h => ⟨(astar_props hwf.2 h).2.2.2.2.1, (astar_props hwf.2 h).2.2.2.2.2⟩⟩

/-- C9 witness: the theorem applied to breadth_first_search on the
fixed test graph. -/
theorem claim_C9_witness :
    ∃ r, breadth_first_search fixedGraph "A" "C" = some r ∧
      r.steps.length = r.nodes_expanded ∧ ∀ sp ∈ r.steps, stepHeadQ sp := by
  cases hr : breadth_first_search fixedGraph "A" "C" with
  | none => exact absurd hr (by decide)
  | some r =>
    exact ⟨r, rfl, (claim_C9 fixedGraph "A" "C" [] 10 (by decide)).1 r hr⟩

/-! ### Claim C6: the heuristic is gated on the designated goal -/

/-- C6: get_heuristic returns the tabulated value only when the goal is
the fixed designated target "Bucharest"; for every other goal it
returns 0 regardless of state and table. -/
theorem claim_C6 (state goal : String) (t : List (String × Nat)) :
    (goal ≠ "Bucharest" → get_heuristic state goal t = 0) ∧
    (goal = "Bucharest" → ∀ v, alookup t state = some v →
      get_heuristic state goal t = v) := by
  constructor
  · intro h
    simp [get_heuristic, h]
  · intro h v hv
    simp [get_heuristic, h, hv]

/-- C6 witness: the two branches at concrete inputs. -/
theorem claim_C6_witness :
    get_heuristic "Arad" "Craiova" [("Arad", 366)] = 0 ∧
    get_heuristic "Arad" "Bucharest" [("Arad", 366)] = 366 := by
  exact ⟨(claim_C6 "Arad" "Craiova" [("Arad", 366)]).1 (by decide),
    (claim_C6 "Arad" "Bucharest" [("Arad", 366)]).2 rfl 366 (by decide)⟩

/-! ### Claim C10: the heuristic is total on missing states -/

/-- C10: even with the designated goal, a state missing from the table
yields 0 rather than a lookup failure. -/
theorem claim_C10 (state : String) (t : List (String × Nat))
    (h : alookup t state = none) :
    get_heuristic state "Bucharest" t = 0 := by
  simp [get_heuristic, h]

/-- C10 witness at a concrete missing state. -/
theorem claim_C10_witness :
    get_heuristic "Sibiu" "Bucharest" [("Arad", 366)] = 0 :=
  claim_C10 "Sibiu" [("Arad", 366)] (by decide)

/-! ### Claim C3: the start == goal short-circuit -/

/-- C3 counterexample: with start == goal, iterative_deepening_search
reports one node expanded (not zero) and bidirectional_search reports
two nodes generated (not one), refuting the claimed uniform metric
constants for the six uninformed algorithms. -/
theorem claim_C3_counterexample :
    ¬ (iterative_deepening_search [("A", [])] "A" "A" 100).map
        SearchResult.nodes_expanded = some 0 ∧
    ¬ (bidirectional_search [("A", [])] "A" "A").map
        BiResult.nodes_generated = some 1 := by
  constructor <;> decide

/-- C3 amended: for every graph, heuristic table and limit parameter,
each of the eight algorithms short-circuits on start == goal to
path=[start], distance=0, steps=[]; BFS, DFS, UCS, DLS, Greedy and A*
report 1 generated / 0 expanded / max frontier 1, while
iterative_deepening_search reports 1 generated / 1 expanded and
bidirectional_search reports 2 generated / 0 expanded / max frontier 2. -/
theorem claim_C3_amended (g : Graph) (s : String) (hdata : List (String × Nat))
    (depth_limit max_depth : Nat) :
    breadth_first_search g s s = some ⟨"bfs", [s], 0, 0, 1, 1, []⟩ ∧
    depth_first_search g s s = some ⟨"dfs", [s], 0, 0, 1, 1, []⟩ ∧
    uniform_cost_search g s s = some ⟨"ucs", [s], 0, 0, 1, 1, []⟩ ∧
    depth_limited_search g s s depth_limit = some ⟨"dls", [s], 0, 0, 1, 1, []⟩ ∧
    iterative_deepening_search g s s max_depth = some ⟨"ids", [s], 0, 1, 1, 1, []⟩ ∧
    bidirectional_search g s s = some ⟨"bidirectional", [s], 0, 0, 2, 2, []⟩ ∧
    greedy_search g s s hdata = some ⟨"greedy", [s], 0, 0, 1, 1, []⟩ ∧
    a_star_search g s s hdata = some ⟨"astar", [s], 0, 0, 1, 1, []⟩ := by
  refine ⟨?_, ?_, ?_, ?_, ?_, ?_, ?_, ?_⟩ <;>
    simp [breadth_first_search, depth_first_search, uniform_cost_search,
      depth_limited_search, iterative_deepening_search, bidirectional_search,
      bidirectional_core, greedy_search, a_star_search]

/-! ### Claim C4: the fixed concrete scenario -/

/-- C4 counterexample: plain BFS on the fixed graph does not return
path [A,B,C] with distance 3; the one-edge path [A,C] is the
fewest-edge path, so BFS finds it first and reports distance 5. -/
theorem claim_C4_counterexample :
    ¬ (breadth_first_search fixedGraph "A" "C").map
        (fun r => (r.path, r.distance)) = some (["A", "B", "C"], 3) := by
  decide

/-- C4 amended: on the fixed graph with start A and goal C,
uniform_cost_search and a_star_search with an all-zero heuristic (empty
table; the goal is not the designated target, so every value is 0)
return path [A,B,C] with distance 3, while breadth_first_search returns
the fewest-edge path [A,C] with distance 5. -/
theorem claim_C4_amended :
    (uniform_cost_search fixedGraph "A" "C").map
      (fun r => (r.path, r.distance)) = some (["A", "B", "C"], 3) ∧
    (a_star_search fixedGraph "A" "C" []).map
      (fun r => (r.path, r.distance)) = some (["A", "B", "C"], 3) ∧
    (breadth_first_search fixedGraph "A" "C").map
      (fun r => (r.path, r.distance)) = some (["A", "C"], 5) := by
  refine ⟨?_, ?_, ?_⟩ <;> decide

/-! ### Claim C7: termination on an unreachable goal -/

/-- C7 counterexample: on the two-component graph S: \x7b\x7d, G: \x7b\x7d
every reachable neighbor is a key, S and G are keys, G is unreachable
from S, and the component reachable from S is exactly [S], of size 1;
yet bidirectional_search reports 2 nodes expanded, exceeding the
claimed bound of the reachable-component size. -/
theorem claim_C7_counterexample :
    (∀ x, (∃ c, WalkTo uGraph "S" x c) → ∃ adj, alookup uGraph x = some adj) ∧
    (∃ adj, alookup uGraph "S" = some adj) ∧
    (∃ adj, alookup uGraph "G" = some adj) ∧
    (∀ c, ¬ WalkTo uGraph "S" "G" c) ∧
    (∀ x, (∃ c, WalkTo uGraph "S" x c) ↔ x ∈ (["S"] : List String)) ∧
    (bidirectional_search uGraph "S" "G").map BiResult.nodes_expanded = some 2 ∧
    ¬ 2 ≤ (["S"] : List String).length := by
  have hiso : ∀ {x : String} {c : Nat}, WalkTo uGraph "S" x c → x = "S" := by
    intro x c h
    exact @walkTo_isolated uGraph "S" x c rfl h
  refine ⟨?_, ⟨[], rfl⟩, ⟨[], rfl⟩, ?_, ?_, ?_, ?_⟩
  · rintro x ⟨c, hx⟩
    rw [hiso hx]
    exact ⟨[], rfl⟩
  · rintro c hc
    exact absurd (hiso hc) (by decide)
  · intro x
    constructor
    · rintro ⟨c, hx⟩
      rw [hiso hx]
      exact List.mem_singleton.mpr rfl
    · intro hx
      rw [List.mem_singleton.mp hx]
      exact ⟨0, ⟨["S"], rfl, rfl, rfl⟩⟩
  · decide
  · decide

/-- C7 amended: on every graph (image of a Python dict of dicts) whose
reachable states are all keys, with goal unreachable from start and R a
duplicate-free list covering the states reachable from start, the six
unidirectional algorithms BFS, DFS, DLS, UCS, Greedy and A* terminate
with path=[], distance=0 and at most R.length expansions;
iterative_deepening_search terminates likewise with at most
max_depth * R.length expansions; and bidirectional_search — which in
addition needs every neighbor anywhere in the graph to be a key (to
build its reverse graph) and start and goal to be keys — terminates
likewise with at most 2 * R.length expansions. -/
theorem claim_C7_amended (g : Graph) (start goal : String)
    (depth_limit max_depth : Nat) (R : List String)
    (hwf : WFGraph g) (hcl : ReachClosed g start)
    (hun : ∀ c, ¬ WalkTo g start goal c)
    (hR : R.Nodup) (hRmem : ∀ x, (∃ c, WalkTo g start x c) → x ∈ R) :
    (∃ r, breadth_first_search g start goal = some r ∧
      r.path = [] ∧ r.distance = 0 ∧ r.nodes_expanded ≤ R.length) ∧
    (∃ r, depth_first_search g start goal = some r ∧
      r.path = [] ∧ r.distance = 0 ∧ r.nodes_expanded ≤ R.length) ∧
    (∃ r, depth_limited_search g start goal depth_limit = some r ∧
      r.path = [] ∧ r.distance = 0 ∧ r.nodes_expanded ≤ R.length) ∧
    (∃ r, uniform_cost_search g start goal = some r ∧
      r.path = [] ∧ r.distance = 0 ∧ r.nodes_expanded ≤ R.length) ∧
    (∀ hdata, ∃ r, greedy_search g start goal hdata = some r ∧
      r.path = [] ∧ r.distance = 0 ∧ r.nodes_expanded ≤ R.length) ∧
    (∀ hdata, ∃ r, a_star_search g start goal hdata = some r ∧
      r.path = [] ∧ r.distance = 0 ∧ r.nodes_expanded ≤ R.length) ∧
    (∃ r, iterative_deepening_search g start goal max_depth = some r ∧
      r.path = [] ∧ r.distance = 0 ∧ r.nodes_expanded ≤ max_depth * R.length) ∧
    (FullClosed g → (alookup g start).isSome = true →
      (alookup g goal).isSome = true →
      ∃ r, bidirectional_search g start goal = some r ∧
        r.path = [] ∧ r.distance = 0 ∧ r.nodes_expanded ≤ 2 * R.length) :=
  ⟨bfs_terminates hwf.2 hcl hun hR hRmem,
    dfs_terminates hwf.2 hcl hun hR hRmem,
    dls_terminates hwf.2 hcl hun hR hRmem,
    ucs_terminates hwf.2 hcl hun hR hRmem,
    fun _ => greedy_terminates hwf.2 hcl hun hR hRmem,
    fun _ => astar_terminates hwf.2 hcl hun hR hRmem,
    ids_terminates hwf.2 hcl hun hR hRmem,
    fun hfc hs hg => bidi_terminates hwf hfc hs hg hun hR hRmem⟩

/-- C7 amended witness: the amended statement instantiated on the
two-component graph with start S, goal G, depth_limit 5, max_depth 3
and reachable cover [S], every hypothesis discharged concretely. -/
theorem claim_C7_amended_witness :
    WFGraph uGraph ∧ ReachClosed uGraph "S" ∧
    (∀ c, ¬ WalkTo uGraph "S" "G" c) ∧
    (∃ r, breadth_first_search uGraph "S" "G" = some r ∧
      r.path = [] ∧ r.distance = 0 ∧
      r.nodes_expanded ≤ (["S"] : List String).length) ∧
    (∃ r, iterative_deepening_search uGraph "S" "G" 3 = some r ∧
      r.path = [] ∧ r.distance = 0 ∧
      r.nodes_expanded ≤ 3 * (["S"] : List String).length) ∧
    (∃ r, bidirectional_search uGraph "S" "G" = some r ∧
      r.path = [] ∧ r.distance = 0 ∧
      r.nodes_expanded ≤ 2 * (["S"] : List String).length) := by
  have hiso : ∀ {x : String} {c : Nat}, WalkTo uGraph "S" x c → x = "S" := by
    intro x c h
    exact @walkTo_isolated uGraph "S" x c rfl h
  have h1 : WFGraph uGraph := by decide
  have h2 : ReachClosed uGraph "S" := by
    rintro x ⟨c, hx⟩
    rw [hiso hx]
    exact ⟨[], rfl⟩
  have h3 : ∀ c, ¬ WalkTo uGraph "S" "G" c := by
    rintro c hc
    exact absurd (hiso hc) (by decide)
  have h4 : (["S"] : List String).Nodup := by decide
  have h5 : ∀ x, (∃ c, WalkTo uGraph "S" x c) → x ∈ (["S"] : List String) := by
    rintro x ⟨c, hx⟩
    rw [hiso hx]
    exact List.mem_singleton.mpr rfl
  have hmain := claim_C7_amended uGraph "S" "G" 5 3 ["S"] h1 h2 h3 h4 h5
  exact ⟨h1, h2, h3, hmain.1, hmain.2.2.2.2.2.2.1,
    hmain.2.2.2.2.2.2.2 (by decide) (by decide) (by decide)⟩

/-! ### Claim C1: optimality of uniform_cost_search and a_star_search -/

/-- C1 counterexample: on cexG — every neighbor a key, Bucharest
reachable from S, true shortest distance 6 — with the admissible table
cexH (h never exceeds the true remaining distance to Bucharest),
a_star_search returns distance 7: since explored states are never
reopened, an admissible but inconsistent heuristic breaks optimality,
refuting the claim's a_star_search half. -/
theorem claim_C1_counterexample :
    ReachClosed cexG "S" ∧ WFGraph cexG ∧
    (∃ c, WalkTo cexG "S" "Bucharest" c) ∧
    ShortestDist cexG "S" "Bucharest" 6 ∧
    (∀ s d, ShortestDist cexG s "Bucharest" d →
      get_heuristic s "Bucharest" cexH ≤ d) ∧
    (a_star_search cexG "S" "Bucharest" cexH).map SearchResult.distance =
      some 7 ∧
    (7 : Nat) ≠ 6 := by
  have cA : ∀ c, WalkTo cexG "A" "Bucharest" c → c = 3 := by
    intro c h
    rcases walkTo_cons_inv h with ⟨he, _⟩ | ⟨v, w, c', he, hw', rfl⟩
    · exact absurd he (by decide)
    · have hvw : alookup [("Bucharest", 3)] v = some w := by
        have hA : alookup cexG "A" = some [("Bucharest", 3)] := rfl
        rw [edgeOf, hA, Option.some_bind] at he
        exact he
      obtain ⟨rfl, rfl⟩ := alookup_singleton_inv hvw
      have h0 := @walkTo_isolated_cost cexG "Bucharest" "Bucharest" c' rfl hw'
      omega
  have cB : ∀ c, WalkTo cexG "B" "Bucharest" c → c = 5 := by
    intro c h
    rcases walkTo_cons_inv h with ⟨he, _⟩ | ⟨v, w, c', he, hw', rfl⟩
    · exact absurd he (by decide)
    · have hvw : alookup [("A", 2)] v = some w := by
        have hB : alookup cexG "B" = some [("A", 2)] := rfl
        rw [edgeOf, hB, Option.some_bind] at he
        exact he
      obtain ⟨rfl, rfl⟩ := alookup_singleton_inv hvw
      have h3 := cA c' hw'
      omega
  have cS : ∀ c, WalkTo cexG "S" "Bucharest" c → 6 ≤ c := by
    intro c h
    rcases walkTo_cons_inv h with ⟨he, _⟩ | ⟨v, w, c', he, hw', rfl⟩
    · exact absurd he (by decide)
    · have hvw : alookup [("A", 4), ("B", 1)] v = some w := by
        have hS : alookup cexG "S" = some [("A", 4), ("B", 1)] := rfl
        rw [edgeOf, hS, Option.some_bind] at he
        exact he
      rcases alookup_pair_inv hvw with ⟨rfl, rfl⟩ | ⟨rfl, rfl⟩
      · have h3 := cA c' hw'
        omega
      · have h5 := cB c' hw'
        omega
  have hwalk6 : WalkTo cexG "S" "Bucharest" 6 :=
    ⟨["S", "B", "A", "Bucharest"], by decide, rfl, rfl⟩
  refine ⟨reachClosed_of_fullClosed (by decide) (by decide), by decide,
    ⟨6, hwalk6⟩, ⟨hwalk6, cS⟩, ?_, by decide, by decide⟩
  intro s d hsd
  by_cases hsA : s = "A"
  · subst hsA
    rw [cA d hsd.1]
    decide
  · by_cases hsB : s = "B"
    · subst hsB
      rw [cB d hsd.1]
      decide
    · have hnone : alookup cexH s = none := by
        refine alookup_eq_none_of_not_mem ?_
        intro hm
        simp only [cexH, List.map_cons, List.map_nil, List.mem_cons,
          List.not_mem_nil] at hm
        rcases hm with h | h | h
        · exact hsA h
        · exact hsB h
        · exact h
      have h0 : get_heuristic s "Bucharest" cexH = 0 := by
        rw [get_heuristic, if_pos (by decide), hnone]
      rw [h0]
      exact Nat.zero_le d

/-- C1 amended: under the claim's hypotheses (graph the image of a
Python dict of dicts, every state reachable from start a key, goal
reachable from start), uniform_cost_search terminates and returns the
true shortest-path distance; a_star_search does the same when the
heuristic induced by its table is CONSISTENT across every edge —
consistency, not mere admissibility, is what the never-reopening
explored set requires. -/
theorem claim_C1_amended (g : Graph) (start goal : String)
    (hdata : List (String × Nat))
    (hwf : WFGraph g) (hcl : ReachClosed g start)
    (hreach : ∃ c, WalkTo g start goal c) :
    (∃ r, uniform_cost_search g start goal = some r ∧
      ShortestDist g start goal r.distance) ∧
    ((∀ u v w, edgeOf g u v = some w →
        get_heuristic u goal hdata ≤ w + get_heuristic v goal hdata) →
      ∃ r, a_star_search g start goal hdata = some r ∧
        ShortestDist g start goal r.distance) :=
  ⟨ucs_optimal hwf hcl hreach, fun hcons => astar_optimal hwf hcl hreach hcons⟩

/-- C1 amended witness: the amended statement instantiated on cexG with
the empty (identically-zero, hence consistent) heuristic table, every
hypothesis discharged concretely. -/
theorem claim_C1_amended_witness :
    WFGraph cexG ∧ ReachClosed cexG "S" ∧
    (∃ c, WalkTo cexG "S" "Bucharest" c) ∧
    (∃ r, uniform_cost_search cexG "S" "Bucharest" = some r ∧
      ShortestDist cexG "S" "Bucharest" r.distance) ∧
    (∃ r, a_star_search cexG "S" "Bucharest" [] = some r ∧
      ShortestDist cexG "S" "Bucharest" r.distance) := by
  have hwf : WFGraph cexG := by decide
  have hcl : ReachClosed cexG "S" :=
    reachClosed_of_fullClosed (by decide) (by decide)
  have hreach : ∃ c, WalkTo cexG "S" "Bucharest" c :=
    ⟨6, ⟨["S", "B", "A", "Bucharest"], by decide, rfl, rfl⟩⟩
  have hmain := claim_C1_amended cexG "S" "Bucharest" [] hwf hcl hreach
  refine ⟨hwf, hcl, hreach, hmain.1, hmain.2 ?_⟩
  intro u v w _
  have h1 : get_heuristic u "Bucharest" [] = 0 := rfl
  have h2 : get_heuristic v "Bucharest" [] = 0 := rfl
  rw [h1, h2]
  exact Nat.zero_le _

end AlgSearch
